import Mathlib

/-!
# A verification development for `c-linked-list` (`src/src/list.c`)

The C library implements a generic doubly linked list as a circular ring of
heap nodes closed by a payload-less sentinel (`list->head`).

## Embedding

* The heap of `Node`s is a field-split memory `Mem`: one map per field of
  `struct node_t` (`data`, `next`, `prev`), indexed by node address.  Address
  `0` is the NULL pointer; `brk` is the next address `malloc` hands out.
  `malloc` is modelled as total (a fresh address), `free` leaves the maps alone.
  Where a call sequence depends on a destroyed node being allocated again, the
  reuse is written out with `Mem.recycle`.
* `struct list_iterator_t` is the record `Iter`; a cursor function takes the
  fields of the struct behind its `ListIterator` argument and returns the
  fields after the call. `Cursors` is the store of these structs by address,
  for the places where it matters which struct a `ListIterator` points to.
* `struct list_t` is the record `ListT`, passed by value; `id` stands for the
  address of the struct and is what an iterator's `list` field is compared to.
  The three callbacks are fixed at creation and never change, so they are
  parameters: `copy : α → Option α` (`none` is the NULL a failed copy returns),
  `cmp : α → α → Int`; `data_free` has no effect on the maps.
* A `ListData*` argument is an `Option α`, `none` being NULL.
* `size_t` counters are natural numbers; `--` wraps at `0` to `SIZE_MAX`.
* Every C loop is a recursive function on a fuel argument and yields `none`
  when the fuel is used up, so results are `Option`s; the theorems show that
  any fuel above the list size gives a result.
-/

namespace CLinkedList

/-! ## Data model -/

/-- The status codes of `ListStatus` in `list.h`. -/
inductive ListStatus where
  | LIST_SUCCESS
  | LIST_FAIL
  | LIST_NO_MEM
  | LIST_EINVAL
  | LIST_NOT_FOUND
  deriving DecidableEq, Repr

/-- The status codes of `NodeStatus` in `list.c`. -/
inductive NodeStatus where
  | NODE_SUCCESS
  | NODE_NO_MEM
  | NODE_EINVAL
  deriving DecidableEq, Repr

/-- The status codes of `ListIteratorStatus` in `list.h`. -/
inductive ListIteratorStatus where
  | LIST_ITERATOR_SUCCESS
  | LIST_ITERATOR_EINVAL
  | LIST_ITERATOR_END
  deriving DecidableEq, Repr

open ListStatus NodeStatus ListIteratorStatus

/-- The node heap: the three fields of `struct node_t`, each a map from node
address to field value, and the next fresh address. -/
structure Mem (α : Type) where
  data : Nat → Option α
  next : Nat → Nat
  prev : Nat → Nat
  brk : Nat

/-- The record `struct list_t` without its three callbacks. -/
structure ListT where
  id : Nat
  size : Nat
  iterator : Nat
  head : Nat
  deriving DecidableEq, Repr

/-- The record `struct list_iterator_t`. -/
structure Iter where
  list : Nat
  node : Nat
  end_edge : Bool
  start_edge : Bool
  deriving DecidableEq, Repr

/-- Largest value of a 64-bit `size_t`. -/
def SIZE_MAX : Nat := 2 ^ 64 - 1

/-- The `size_t` decrement `--n`: wraps around at zero. -/
def size_dec (n : Nat) : Nat := if n = 0 then SIZE_MAX else n - 1

/-- Pointwise update of a field map. -/
def upd {β : Type} (f : Nat → β) (a : Nat) (v : β) : Nat → β :=
  fun b => if b = a then v else f b

/-- The assignment `a->data = d`. -/
def Mem.setData {α : Type} (m : Mem α) (a : Nat) (d : Option α) : Mem α :=
  { m with data := upd m.data a d }

/-- The assignment `a->next = v`. -/
def Mem.setNext {α : Type} (m : Mem α) (a : Nat) (v : Nat) : Mem α :=
  { m with next := upd m.next a v }

/-- The assignment `a->prev = v`. -/
def Mem.setPrev {α : Type} (m : Mem α) (a : Nat) (v : Nat) : Mem α :=
  { m with prev := upd m.prev a v }

/-- A heap with nothing allocated; address `0` is reserved for NULL. -/
def Mem.empty (α : Type) : Mem α :=
  { data := fun _ => none, next := fun _ => 0, prev := fun _ => 0, brk := 1 }

/-- The heap as the allocator presents it when the cell `a`, passed to `free`
before, is the one the next `malloc` hands out: only the next address differs.
The functions below never call it; it is used to follow a call sequence in
which a destroyed node is allocated again. -/
def Mem.recycle {α : Type} (m : Mem α) (a : Nat) : Mem α := { m with brk := a }

/-! ## Functions that work on a node -/

/-- `node_create`: a fresh node with `data = prev = next = 0`. -/
def node_create {α : Type} (m : Mem α) : Nat × Mem α :=
  (m.brk,
    { data := upd m.data m.brk none
      next := upd m.next m.brk 0
      prev := upd m.prev m.brk 0
      brk := m.brk + 1 })

/-- `node_set`: store a copy of `data` in `node`. -/
def node_set {α : Type} (copy : α → Option α) (m : Mem α) (node : Nat)
    (data : Option α) : NodeStatus × Mem α :=
  match data with
  | none => (NODE_EINVAL, m)
  | some d =>
    if node = 0 then (NODE_EINVAL, m)
    else
      let m := m.setData node (copy d)
      if (m.data node).isNone then (NODE_NO_MEM, m) else (NODE_SUCCESS, m)

/-- `NodeStatus_to_ListStatus`. -/
def NodeStatus_to_ListStatus : NodeStatus → ListStatus
  | NODE_SUCCESS => LIST_SUCCESS
  | NODE_NO_MEM => LIST_NO_MEM
  | NODE_EINVAL => LIST_EINVAL

/-! ## Functions that work on a list -/

/-- `__list_get_first`: `list->head->next`. -/
def __list_get_first {α : Type} (m : Mem α) (l : ListT) : Nat := m.next l.head

/-- `__list_get_last`: `list->head->prev`. -/
def __list_get_last {α : Type} (m : Mem α) (l : ListT) : Nat := m.prev l.head

/-- `list_create`: the list struct, then its sentinel, linked to itself. -/
def list_create {α : Type} (m : Mem α) : ListT × Mem α :=
  let id := m.brk
  let m := { m with brk := m.brk + 1 }
  let (head, m) := node_create m
  let m := m.setPrev head head
  let m := m.setNext head head
  ({ id := id, size := 0, iterator := head, head := head }, m)

/-- `list_get_size`. -/
def list_get_size (l : ListT) : Nat := l.size

/-- `list_empty`. -/
def list_empty (l : ListT) : Bool := list_get_size l == 0

/-- `list_iterator_create`: a cursor on the first node. -/
def list_iterator_create {α : Type} (m : Mem α) (l : ListT) : Iter :=
  { list := l.id
    node := __list_get_first m l
    end_edge := false
    start_edge := if l.size = 0 then true else false }

/-- `list_push_after`: splice a new node after the cursor's node. -/
def list_push_after {α : Type} (copy : α → Option α) (m : Mem α) (l : ListT)
    (iterator : Option Iter) (data : Option α) : ListStatus × Mem α × ListT :=
  match iterator, data with
  | some it, some _ =>
    if l.id ≠ it.list ∨ it.end_edge = true then (LIST_EINVAL, m, l)
    else
      let (new, m) := node_create m
      let (res, m) := node_set copy m new data
      if res ≠ NODE_SUCCESS then (NodeStatus_to_ListStatus res, m, l)
      else
        let next := m.next it.node
        let m := m.setPrev next new
        let m := m.setNext new next
        let m := m.setPrev new it.node
        let m := m.setNext it.node new
        (LIST_SUCCESS, m, { l with size := l.size + 1 })
  | _, _ => (LIST_EINVAL, m, l)

/-- `list_push_before`: splice a new node before the cursor's node. -/
def list_push_before {α : Type} (copy : α → Option α) (m : Mem α) (l : ListT)
    (iterator : Option Iter) (data : Option α) : ListStatus × Mem α × ListT :=
  match iterator, data with
  | some it, some _ =>
    if l.id ≠ it.list ∨ it.start_edge = true then (LIST_EINVAL, m, l)
    else
      let (new, m) := node_create m
      let (res, m) := node_set copy m new data
      if res ≠ NODE_SUCCESS then (NodeStatus_to_ListStatus res, m, l)
      else
        let prev := m.prev it.node
        let m := m.setNext prev new
        let m := m.setPrev new prev
        let m := m.setNext new it.node
        let m := m.setPrev it.node new
        (LIST_SUCCESS, m, { l with size := l.size + 1 })
  | _, _ => (LIST_EINVAL, m, l)

/-- `list_push_front`: a temporary cursor on the sentinel, then
`list_push_after`. -/
def list_push_front {α : Type} (copy : α → Option α) (m : Mem α) (l : ListT)
    (data : Option α) : ListStatus × Mem α × ListT :=
  match data with
  | none => (LIST_EINVAL, m, l)
  | some _ =>
    let iterator := list_iterator_create m l
    let iterator := { iterator with node := l.head }
    list_push_after copy m l (some iterator) data

/-- `list_push_back`: a temporary cursor on the sentinel with `start_edge`
cleared, then `list_push_before`. -/
def list_push_back {α : Type} (copy : α → Option α) (m : Mem α) (l : ListT)
    (data : Option α) : ListStatus × Mem α × ListT :=
  match data with
  | none => (LIST_EINVAL, m, l)
  | some _ =>
    let iterator := list_iterator_create m l
    let iterator := { iterator with node := l.head }
    let iterator := { iterator with start_edge := false }
    list_push_before copy m l (some iterator) data

/-- The traversal `list_foreach` (and `LIST_FOREACH_FORWARD`): follow `next`
from `cur`, collecting the data, until a node without data is met. -/
def walk {α : Type} (data : Nat → Option α) (next : Nat → Nat) :
    Nat → Nat → Option (List α)
  | 0, _ => none
  | fuel + 1, cur =>
    match data cur with
    | none => some []
    | some d => (walk data next fuel (next cur)).map (fun r => d :: r)

/-- Forward contents: the data met from `head->next` along `next`. -/
def forward {α : Type} (fuel : Nat) (m : Mem α) (l : ListT) : Option (List α) :=
  walk m.data m.next fuel (__list_get_first m l)

/-- Backward contents: the data met from `head->prev` along `prev`. -/
def backward {α : Type} (fuel : Nat) (m : Mem α) (l : ListT) : Option (List α) :=
  walk m.data m.prev fuel (__list_get_last m l)

/-- The loop `list_foreach(iterator, list) { if (n-- == stop) break; }` of
`list_get_at` and `list_remove_at` (`stop = 0`) and of `list_push_at`
(`stop = 1`); the result is the node `iterator` ends on. -/
def foreach_count {α : Type} (m : Mem α) (stop : Nat) : Nat → Nat → Nat → Option Nat
  | 0, _, _ => none
  | fuel + 1, iterator, n =>
    if (m.data iterator).isNone then some iterator
    else if n = stop then some iterator
    else foreach_count m stop fuel (m.next iterator) (size_dec n)

/-- `list_push_at`: `n == 0` is `list_push_front`; otherwise the node at
position `n - 1` is located and the new node is linked in after it. The four
link assignments are in source order: the last one, `iterator->next->prev = new`,
reads `iterator->next` after it was set to `new`. -/
def list_push_at {α : Type} (fuel : Nat) (copy : α → Option α) (m : Mem α) (l : ListT)
    (n : Nat) (data : Option α) : Option (ListStatus × Mem α × ListT) :=
  if n = 0 then some (list_push_front copy m l data)
  else
    match data with
    | none => some (LIST_EINVAL, m, l)
    | some _ =>
      if l.size < n then some (LIST_EINVAL, m, l)
      else
        let (new, m) := node_create m
        let (res, m) := node_set copy m new data
        if res ≠ NODE_SUCCESS then some (NodeStatus_to_ListStatus res, m, l)
        else
          match foreach_count m 1 fuel (__list_get_first m l) n with
          | none => none
          | some iterator =>
            let m := m.setNext new (m.next iterator)
            let m := m.setPrev new iterator
            let m := m.setNext iterator new
            let m := m.setPrev (m.next iterator) new
            some (LIST_SUCCESS, m, { l with size := l.size + 1 })

/-- The loop of `__find_node`: stop on the first node whose data compares equal
to `data`, or on the node without data. -/
def __find_node_loop {α : Type} (cmp : α → α → Int) (m : Mem α) (data : α) :
    Nat → Nat → Option Nat
  | 0, _ => none
  | fuel + 1, iterator =>
    match m.data iterator with
    | none => some iterator
    | some d =>
      if cmp data d = 0 then some iterator
      else __find_node_loop cmp m data fuel (m.next iterator)

/-- `__find_node`. -/
def __find_node {α : Type} (fuel : Nat) (cmp : α → α → Int) (m : Mem α) (l : ListT)
    (data : α) : Option Nat :=
  __find_node_loop cmp m data fuel (__list_get_first m l)

/-- `list_remove`: unlink the node `__find_node` returns. -/
def list_remove {α : Type} (fuel : Nat) (cmp : α → α → Int) (m : Mem α) (l : ListT)
    (data : Option α) : Option (ListStatus × Mem α × ListT) :=
  match data with
  | none => some (LIST_EINVAL, m, l)
  | some d =>
    match __find_node fuel cmp m l d with
    | none => none
    | some iterator =>
      if iterator = 0 then some (LIST_NOT_FOUND, m, l)
      else
        let l := if l.iterator = iterator then { l with iterator := m.next l.iterator } else l
        let next := m.next iterator
        let prev := m.prev iterator
        let m := m.setNext prev next
        let m := m.setPrev next prev
        some (LIST_SUCCESS, m, { l with size := size_dec l.size })

/-- `list_pop_front`. -/
def list_pop_front {α : Type} (m : Mem α) (l : ListT) : Option α × Mem α × ListT :=
  if l.size = 0 then (none, m, l)
  else
    let first_node := __list_get_first m l
    let m := m.setNext l.head (m.next first_node)
    let m := m.setPrev (m.next first_node) l.head
    let data := m.data first_node
    (data, m, { l with size := size_dec l.size })

/-- `list_pop_back`. -/
def list_pop_back {α : Type} (m : Mem α) (l : ListT) : Option α × Mem α × ListT :=
  if l.size = 0 then (none, m, l)
  else
    let last_node := __list_get_last m l
    let m := m.setPrev l.head (m.prev last_node)
    let m := m.setNext (m.prev last_node) l.head
    let data := m.data last_node
    (data, m, { l with size := size_dec l.size })

/-- `list_remove_at`. -/
def list_remove_at {α : Type} (fuel : Nat) (m : Mem α) (l : ListT) (n : Nat) :
    Option (ListStatus × Mem α × ListT) :=
  if n ≥ l.size then some (LIST_EINVAL, m, l)
  else
    match foreach_count m 0 fuel (__list_get_first m l) n with
    | none => none
    | some iterator =>
      let l := if l.iterator = iterator then { l with iterator := m.next l.iterator } else l
      let m := m.setNext (m.prev iterator) (m.next iterator)
      let m := m.setPrev (m.next iterator) (m.prev iterator)
      some (LIST_SUCCESS, m, { l with size := size_dec l.size })

/-- `list_remove_iterator`: unlink the cursor's node and move the cursor to the
following node. -/
def list_remove_iterator {α : Type} (m : Mem α) (l : ListT) (iterator : Option Iter) :
    ListStatus × Mem α × ListT × Option Iter :=
  match iterator with
  | none => (LIST_EINVAL, m, l, none)
  | some it =>
    if l.id ≠ it.list then (LIST_EINVAL, m, l, some it)
    else
      let prev := m.prev it.node
      let next := m.next it.node
      let m := m.setNext prev next
      let m := m.setPrev next prev
      let l := { l with size := size_dec l.size }
      let it := { it with node := next }
      let it := if it.node = l.head then { it with end_edge := true } else it
      (LIST_SUCCESS, m, l, some it)

/-- The loop of `list_clear`: advance `list->iterator` until it is the
sentinel, destroying each node passed. -/
def list_clear_loop {α : Type} (m : Mem α) (head : Nat) : Nat → Nat → Option Nat
  | 0, _ => none
  | fuel + 1, iterator =>
    if iterator = head then some iterator
    else list_clear_loop m head fuel (m.next iterator)

/-- `list_clear`. -/
def list_clear {α : Type} (fuel : Nat) (m : Mem α) (l : ListT) : Option (Mem α × ListT) :=
  match list_clear_loop m l.head fuel (m.next l.head) with
  | none => none
  | some iterator =>
    let l := { l with iterator := iterator }
    let m := m.setPrev l.head l.head
    let m := m.setNext l.head l.head
    let l := { l with size := 0 }
    some (m, { l with iterator := l.head })

/-- `list_destroy`: `list_clear`, then the sentinel and the struct are freed. -/
def list_destroy {α : Type} (fuel : Nat) (m : Mem α) (l : ListT) : Option (Mem α) :=
  (list_clear fuel m l).map (fun r => r.1)

/-- The loop of `list_copy`: push a copy of every element of the source at the
back of `new`; on a failed push `new` is destroyed and NULL returned. `F` is
the fuel handed to `list_destroy`. -/
def list_copy_loop {α : Type} (copy : α → Option α) (F : Nat) :
    Nat → Mem α → ListT → Nat → Option (Option ListT × Mem α)
  | 0, _, _, _ => none
  | fuel + 1, m, new, iterator =>
    if (m.data iterator).isNone then some (some new, m)
    else
      match list_push_back copy m new (m.data iterator) with
      | (LIST_SUCCESS, m, new) => list_copy_loop copy F fuel m new (m.next iterator)
      | (_, m, new) => (list_destroy F m new).map (fun m => (none, m))

/-- `list_copy`; the result is `none` for the NULL pointer. -/
def list_copy {α : Type} (fuel : Nat) (copy : α → Option α) (m : Mem α) (l : ListT) :
    Option (Option ListT × Mem α) :=
  let (new, m) := list_create m
  list_copy_loop copy fuel fuel m new (__list_get_first m l)

/-- The loops of `__merge` on what is left of the two array slices: while both
are non-empty take the front of `a` if it compares `<= 0` against the front of
`b`, else the front of `b`; then the rest of `a` and the rest of `b` follow. -/
def __merge_loop {α : Type} (cmp : α → α → Int) : Nat → List α → List α → Option (List α)
  | 0, _, _ => none
  | fuel + 1, a :: as, b :: bs =>
    if cmp a b ≤ 0 then (__merge_loop cmp fuel as (b :: bs)).map (fun r => a :: r)
    else (__merge_loop cmp fuel (a :: as) bs).map (fun r => b :: r)
  | _ + 1, as, bs => some (as ++ bs)

/-- `__merge` on the array slices `a` (of `size_a` elements) and `b` (of
`size_b` elements); every iteration consumes an element, which bounds the
number of iterations. -/
def __merge {α : Type} (cmp : α → α → Int) (a b : List α) : Option (List α) :=
  __merge_loop cmp (a.length + b.length + 1) a b

/-- `__merge_sort` on the array slice `a` (its `size` is `a.length`): the
result code (`0` success, `1` failure) and the slice after the call. -/
def __merge_sort {α : Type} (cmp : α → α → Int) : Nat → List α → Option (Nat × List α)
  | 0, _ => none
  | fuel + 1, a =>
    let size := a.length
    if size ≤ 1 then some (0, a)
    else
      match __merge_sort cmp fuel (a.take (size / 2)) with
      | none => none
      | some (res1, left) =>
        match __merge_sort cmp fuel (a.drop (size / 2)) with
        | none => none
        | some (res2, right) =>
          match __merge cmp left right with
          | none => none
          | some sorted => some (if res1 + res2 = 0 then 0 else 1, sorted)

/-- First loop of `list_sort`: copy the data of every node into `listArray`.
The inner result is `none` when a copy failed. -/
def list_sort_fill {α : Type} (copy : α → Option α) (m : Mem α) :
    Nat → Nat → List α → Option (Option (List α))
  | 0, _, _ => none
  | fuel + 1, iterator, listArray =>
    match m.data iterator with
    | none => some (some listArray)
    | some d =>
      match copy d with
      | none => some none
      | some c => list_sort_fill copy m fuel (m.next iterator) (listArray ++ [c])

/-- Second loop of `list_sort`: `iterator->data = listArray[i++]` on every
node. -/
def list_sort_store {α : Type} (listArray : List α) :
    Nat → Mem α → Nat → Nat → Option (Mem α)
  | 0, _, _, _ => none
  | fuel + 1, m, iterator, i =>
    if (m.data iterator).isNone then some m
    else
      let m := m.setData iterator listArray[i]?
      list_sort_store listArray fuel m (m.next iterator) (i + 1)

/-- `list_sort`: sort a scratch copy through an array, then swap the rings. -/
def list_sort {α : Type} (fuel : Nat) (copy : α → Option α) (cmp : α → α → Int)
    (m : Mem α) (l : ListT) : Option (ListStatus × Mem α × ListT) :=
  match list_copy fuel copy m l with
  | none => none
  | some (none, m) => some (LIST_FAIL, m, l)
  | some (some sorted_list, m) =>
    match list_sort_fill copy m fuel (__list_get_first m sorted_list) [] with
    | none => none
    | some none => (list_destroy fuel m sorted_list).map (fun m => (LIST_FAIL, m, l))
    | some (some listArray) =>
      match __merge_sort cmp fuel listArray with
      | none => none
      | some (res, listArray) =>
        if res ≠ 0 then (list_destroy fuel m sorted_list).map (fun m => (LIST_FAIL, m, l))
        else
          match list_sort_store listArray fuel m (__list_get_first m sorted_list) 0 with
          | none => none
          | some m =>
            let tmp_head := l.head
            let l := { l with head := sorted_list.head }
            let l := { l with iterator := l.head }
            let sorted_list := { sorted_list with head := tmp_head }
            (list_destroy fuel m sorted_list).map (fun m => (LIST_SUCCESS, m, l))

/-! ## Element access -/

/-- `list_get_first`: move the internal scan cursor (and the cursor given, if
any) to `head->next` and return the data there. -/
def list_get_first {α : Type} (m : Mem α) (l : ListT) (iterator : Option Iter) :
    Option α × ListT × Option Iter :=
  let l := { l with iterator := __list_get_first m l }
  match iterator with
  | none => (m.data l.iterator, l, none)
  | some it =>
    if it.list ≠ l.id then (none, l, some it)
    else
      let it := { it with node := l.iterator }
      let it := if it.node = l.head then { it with start_edge := true }
        else { it with start_edge := false }
      (m.data l.iterator, l, some it)

/-- `list_get_last`: move the internal scan cursor (and the cursor given, if
any) to `head->prev` and return the data there. -/
def list_get_last {α : Type} (m : Mem α) (l : ListT) (iterator : Option Iter) :
    Option α × ListT × Option Iter :=
  let l := { l with iterator := __list_get_last m l }
  match iterator with
  | none => (m.data l.iterator, l, none)
  | some it =>
    if it.list ≠ l.id then (none, l, some it)
    else
      let it := { it with node := l.iterator }
      let it := if it.node = l.head then { it with end_edge := true }
        else { it with end_edge := false }
      (m.data l.iterator, l, some it)

/-- `list_get_next`: advance the cursor given (if any) and the internal scan
cursor, and return the data at the internal scan cursor. -/
def list_get_next {α : Type} (m : Mem α) (l : ListT) (iterator : Option Iter) :
    Option α × ListT × Option Iter :=
  match iterator with
  | none =>
    let l := { l with iterator := m.next l.iterator }
    (m.data l.iterator, l, none)
  | some it =>
    if l.id ≠ it.list ∨ it.end_edge = true then (none, l, some it)
    else
      let it := { it with node := m.next it.node }
      let it := if it.node = l.head then { it with end_edge := true } else it
      let l := { l with iterator := m.next l.iterator }
      (m.data l.iterator, l, some it)

/-- `list_get_prev`: move the cursor given (if any) and the internal scan
cursor one node back, and return the data at the internal scan cursor. -/
def list_get_prev {α : Type} (m : Mem α) (l : ListT) (iterator : Option Iter) :
    Option α × ListT × Option Iter :=
  match iterator with
  | none =>
    let l := { l with iterator := m.prev l.iterator }
    (m.data l.iterator, l, none)
  | some it =>
    if l.id ≠ it.list ∨ it.start_edge = true then (none, l, some it)
    else
      let it := { it with node := m.prev it.node }
      let it := if it.node = l.head then { it with start_edge := true } else it
      let l := { l with iterator := m.prev l.iterator }
      (m.data l.iterator, l, some it)

/-! ## Functions that work on an iterator

The iterator functions only receive the iterator and reach the list through
`iterator->list`; here the struct behind that pointer is the argument `l`. -/

/-- `list_iterator_first`. -/
def list_iterator_first {α : Type} (m : Mem α) (l : ListT) (iterator : Option Iter) :
    ListIteratorStatus × Option Iter :=
  match iterator with
  | none => (LIST_ITERATOR_EINVAL, none)
  | some it =>
    let it := { it with node := __list_get_first m l }
    if it.node = l.head then
      let it := { it with start_edge := true }
      let it := { it with end_edge := false }
      (LIST_ITERATOR_END, some it)
    else
      let it := { it with start_edge := false }
      let it := { it with end_edge := false }
      (LIST_ITERATOR_SUCCESS, some it)

/-- `list_iterator_last`. -/
def list_iterator_last {α : Type} (m : Mem α) (l : ListT) (iterator : Option Iter) :
    ListIteratorStatus × Option Iter :=
  match iterator with
  | none => (LIST_ITERATOR_EINVAL, none)
  | some it =>
    let it := { it with node := __list_get_last m l }
    if it.node = l.head then
      let it := { it with start_edge := false }
      let it := { it with end_edge := true }
      (LIST_ITERATOR_END, some it)
    else
      let it := { it with start_edge := false }
      let it := { it with end_edge := false }
      (LIST_ITERATOR_SUCCESS, some it)

/-- `list_iterator_next`. -/
def list_iterator_next {α : Type} (m : Mem α) (l : ListT) (iterator : Option Iter) :
    ListIteratorStatus × Option Iter :=
  match iterator with
  | none => (LIST_ITERATOR_EINVAL, none)
  | some it =>
    if it.end_edge = true then (LIST_ITERATOR_EINVAL, some it)
    else
      let it := { it with start_edge := false }
      let it := { it with node := m.next it.node }
      if it.node = l.head then (LIST_ITERATOR_END, some { it with end_edge := true })
      else (LIST_ITERATOR_SUCCESS, some it)

/-- `list_iterator_prev`. -/
def list_iterator_prev {α : Type} (m : Mem α) (l : ListT) (iterator : Option Iter) :
    ListIteratorStatus × Option Iter :=
  match iterator with
  | none => (LIST_ITERATOR_EINVAL, none)
  | some it =>
    if it.start_edge = true then (LIST_ITERATOR_EINVAL, some it)
    else
      let it := { it with end_edge := false }
      let it := { it with node := m.prev it.node }
      if it.node = l.head then (LIST_ITERATOR_END, some { it with start_edge := true })
      else (LIST_ITERATOR_SUCCESS, some it)

/-- `list_iterator_start`. -/
def list_iterator_start (l : ListT) (iterator : Option Iter) :
    ListIteratorStatus × Option Iter :=
  match iterator with
  | none => (LIST_ITERATOR_EINVAL, none)
  | some it =>
    let it := { it with node := l.head }
    let it := { it with start_edge := true }
    let it := { it with end_edge := false }
    (LIST_ITERATOR_SUCCESS, some it)

/-- `list_iterator_end`. -/
def list_iterator_end (l : ListT) (iterator : Option Iter) :
    ListIteratorStatus × Option Iter :=
  match iterator with
  | none => (LIST_ITERATOR_EINVAL, none)
  | some it =>
    let it := { it with node := l.head }
    let it := { it with start_edge := false }
    let it := { it with end_edge := true }
    (LIST_ITERATOR_SUCCESS, some it)

/-- `list_iterator_get`: the data of the cursor's node, NULL for a NULL cursor. -/
def list_iterator_get {α : Type} (m : Mem α) (iterator : Option Iter) : Option α :=
  match iterator with
  | none => none
  | some it => m.data it.node

/-- The cursor structs (`struct list_iterator_t`) allocated so far: a map from
the address of a struct to its fields, and the next address `malloc` hands
out. A `ListIterator` is such an address; address `0` is NULL. -/
structure Cursors where
  cell : Nat → Option Iter
  brk : Nat

/-- No cursor allocated; address `0` is reserved for NULL. -/
def Cursors.empty : Cursors := { cell := fun _ => none, brk := 1 }

/-- The struct behind a `ListIterator`; nothing behind NULL. -/
def Cursors.deref (cs : Cursors) (iterator : Nat) : Option Iter :=
  if iterator = 0 then none else cs.cell iterator

/-- A new struct with the given fields: `malloc`, then the field assignments. -/
def Cursors.alloc (cs : Cursors) (it : Iter) : Nat × Cursors :=
  (cs.brk, { cell := upd cs.cell cs.brk (some it), brk := cs.brk + 1 })

/-- A call of a cursor function with the `ListIterator` argument `iterator`:
the function works on the struct behind the address, and the fields it
assigns are those of that struct. -/
def Cursors.call {β : Type} (cs : Cursors) (iterator : Nat)
    (f : Option Iter → β × Option Iter) : β × Cursors :=
  match (f (cs.deref iterator)).2 with
  | none => ((f (cs.deref iterator)).1, cs)
  | some it => ((f (cs.deref iterator)).1, { cs with cell := upd cs.cell iterator (some it) })

/-- `list_iterator_copy`: NULL for a NULL cursor; otherwise the address of a
new struct that is given the four fields of the struct behind `iterator`. -/
def list_iterator_copy (cs : Cursors) (iterator : Nat) : Nat × Cursors :=
  match cs.deref iterator with
  | none => (0, cs)
  | some it =>
    cs.alloc { list := it.list, node := it.node, start_edge := it.start_edge,
               end_edge := it.end_edge }

/-- `list_iterator_equal`. -/
def list_iterator_equal (first second : Iter) : Bool :=
  if first.node = second.node then
    (first.start_edge == second.start_edge && first.end_edge == second.end_edge)
  else false

/-- The calls that move a cursor: the six `list_iterator_*` movers and the four
positional getters called with the cursor. -/
inductive CursorMove where
  | iterator_first
  | iterator_last
  | iterator_next
  | iterator_prev
  | iterator_start
  | iterator_end
  | get_first
  | get_last
  | get_next
  | get_prev
  deriving DecidableEq, Repr

/-- Make one cursor-moving call; the state is the list struct (whose internal
scan cursor the getters move) and the cursor. -/
def move {α : Type} (m : Mem α) (s : ListT × Option Iter) : CursorMove → ListT × Option Iter
  | .iterator_first => (s.1, (list_iterator_first m s.1 s.2).2)
  | .iterator_last => (s.1, (list_iterator_last m s.1 s.2).2)
  | .iterator_next => (s.1, (list_iterator_next m s.1 s.2).2)
  | .iterator_prev => (s.1, (list_iterator_prev m s.1 s.2).2)
  | .iterator_start => (s.1, (list_iterator_start s.1 s.2).2)
  | .iterator_end => (s.1, (list_iterator_end s.1 s.2).2)
  | .get_first => ((list_get_first m s.1 s.2).2.1, (list_get_first m s.1 s.2).2.2)
  | .get_last => ((list_get_last m s.1 s.2).2.1, (list_get_last m s.1 s.2).2.2)
  | .get_next => ((list_get_next m s.1 s.2).2.1, (list_get_next m s.1 s.2).2.2)
  | .get_prev => ((list_get_prev m s.1 s.2).2.1, (list_get_prev m s.1 s.2).2.2)

/-- The cursor `list_iterator_create` returns, after the given cursor-moving
calls in turn. -/
def moves {α : Type} (m : Mem α) (l : ListT) (calls : List CursorMove) : ListT × Option Iter :=
  calls.foldl (move m) (l, some (list_iterator_create m l))

/-- The cursor-less scan: `list_get_first(list, 0)` followed by `k` calls of
`list_get_next(list, 0)`; the values returned, in order, and the list struct. -/
def scan_forward {α : Type} (m : Mem α) (l : ListT) : Nat → List (Option α) × ListT
  | 0 => ([(list_get_first m l none).1], (list_get_first m l none).2.1)
  | k + 1 =>
    ((scan_forward m l k).1 ++ [(list_get_next m (scan_forward m l k).2 none).1],
      (list_get_next m (scan_forward m l k).2 none).2.1)

/-- The cursor-less scan backward: `list_get_last(list, 0)` followed by `k`
calls of `list_get_prev(list, 0)`. -/
def scan_backward {α : Type} (m : Mem α) (l : ListT) : Nat → List (Option α) × ListT
  | 0 => ([(list_get_last m l none).1], (list_get_last m l none).2.1)
  | k + 1 =>
    ((scan_backward m l k).1 ++ [(list_get_prev m (scan_backward m l k).2 none).1],
      (list_get_prev m (scan_backward m l k).2 none).2.1)

/-- The node at 0-based position `i` of a list: the node reached from the
sentinel by `i + 1` steps along `next`. -/
def node_at {α : Type} (m : Mem α) (l : ListT) : Nat → Nat
  | 0 => m.next l.head
  | i + 1 => m.next (node_at m l i)

/-- `list_get_at`: NULL for `n >= size`; otherwise the data of the node the
counting loop ends on. -/
def list_get_at {α : Type} (fuel : Nat) (m : Mem α) (l : ListT) (n : Nat) :
    Option (Option α) :=
  if n ≥ l.size then some none
  else
    match foreach_count m 0 fuel (__list_get_first m l) n with
    | none => none
    | some iterator => some (m.data iterator)

/-- `list_find`: the data of the node `__find_node` returns. -/
def list_find {α : Type} (fuel : Nat) (cmp : α → α → Int) (m : Mem α) (l : ListT)
    (data : Option α) : Option (Option α) :=
  match data with
  | none => some none
  | some d =>
    match __find_node fuel cmp m l d with
    | none => none
    | some node => some (m.data node)

/-! ## Traversal loops

The macros `LIST_FOREACH_FORWARD` and `LIST_FOREACH_BACKWARD` of `list.h`, and
the loops over a cursor that the tests write with `list_iterator_first` /
`list_iterator_next` and `list_iterator_last` / `list_iterator_prev`. Each
returns the values the loop variable takes (resp. the values read), in order,
with the state the loop ends in. -/

/-- The loop `for (...; variable != 0; variable = step(list))`: the values the
variable takes, and the list struct when the loop ends. -/
def LIST_FOREACH_loop {α : Type} (step : ListT → Option α × ListT) :
    Nat → Option α → ListT → Option (List α × ListT)
  | 0, _, _ => none
  | _ + 1, none, l => some ([], l)
  | fuel + 1, some d, l =>
    match LIST_FOREACH_loop step fuel (step l).1 (step l).2 with
    | none => none
    | some r => some (d :: r.1, r.2)

/-- `LIST_FOREACH_FORWARD`: from `list_get_first(list, 0)`, by
`list_get_next(list, 0)`, while the variable is not NULL. -/
def LIST_FOREACH_FORWARD {α : Type} (fuel : Nat) (m : Mem α) (l : ListT) :
    Option (List α × ListT) :=
  LIST_FOREACH_loop (fun l => ((list_get_next m l none).1, (list_get_next m l none).2.1))
    fuel (list_get_first m l none).1 (list_get_first m l none).2.1

/-- `LIST_FOREACH_BACKWARD`: from `list_get_last(list, 0)`, by
`list_get_prev(list, 0)`, while the variable is not NULL. -/
def LIST_FOREACH_BACKWARD {α : Type} (fuel : Nat) (m : Mem α) (l : ListT) :
    Option (List α × ListT) :=
  LIST_FOREACH_loop (fun l => ((list_get_prev m l none).1, (list_get_prev m l none).2.1))
    fuel (list_get_last m l none).1 (list_get_last m l none).2.1

/-- The loop `while (status != LIST_ITERATOR_END) { read list_iterator_get(it);
status = step(it); }`: the values read, and the cursor when the loop ends. -/
def iterator_loop {α : Type} (m : Mem α)
    (step : Option Iter → ListIteratorStatus × Option Iter) :
    Nat → ListIteratorStatus → Option Iter → Option (List (Option α) × Option Iter)
  | 0, _, _ => none
  | fuel + 1, status, iterator =>
    if status = LIST_ITERATOR_END then some ([], iterator)
    else
      match iterator_loop m step fuel (step iterator).1 (step iterator).2 with
      | none => none
      | some r => some (list_iterator_get m iterator :: r.1, r.2)

/-- The forward loop over a cursor: `status = list_iterator_first(it)`, then
read and `list_iterator_next(it)` until `LIST_ITERATOR_END`. -/
def iterate_forward {α : Type} (fuel : Nat) (m : Mem α) (l : ListT) (iterator : Option Iter) :
    Option (List (Option α) × Option Iter) :=
  iterator_loop m (list_iterator_next m l) fuel (list_iterator_first m l iterator).1
    (list_iterator_first m l iterator).2

/-- The backward loop over a cursor: `status = list_iterator_last(it)`, then
read and `list_iterator_prev(it)` until `LIST_ITERATOR_END`. -/
def iterate_backward {α : Type} (fuel : Nat) (m : Mem α) (l : ListT)
    (iterator : Option Iter) : Option (List (Option α) × Option Iter) :=
  iterator_loop m (list_iterator_prev m l) fuel (list_iterator_last m l iterator).1
    (list_iterator_last m l iterator).2

/-- A call of `list_push_front` (`front = true`) or `list_push_back` with the
given data argument. -/
structure Push (α : Type) where
  front : Bool
  data : Option α

/-- Build a list: `list_create`, then the pushes in turn, whatever they
return. -/
def build {α : Type} (copy : α → Option α) (m : Mem α) (pushes : List (Push α)) :
    Mem α × ListT :=
  pushes.foldl
    (fun s p =>
      if p.front then
        ((list_push_front copy s.1 s.2 p.data).2.1, (list_push_front copy s.1 s.2 p.data).2.2)
      else
        ((list_push_back copy s.1 s.2 p.data).2.1, (list_push_back copy s.1 s.2 p.data).2.2))
    ((list_create m).2, (list_create m).1)

/-! ## Mutations as data -/

/-- The mutating operations of `list.h`, with their arguments. -/
inductive Mutation (α : Type) where
  | push_front (data : Option α)
  | push_back (data : Option α)
  | push_after (iterator : Option Iter) (data : Option α)
  | push_before (iterator : Option Iter) (data : Option α)
  | push_at (n : Nat) (data : Option α)
  | remove (data : Option α)
  | remove_at (n : Nat)
  | remove_iterator (iterator : Option Iter)
  | pop_front
  | pop_back
  | clear
  | sort

/-- The cursor a mutation is called with, if any. -/
def Mutation.cursor {α : Type} : Mutation α → Option Iter
  | .push_after iterator _ => iterator
  | .push_before iterator _ => iterator
  | .remove_iterator iterator => iterator
  | _ => none

/-- Call the mutating operation on the list `l`; the result is the heap and
the list struct after the call (`none` when a loop does not end). -/
def mutate {α : Type} (fuel : Nat) (copy : α → Option α) (cmp : α → α → Int) (m : Mem α)
    (l : ListT) : Mutation α → Option (Mem α × ListT)
  | .push_front data =>
    some ((list_push_front copy m l data).2.1, (list_push_front copy m l data).2.2)
  | .push_back data =>
    some ((list_push_back copy m l data).2.1, (list_push_back copy m l data).2.2)
  | .push_after iterator data =>
    some ((list_push_after copy m l iterator data).2.1,
      (list_push_after copy m l iterator data).2.2)
  | .push_before iterator data =>
    some ((list_push_before copy m l iterator data).2.1,
      (list_push_before copy m l iterator data).2.2)
  | .push_at n data => (list_push_at fuel copy m l n data).map (fun r => (r.2.1, r.2.2))
  | .remove data => (list_remove fuel cmp m l data).map (fun r => (r.2.1, r.2.2))
  | .remove_at n => (list_remove_at fuel m l n).map (fun r => (r.2.1, r.2.2))
  | .remove_iterator iterator =>
    some ((list_remove_iterator m l iterator).2.1, (list_remove_iterator m l iterator).2.2.1)
  | .pop_front => some ((list_pop_front m l).2.1, (list_pop_front m l).2.2)
  | .pop_back => some ((list_pop_back m l).2.1, (list_pop_back m l).2.2)
  | .clear => list_clear fuel m l
  | .sort => (list_sort fuel copy cmp m l).map (fun r => (r.2.1, r.2.2))

/-- The cursor of a mutation is usable on the list `l`: if it is bound to `l`,
it references the node at some position `0 ≤ i ≤ size` (position `size` being
the sentinel). -/
def CursorValid {α : Type} (m : Mem α) (l : ListT) (μ : Mutation α) : Prop :=
  ∀ it, μ.cursor = some it → it.list = l.id → ∃ i, i ≤ l.size ∧ it.node = node_at m l i

/-! ## Well-formedness -/

/-- A chain of links `f`: `a ↦ p₁ ↦ p₂ ↦ ... ↦ pₙ ↦ b`. -/
def nextPath (f : Nat → Nat) : Nat → List Nat → Nat → Prop
  | a, [], b => f a = b
  | a, p :: ps, b => f a = p ∧ nextPath f p ps b

instance nextPath.decidable (f : Nat → Nat) :
    (a : Nat) → (ps : List Nat) → (b : Nat) → Decidable (nextPath f a ps b)
  | a, [], b => inferInstanceAs (Decidable (f a = b))
  | a, p :: ps, b =>
    @instDecidableAnd _ _ (inferInstanceAs (Decidable (f a = p)))
      (nextPath.decidable f p ps b)

/-- The forward half of the ring invariant: the sentinel `head` and the element
nodes `ps` (in forward order) are distinct allocated non-null nodes, the
sentinel carries no data, node `ps[i]` carries `xs[i]`, and the `next` links run
`head, ps, head`. -/
structure FwdRing {α : Type} (m : Mem α) (head : Nat) (ps : List Nat) (xs : List α) :
    Prop where
  nodup : (head :: ps).Nodup
  alloc : ∀ p ∈ head :: ps, 0 < p ∧ p < m.brk
  sentinel : m.data head = none
  data : ps.map m.data = xs.map some
  next : nextPath m.next head ps head

/-- The ring invariant: the forward half, and the `prev` links run the same
cycle backwards. -/
structure Ring {α : Type} (m : Mem α) (head : Nat) (ps : List Nat) (xs : List α)
    extends FwdRing m head ps xs : Prop where
  prev : nextPath m.prev head ps.reverse head

/-- A well-formed list with forward contents `xs`: the ring is closed and the
count is the number of elements. -/
def WellFormed {α : Type} (m : Mem α) (l : ListT) (xs : List α) : Prop :=
  l.size = xs.length ∧ ∃ ps, Ring m l.head ps xs

/-- Ring closure as the specification words it: every slot `s` of the ring
satisfies `s.next.prev == s` and `s.prev.next == s`. -/
def RingClosed {α : Type} (m : Mem α) (slots : List Nat) : Prop :=
  ∀ s ∈ slots, m.prev (m.next s) = s ∧ m.next (m.prev s) = s

instance RingClosed.decidable {α : Type} (m : Mem α) (slots : List Nat) :
    Decidable (RingClosed m slots) :=
  inferInstanceAs (Decidable (∀ s ∈ slots, m.prev (m.next s) = s ∧ m.next (m.prev s) = s))

/-- Cells outside `S` that were allocated in `m` are the same in `m'`, and
nothing was deallocated: the footprint of an operation on a ring `S`. -/
def Frame {α : Type} (m m' : Mem α) (S : List Nat) : Prop :=
  m.brk ≤ m'.brk ∧ ∀ x, x < m.brk → x ∉ S →
    m'.data x = m.data x ∧ m'.next x = m.next x ∧ m'.prev x = m.prev x

/-- Last element of `ps`, or `a` when `ps` is empty: the node before the end
of the chain `a, ps`. -/
def lastD : List Nat → Nat → Nat
  | [], a => a
  | p :: ps, _ => lastD ps p

/-- First element of `ps`, or `b` when `ps` is empty: the node after the start
of the chain `ps, b`. -/
def firstD : List Nat → Nat → Nat
  | [], b => b
  | p :: _, _ => p

/-- A compare callback is a total preorder when the relation `cmp a b ≤ 0`
("`a` is not after `b`") is total and transitive. -/
structure TotalPreorder {α : Type} (cmp : α → α → Int) : Prop where
  total : ∀ a b, cmp a b ≤ 0 ∨ cmp b a ≤ 0
  trans : ∀ a b c, cmp a b ≤ 0 → cmp b c ≤ 0 → cmp a c ≤ 0

/-- The three logical states of a cursor on the list `l`: a boundary flag is
set only while the cursor references the sentinel, and the two flags are not
both set. -/
def CursorState (l : ListT) (it : Iter) : Prop :=
  (it.start_edge = true → it.node = l.head) ∧ (it.end_edge = true → it.node = l.head) ∧
  ¬ (it.start_edge = true ∧ it.end_edge = true)

instance CursorState.decidable (l : ListT) (it : Iter) : Decidable (CursorState l it) := by
  unfold CursorState
  infer_instance

/-! ## A concrete list used to instantiate the theorems -/

/-- The heap after `list_create` and pushing `10` then `20` at the back: list
struct at address 1, sentinel at 2, elements at 3 and 4. -/
def exampleMem : Mem Int :=
  { data := fun a => if a = 3 then some 10 else if a = 4 then some 20 else none
    next := fun a => if a = 2 then 3 else if a = 3 then 4 else if a = 4 then 2 else 0
    prev := fun a => if a = 2 then 4 else if a = 3 then 2 else if a = 4 then 3 else 0
    brk := 5 }

/-- The list struct of the list `[10, 20]` living in `exampleMem`. -/
def exampleList : ListT := { id := 1, size := 2, iterator := 2, head := 2 }

/-- The heap of the unsorted list `[30, 10, 20]`: list struct at address 1,
sentinel at 2, elements at 3, 4 and 5. -/
def unsortedMem : Mem Int :=
  { data := fun a =>
      if a = 3 then some 30 else if a = 4 then some 10 else if a = 5 then some 20 else none
    next := fun a =>
      if a = 2 then 3 else if a = 3 then 4 else if a = 4 then 5 else if a = 5 then 2 else 0
    prev := fun a =>
      if a = 2 then 5 else if a = 3 then 2 else if a = 4 then 3 else if a = 5 then 4 else 0
    brk := 6 }

/-- The list struct of the list `[30, 10, 20]` living in `unsortedMem`. -/
def unsortedList : ListT := { id := 1, size := 3, iterator := 2, head := 2 }

/-- The copy callback of the tests' integer lists: it always succeeds. -/
def int_copy (i : Int) : Option Int := some i

/-- The compare callback of the tests' integer lists, `a - b`, computed over
the integers. It is what the tests' callback returns for every pair of `int`
values whose difference fits an `int`; for the other pairs the difference
computed in C does not, see `int_compare_wrapped`. -/
def int_compare (a b : Int) : Int := a - b

/-- The value of an integer as a 32-bit two's complement `int`: wrapped into
the range from `-2^31` to `2^31 - 1`. -/
def wrap_int32 (x : Int) : Int := (x + 2147483648) % 4294967296 - 2147483648

/-- The compare callback of the tests' integer lists as it computes on 32-bit
`int` values: the difference `*(int*)a - *(int*)b` wraps. -/
def int_compare_wrapped (a b : Int) : Int := wrap_int32 (a - b)

/-- The heap of a list of keyed records `[(2, 0), (1, 0), (2, 1), (1, 1)]`
(key, tag): list struct at address 1, sentinel at 2, elements at 3 to 6. -/
def pairMem : Mem (Int × Int) :=
  { data := fun a =>
      if a = 3 then some (2, 0) else if a = 4 then some (1, 0)
      else if a = 5 then some (2, 1) else if a = 6 then some (1, 1) else none
    next := fun a =>
      if a = 2 then 3 else if a = 3 then 4 else if a = 4 then 5 else if a = 5 then 6
      else if a = 6 then 2 else 0
    prev := fun a =>
      if a = 2 then 6 else if a = 3 then 2 else if a = 4 then 3 else if a = 5 then 4
      else if a = 6 then 5 else 0
    brk := 7 }

/-- The list struct of the list of keyed records living in `pairMem`. -/
def pairList : ListT := { id := 1, size := 4, iterator := 2, head := 2 }

/-- A copy callback for keyed records: it always succeeds. -/
def pair_copy (p : Int × Int) : Option (Int × Int) := some p

/-- A compare callback for keyed records: by key only, so records with the
same key and different tags compare equal. -/
def pair_compare (a b : Int × Int) : Int := a.1 - b.1

/-- A copy callback that fails on the value `20` and succeeds elsewhere. -/
def failing_copy (i : Int) : Option Int := if i = 20 then none else some i

/-- The heap after `list_create` alone: list struct at address 1, sentinel at 2. -/
def emptyMem : Mem Int := (list_create (Mem.empty Int)).2

/-- The list struct of the empty list living in `emptyMem`. -/
def emptyList : ListT := (list_create (Mem.empty Int)).1

/-- A cursor bound to the list at address 1, on the node at address `node`,
with both edge flags clear. -/
def cursorOn (node : Nat) : Iter :=
  { list := 1, node := node, end_edge := false, start_edge := false }

/-- A cursor bound to the list at address 1, parked on the sentinel at address
2 in the before-start state. -/
def cursorBeforeStart : Iter :=
  { list := 1, node := 2, end_edge := false, start_edge := true }

/-- A cursor bound to the list at address 1, parked on the sentinel at address
2 in the after-end state. -/
def cursorAfterEnd : Iter :=
  { list := 1, node := 2, end_edge := true, start_edge := false }

/-- The list the tests build: `list_create`, then `list_push_back` of every
value in turn. -/
def build_list (vs : List Int) : Mem Int × ListT :=
  vs.foldl (fun s v => ((list_push_back int_copy s.1 s.2 (some v)).2.1,
      (list_push_back int_copy s.1 s.2 (some v)).2.2))
    ((list_create (Mem.empty Int)).2, (list_create (Mem.empty Int)).1)

/-- The list `[10, 20]` of `exampleMem` is copied, then `list_push_at(c, 1, 15)`
and `list_remove_at(c, 1)` are called on the copy `c`. The result is the node
`list_remove_at` destroys (the node its loop ends on), the heap, and the struct
of `c`; there is a result only if both calls return `LIST_SUCCESS`. -/
def copy_round_trip : Option (Nat × Mem Int × ListT) :=
  match list_copy 3 int_copy exampleMem exampleList with
  | some (some c, m1) =>
    match list_push_at 4 int_copy m1 c 1 (some 15) with
    | some (LIST_SUCCESS, m2, c2) =>
      match foreach_count m2 0 4 (__list_get_first m2 c2) 1, list_remove_at 4 m2 c2 1 with
      | some destroyed, some (LIST_SUCCESS, m3, c3) => some (destroyed, m3, c3)
      | _, _ => none
    | _ => none
  | _ => none

/-- The calls of `copy_round_trip`, then, with the destroyed node handed out
again by `malloc`, `list_push_after(l, it, 99)` on the source `l` (`it` being
the cursor `list_iterator_create(l)` returned, on the element `10`), and then
`list_remove_at(c, 1)` on the copy once more. The result is the status of the
push, the forward contents of `l` after it, the status of the removal, and the
forward contents and the size of `l` after the removal. -/
def copy_interference :
    Option (ListStatus × Option (List Int) × ListStatus × Option (List Int) × Nat) :=
  match copy_round_trip with
  | none => none
  | some (destroyed, m3, c3) =>
    match list_push_after int_copy (m3.recycle destroyed) exampleList
        (some (list_iterator_create exampleMem exampleList)) (some 99) with
    | (st4, m4, l4) =>
      match list_remove_at 4 m4 c3 1 with
      | none => none
      | some (st5, m5, _) =>
        some (st4, forward 5 m4 l4, st5, forward 5 m5 l4, list_get_size l4)

/-! ## Basic facts about field maps and link chains -/

@[simp] theorem upd_same {β : Type} (f : Nat → β) (a : Nat) (v : β) : upd f a v a = v := by
  simp [upd]

theorem upd_other {β : Type} (f : Nat → β) {a b : Nat} (v : β) (h : b ≠ a) :
    upd f a v b = f b := by
  simp [upd, h]

theorem upd_apply {β : Type} (f : Nat → β) (a b : Nat) (v : β) :
    upd f a v b = if b = a then v else f b := rfl

@[simp] theorem lastD_nil (a : Nat) : lastD [] a = a := rfl

@[simp] theorem lastD_cons (p : Nat) (ps : List Nat) (a : Nat) :
    lastD (p :: ps) a = lastD ps p := rfl

@[simp] theorem firstD_nil (b : Nat) : firstD [] b = b := rfl

@[simp] theorem firstD_cons (p : Nat) (ps : List Nat) (b : Nat) :
    firstD (p :: ps) b = p := rfl

@[simp] theorem lastD_append_singleton :
    ∀ (ps : List Nat) (q a : Nat), lastD (ps ++ [q]) a = q
  | [], _, _ => rfl
  | p :: ps, q, _ => by simp [lastD_append_singleton ps q p]

theorem lastD_mem : ∀ (ps : List Nat) (a : Nat), lastD ps a ∈ a :: ps
  | [], a => by simp
  | p :: ps, a => by
    simp only [lastD_cons]
    exact List.mem_cons_of_mem _ (lastD_mem ps p)

theorem firstD_mem (ps : List Nat) (b : Nat) : firstD ps b ∈ ps ++ [b] := by
  cases ps <;> simp

theorem firstD_reverse (ps : List Nat) (a : Nat) : firstD ps.reverse a = lastD ps a := by
  induction ps using List.reverseRecOn with
  | nil => rfl
  | append_singleton ps p _ => simp

theorem lastD_reverse (ps : List Nat) (a : Nat) : lastD ps.reverse a = firstD ps a := by
  cases ps with
  | nil => rfl
  | cons p ps => simp

/-- A chain only depends on the links of its sources. -/
theorem nextPath_congr {f g : Nat → Nat} :
    ∀ (ps : List Nat) (a b : Nat), (∀ x ∈ a :: ps, g x = f x) →
      nextPath f a ps b → nextPath g a ps b
  | [], a, b, h, hp => by
    simp only [nextPath] at hp ⊢
    rw [h a (by simp)]; exact hp
  | p :: ps, a, b, h, hp => by
    simp only [nextPath] at hp ⊢
    refine ⟨by rw [h a (by simp)]; exact hp.1, ?_⟩
    exact nextPath_congr ps p b (fun x hx => h x (List.mem_cons_of_mem _ hx)) hp.2

/-- Splitting a chain at an inner node. -/
theorem nextPath_append {f : Nat → Nat} :
    ∀ (ps : List Nat) (a q : Nat) (qs : List Nat) (b : Nat),
      nextPath f a (ps ++ q :: qs) b ↔ nextPath f a ps q ∧ nextPath f q qs b
  | [], a, q, qs, b => by simp [nextPath]
  | p :: ps, a, q, qs, b => by
    show (f a = p ∧ nextPath f p (ps ++ q :: qs) b) ↔ _
    rw [nextPath_append ps p q qs b]
    simp only [nextPath, and_assoc]

/-- The first link of a chain. -/
theorem nextPath_first {f : Nat → Nat} {a b : Nat} {ps : List Nat}
    (h : nextPath f a ps b) : f a = firstD ps b := by
  cases ps with
  | nil => simpa [nextPath] using h
  | cons p ps => simpa [nextPath] using h.1

/-- The last link of a chain. -/
theorem nextPath_last {f : Nat → Nat} :
    ∀ (ps : List Nat) (a b : Nat), nextPath f a ps b → f (lastD ps a) = b
  | [], a, b, h => by simpa [nextPath] using h
  | p :: ps, a, b, h => by
    simp only [nextPath] at h
    simpa using nextPath_last ps p b h.2

/-- Splicing a new node into a chain after the last node of `pre`. -/
theorem nextPath_insert {f g : Nat → Nat} {new : Nat} (post : List Nat) (b : Nat) :
    ∀ (pre : List Nat) (a : Nat),
      nextPath f a (pre ++ post) b → (a :: (pre ++ post)).Nodup →
      new ∉ a :: (pre ++ post) →
      g (lastD pre a) = new → g new = f (lastD pre a) →
      (∀ x, x ≠ lastD pre a → x ≠ new → g x = f x) →
      nextPath g a (pre ++ new :: post) b
  | [], a, hp, hnd, hnew, hu, hn, hfr => by
    simp only [List.nil_append, lastD_nil] at *
    refine ⟨hu, ?_⟩
    cases post with
    | nil =>
      simp only [nextPath] at hp ⊢
      rw [hn, hp]
    | cons w t =>
      simp only [nextPath] at hp ⊢
      refine ⟨by rw [hn, hp.1], ?_⟩
      refine nextPath_congr t w b ?_ hp.2
      intro x hx
      apply hfr
      · rintro rfl
        exact (List.nodup_cons.1 hnd).1 hx
      · rintro rfl
        exact hnew (List.mem_cons_of_mem _ hx)
  | p :: pre, a, hp, hnd, hnew, hu, hn, hfr => by
    simp only [List.cons_append, lastD_cons] at *
    have hnd' := List.nodup_cons.1 hnd
    refine ⟨?_, ?_⟩
    · rw [hfr a ?_ ?_]
      · exact hp.1
      · intro h
        apply hnd'.1
        rw [h]
        exact List.mem_cons.2 ((List.mem_cons.1 (lastD_mem pre p)).elim Or.inl
          (fun h => Or.inr (List.mem_append_left _ h)))
      · rintro rfl
        exact hnew (List.mem_cons_self _ _)
    · exact nextPath_insert post b pre p hp.2 hnd'.2
        (fun h => hnew (List.mem_cons_of_mem _ h)) hu hn hfr

/-- The link in the middle of a chain split as `pre ++ post`. -/
theorem nextPath_mid {f : Nat → Nat} {a b : Nat} (pre post : List Nat)
    (h : nextPath f a (pre ++ post) b) : f (lastD pre a) = firstD post b := by
  cases post with
  | nil => simpa using nextPath_last pre a b (by simpa using h)
  | cons q qs =>
    have := (nextPath_append pre a q qs b).1 h
    simpa using nextPath_last pre a q this.1

/-- Walking a chain whose nodes carry `xs` and whose end carries no data
collects exactly `xs`, whenever the fuel exceeds the number of nodes. -/
theorem walk_chain {α : Type} {data : Nat → Option α} {f : Nat → Nat} :
    ∀ (ps : List Nat) (xs : List α) (a b fuel : Nat),
      nextPath f a ps b → ps.map data = xs.map some → data b = none →
      ps.length < fuel → walk data f fuel (f a) = some xs
  | [], xs, a, b, fuel, hp, hd, hb, hf => by
    obtain ⟨n, rfl⟩ : ∃ n, fuel = n + 1 := ⟨fuel - 1, by simp at hf; omega⟩
    simp only [nextPath] at hp
    cases xs with
    | nil => simp [walk, hp, hb]
    | cons x xs => simp at hd
  | p :: ps, xs, a, b, fuel, hp, hd, hb, hf => by
    obtain ⟨n, rfl⟩ : ∃ n, fuel = n + 1 := ⟨fuel - 1, by simp at hf; omega⟩
    simp only [nextPath] at hp
    cases xs with
    | nil => simp at hd
    | cons x xs =>
      simp only [List.map_cons, List.cons.injEq] at hd
      have ih := walk_chain ps xs p b n hp.2 hd.2 hb (by simpa using hf)
      simp [walk, hp.1, hd.1, ih]

/-- The forward traversal of a well-formed list yields its contents. -/
theorem forward_of_ring {α : Type} {m : Mem α} {l : ListT} {ps : List Nat} {xs : List α}
    (hr : FwdRing m l.head ps xs) {fuel : Nat} (hf : xs.length < fuel) :
    forward fuel m l = some xs := by
  have hlen : ps.length = xs.length := by
    simpa using congrArg List.length hr.data
  exact walk_chain ps xs l.head l.head fuel hr.next hr.data hr.sentinel (by omega)

/-- The backward traversal of a well-formed list yields its contents reversed. -/
theorem backward_of_ring {α : Type} {m : Mem α} {l : ListT} {ps : List Nat} {xs : List α}
    (hr : Ring m l.head ps xs) {fuel : Nat} (hf : xs.length < fuel) :
    backward fuel m l = some xs.reverse := by
  have hlen : ps.length = xs.length := by
    simpa using congrArg List.length hr.data
  refine walk_chain ps.reverse xs.reverse l.head l.head fuel hr.prev ?_ hr.sentinel
    (by simp; omega)
  rw [List.map_reverse, List.map_reverse, hr.data]

theorem forward_of_wellFormed {α : Type} {m : Mem α} {l : ListT} {xs : List α}
    (h : WellFormed m l xs) {fuel : Nat} (hf : l.size < fuel) :
    forward fuel m l = some xs := by
  obtain ⟨hs, ps, hr⟩ := h
  exact forward_of_ring hr.toFwdRing (by omega)

theorem backward_of_wellFormed {α : Type} {m : Mem α} {l : ListT} {xs : List α}
    (h : WellFormed m l xs) {fuel : Nat} (hf : l.size < fuel) :
    backward fuel m l = some xs.reverse := by
  obtain ⟨hs, ps, hr⟩ := h
  exact backward_of_ring hr (by omega)

theorem fwdRing_length_eq {α : Type} {m : Mem α} {h : Nat} {ps : List Nat} {xs : List α}
    (hr : FwdRing m h ps xs) : ps.length = xs.length := by
  simpa using congrArg List.length hr.data

/-- Splicing the fresh node `m.brk`, carrying `v`, into the forward chain of a
ring after the last node of `pre`. -/
theorem fwdRing_insert {α : Type} {m m' : Mem α} {h : Nat} (pre post : List Nat)
    (xs1 xs2 : List α) (v : α)
    (hr : FwdRing m h (pre ++ post) (xs1 ++ xs2)) (hlen : pre.length = xs1.length)
    (hbrk : m'.brk = m.brk + 1)
    (hdn : m'.data m.brk = some v) (hdo : ∀ x, x ≠ m.brk → m'.data x = m.data x)
    (hn1 : m'.next (lastD pre h) = m.brk) (hn2 : m'.next m.brk = firstD post h)
    (hn3 : ∀ x, x ≠ lastD pre h → x ≠ m.brk → m'.next x = m.next x) :
    FwdRing m' h (pre ++ m.brk :: post) (xs1 ++ v :: xs2) := by
  have hfresh : m.brk ∉ h :: (pre ++ post) := fun hx => absurd (hr.alloc _ hx).2 (lt_irrefl _)
  have hne : ∀ x ∈ h :: (pre ++ post), x ≠ m.brk := fun x hx e => hfresh (e ▸ hx)
  have hmem : ∀ x, x ∈ h :: (pre ++ m.brk :: post) ↔ x = m.brk ∨ x ∈ h :: (pre ++ post) := by
    intro x; simp only [List.mem_cons, List.mem_append]; tauto
  refine ⟨?_, ?_, ?_, ?_, ?_⟩
  · have : (h :: (pre ++ m.brk :: post)).Perm (m.brk :: h :: (pre ++ post)) := by
      refine (List.Perm.cons h List.perm_middle).trans (List.Perm.swap _ _ _)
    exact this.nodup_iff.2 (List.nodup_cons.2 ⟨hfresh, hr.nodup⟩)
  · intro p hp
    rcases (hmem p).1 hp with rfl | hp
    · have := hr.alloc h (List.mem_cons_self _ _)
      omega
    · have := hr.alloc p hp
      omega
  · rw [hdo h (hne h (List.mem_cons_self _ _))]; exact hr.sentinel
  · have hd := hr.data
    rw [List.map_append, List.map_append] at hd
    have hd' := List.append_inj hd (by simpa using hlen)
    rw [List.map_append, List.map_append, List.map_cons, List.map_cons, hdn]
    congr 1
    · rw [← hd'.1]
      apply List.map_congr_left
      intro x hx
      exact hdo x (hne x (List.mem_cons_of_mem _ (List.mem_append_left _ hx)))
    · congr 1
      rw [← hd'.2]
      apply List.map_congr_left
      intro x hx
      exact hdo x (hne x (List.mem_cons_of_mem _ (List.mem_append_right _ hx)))
  · exact nextPath_insert post h pre h hr.next hr.nodup hfresh hn1
      (by rw [hn2, nextPath_mid pre post hr.next]) hn3

/-- Splicing the fresh node `m.brk`, carrying `v`, into a ring between the
last node of `pre` and the first node of `post`. -/
theorem ring_insert {α : Type} {m m' : Mem α} {h : Nat} (pre post : List Nat)
    (xs1 xs2 : List α) (v : α)
    (hr : Ring m h (pre ++ post) (xs1 ++ xs2)) (hlen : pre.length = xs1.length)
    (hbrk : m'.brk = m.brk + 1)
    (hdn : m'.data m.brk = some v) (hdo : ∀ x, x ≠ m.brk → m'.data x = m.data x)
    (hn1 : m'.next (lastD pre h) = m.brk) (hn2 : m'.next m.brk = firstD post h)
    (hn3 : ∀ x, x ≠ lastD pre h → x ≠ m.brk → m'.next x = m.next x)
    (hp1 : m'.prev (firstD post h) = m.brk) (hp2 : m'.prev m.brk = lastD pre h)
    (hp3 : ∀ x, x ≠ firstD post h → x ≠ m.brk → m'.prev x = m.prev x) :
    Ring m' h (pre ++ m.brk :: post) (xs1 ++ v :: xs2) := by
  have hfresh : m.brk ∉ h :: (pre ++ post) := fun hx => absurd (hr.alloc _ hx).2 (lt_irrefl _)
  refine ⟨fwdRing_insert pre post xs1 xs2 v hr.toFwdRing hlen hbrk hdn hdo hn1 hn2 hn3, ?_⟩
  have hprev : nextPath m.prev h (post.reverse ++ pre.reverse) h := by
    simpa using hr.prev
  have hnd : (h :: (post.reverse ++ pre.reverse)).Nodup := by
    have : (h :: (post.reverse ++ pre.reverse)).Perm (h :: (pre ++ post)) :=
      List.Perm.cons h ((List.perm_append_comm).trans
        ((List.reverse_perm pre).append (List.reverse_perm post)))
    exact this.nodup_iff.2 hr.nodup
  have hfresh' : m.brk ∉ h :: (post.reverse ++ pre.reverse) := by
    intro hx
    apply hfresh
    simp only [List.mem_cons, List.mem_append, List.mem_reverse] at hx ⊢
    tauto
  have := nextPath_insert pre.reverse h post.reverse h hprev hnd hfresh'
    (by rw [lastD_reverse]; exact hp1)
    (by rw [lastD_reverse, hp2]
        have := nextPath_mid post.reverse pre.reverse hprev
        rw [lastD_reverse, firstD_reverse] at this
        exact this.symm)
    (by rw [lastD_reverse]; exact hp3)
  simpa using this

@[simp] theorem upd_upd_same {β : Type} (f : Nat → β) (a : Nat) (v w : β) :
    upd (upd f a v) a w = upd f a w := by
  funext b; by_cases h : b = a <;> simp [upd, h]

/-- The result of `list_push_after` when its guards pass and the copy succeeds. -/
theorem list_push_after_eq {α : Type} (copy : α → Option α) (m : Mem α) (l : ListT)
    (it : Iter) (v v' : α) (hl : it.list = l.id) (he : it.end_edge = false)
    (hb : m.brk ≠ 0) (hc : copy v = some v') :
    list_push_after copy m l (some it) (some v)
      = (LIST_SUCCESS,
          { data := upd m.data m.brk (some v')
            next := upd (upd m.next m.brk (upd m.next m.brk 0 it.node)) it.node m.brk
            prev := upd (upd (upd m.prev m.brk 0) (upd m.next m.brk 0 it.node) m.brk)
              m.brk it.node
            brk := m.brk + 1 },
          { l with size := l.size + 1 }) := by
  simp [list_push_after, hl, he, node_create, node_set, hb, Mem.setData, hc,
    Mem.setNext, Mem.setPrev]

/-- `list_push_after` on a cursor bound to the list, not at the end edge and
referencing the last node of `h :: pre`, splices the copy in after that node. -/
theorem list_push_after_ring {α : Type} (copy : α → Option α) {m : Mem α} {l : ListT}
    (pre post : List Nat) (xs1 xs2 : List α) (it : Iter) (v v' : α)
    (hr : Ring m l.head (pre ++ post) (xs1 ++ xs2)) (hlen : pre.length = xs1.length)
    (hl : it.list = l.id) (he : it.end_edge = false) (hnode : it.node = lastD pre l.head)
    (hc : copy v = some v') :
    ∃ m', list_push_after copy m l (some it) (some v)
        = (LIST_SUCCESS, m', { l with size := l.size + 1 }) ∧
      Ring m' l.head (pre ++ m.brk :: post) (xs1 ++ v' :: xs2) ∧
      m'.brk = m.brk + 1 ∧ Frame m m' (l.head :: (pre ++ post)) := by
  have hh := hr.alloc l.head (List.mem_cons_self _ _)
  have hb0 : m.brk ≠ 0 := by omega
  have hu : lastD pre l.head ∈ l.head :: (pre ++ post) := by
    have := lastD_mem pre l.head
    simp only [List.mem_cons, List.mem_append] at this ⊢
    tauto
  have hw : firstD post l.head ∈ l.head :: (pre ++ post) := by
    have := firstD_mem post l.head
    simp only [List.mem_cons, List.mem_append, List.mem_singleton] at this ⊢
    tauto
  have hune : lastD pre l.head ≠ m.brk := fun e => by
    have := (hr.alloc _ hu).2; omega
  have hwne : firstD post l.head ≠ m.brk := fun e => by
    have := (hr.alloc _ hw).2; omega
  have hmid : m.next (lastD pre l.head) = firstD post l.head := nextPath_mid pre post hr.next
  refine ⟨_, list_push_after_eq copy m l it v v' hl he hb0 hc, ?_, rfl, ?_⟩
  · rw [hnode]
    refine ring_insert pre post xs1 xs2 v' hr hlen rfl ?_ ?_ ?_ ?_ ?_ ?_ ?_ ?_
    · simp
    · intro x hx; simp [upd_apply, hx]
    · simp
    · simp [upd_apply, hune, hune.symm, hmid]
    · intro x hx1 hx2; simp [upd_apply, hx1, hx2]
    · simp [upd_apply, hune, hune.symm, hmid, hwne, hwne.symm]
    · simp [upd_apply, hune, hune.symm, hmid, hwne]
    · intro x hx1 hx2
      simp [upd_apply, hune, hune.symm, hmid, hx1, hx2]
  · refine ⟨by simp, ?_⟩
    intro x hx hxS
    have h1 : x ≠ m.brk := by omega
    have h2 : x ≠ lastD pre l.head := fun e => hxS (e ▸ hu)
    have h3 : x ≠ firstD post l.head := fun e => hxS (e ▸ hw)
    simp [hnode, upd_apply, hune, hune.symm, hmid, h1, h2, h3]

/-- The result of `list_push_before` when its guards pass and the copy succeeds. -/
theorem list_push_before_eq {α : Type} (copy : α → Option α) (m : Mem α) (l : ListT)
    (it : Iter) (v v' : α) (hl : it.list = l.id) (he : it.start_edge = false)
    (hb : m.brk ≠ 0) (hc : copy v = some v') :
    list_push_before copy m l (some it) (some v)
      = (LIST_SUCCESS,
          { data := upd m.data m.brk (some v')
            next := upd (upd (upd m.next m.brk 0) (upd m.prev m.brk 0 it.node) m.brk)
              m.brk it.node
            prev := upd (upd m.prev m.brk (upd m.prev m.brk 0 it.node)) it.node m.brk
            brk := m.brk + 1 },
          { l with size := l.size + 1 }) := by
  simp [list_push_before, hl, he, node_create, node_set, hb, Mem.setData, hc,
    Mem.setNext, Mem.setPrev]

/-- `list_push_before` on a cursor bound to the list, not at the start edge and
referencing the first node of `post ++ [h]`, splices the copy in before it. -/
theorem list_push_before_ring {α : Type} (copy : α → Option α) {m : Mem α} {l : ListT}
    (pre post : List Nat) (xs1 xs2 : List α) (it : Iter) (v v' : α)
    (hr : Ring m l.head (pre ++ post) (xs1 ++ xs2)) (hlen : pre.length = xs1.length)
    (hl : it.list = l.id) (he : it.start_edge = false)
    (hnode : it.node = firstD post l.head) (hc : copy v = some v') :
    ∃ m', list_push_before copy m l (some it) (some v)
        = (LIST_SUCCESS, m', { l with size := l.size + 1 }) ∧
      Ring m' l.head (pre ++ m.brk :: post) (xs1 ++ v' :: xs2) ∧
      m'.brk = m.brk + 1 ∧ Frame m m' (l.head :: (pre ++ post)) := by
  have hh := hr.alloc l.head (List.mem_cons_self _ _)
  have hb0 : m.brk ≠ 0 := by omega
  have hu : lastD pre l.head ∈ l.head :: (pre ++ post) := by
    have := lastD_mem pre l.head
    simp only [List.mem_cons, List.mem_append] at this ⊢
    tauto
  have hw : firstD post l.head ∈ l.head :: (pre ++ post) := by
    have := firstD_mem post l.head
    simp only [List.mem_cons, List.mem_append, List.mem_singleton] at this ⊢
    tauto
  have hune : lastD pre l.head ≠ m.brk := fun e => by
    have := (hr.alloc _ hu).2; omega
  have hwne : firstD post l.head ≠ m.brk := fun e => by
    have := (hr.alloc _ hw).2; omega
  have hmid : m.prev (firstD post l.head) = lastD pre l.head := by
    have hprev : nextPath m.prev l.head (post.reverse ++ pre.reverse) l.head := by
      simpa using hr.prev
    have := nextPath_mid post.reverse pre.reverse hprev
    rwa [lastD_reverse, firstD_reverse] at this
  refine ⟨_, list_push_before_eq copy m l it v v' hl he hb0 hc, ?_, rfl, ?_⟩
  · rw [hnode]
    refine ring_insert pre post xs1 xs2 v' hr hlen rfl ?_ ?_ ?_ ?_ ?_ ?_ ?_ ?_
    · simp
    · intro x hx; simp [upd_apply, hx]
    · simp [upd_apply, hune, hune.symm, hmid, hwne, hwne.symm]
    · simp [upd_apply, hune, hune.symm, hmid, hwne]
    · intro x hx1 hx2
      simp [upd_apply, hwne, hmid, hx1, hx2]
    · simp
    · simp [upd_apply, hwne, hwne.symm, hmid]
    · intro x hx1 hx2; simp [upd_apply, hx1, hx2]
  · refine ⟨by simp, ?_⟩
    intro x hx hxS
    have h1 : x ≠ m.brk := by omega
    have h2 : x ≠ lastD pre l.head := fun e => hxS (e ▸ hu)
    have h3 : x ≠ firstD post l.head := fun e => hxS (e ▸ hw)
    simp [hnode, upd_apply, hwne, hmid, h1, h2, h3]

/-- A ring satisfies ring closure as the specification words it. -/
theorem ring_closed {α : Type} {m : Mem α} {h : Nat} {ps : List Nat} {xs : List α}
    (hr : Ring m h ps xs) : RingClosed m (h :: ps) := by
  intro s hs
  obtain ⟨pre, post, hsplit⟩ : ∃ pre post, h :: ps = pre ++ s :: post :=
    List.append_of_mem hs
  have hnext := hr.next
  have hprev := hr.prev
  cases pre with
  | nil =>
    simp only [List.nil_append, List.cons.injEq] at hsplit
    obtain ⟨e1, e2⟩ := hsplit
    subst e1 e2
    have h1 := nextPath_mid ([] : List Nat) ps hnext
    have h2 : nextPath m.prev h (ps.reverse ++ []) h := by simpa using hprev
    have h3 := nextPath_mid ps.reverse [] h2
    have h4 : nextPath m.next h (ps ++ []) h := by simpa using hnext
    have h5 := nextPath_mid ps [] h4
    have h6 := nextPath_mid ([] : List Nat) ps.reverse hprev
    simp only [lastD_nil, firstD_nil, lastD_reverse, firstD_reverse] at h1 h3 h5 h6
    exact ⟨by rw [h1, h3], by rw [h6, h5]⟩
  | cons a pre =>
    simp only [List.cons_append, List.cons.injEq] at hsplit
    obtain ⟨e1, e2⟩ := hsplit
    subst e1 e2
    have h1 : nextPath m.next h ((pre ++ [s]) ++ post) h := by simpa using hnext
    have h1' := nextPath_mid (pre ++ [s]) post h1
    have h2 : nextPath m.prev h (post.reverse ++ (s :: pre.reverse)) h := by
      simpa using hprev
    have h2' := nextPath_mid post.reverse (s :: pre.reverse) h2
    have h3 := nextPath_mid pre (s :: post) hnext
    have h4 : nextPath m.prev h ((post.reverse ++ [s]) ++ pre.reverse) h := by
      simpa using hprev
    have h4' := nextPath_mid (post.reverse ++ [s]) pre.reverse h4
    simp only [lastD_append_singleton, lastD_reverse, firstD_reverse, firstD_cons]
      at h1' h2' h3 h4'
    exact ⟨by rw [h1', h2'], by rw [h4', h3]⟩

/-- `list_push_back` on a ring appends the fresh node `m.brk` carrying the copy. -/
theorem list_push_back_ring {α : Type} (copy : α → Option α) {m : Mem α} {l : ListT}
    {ps : List Nat} {xs : List α} (v v' : α) (hr : Ring m l.head ps xs)
    (hc : copy v = some v') :
    ∃ m', list_push_back copy m l (some v)
        = (LIST_SUCCESS, m', { l with size := l.size + 1 }) ∧
      Ring m' l.head (ps ++ [m.brk]) (xs ++ [v']) ∧
      m'.brk = m.brk + 1 ∧ Frame m m' (l.head :: ps) := by
  have hr' : Ring m l.head (ps ++ []) (xs ++ []) := by simpa using hr
  have := list_push_before_ring copy ps [] xs [] 
    { list := l.id, node := l.head, end_edge := false, start_edge := false } v v' hr'
    (fwdRing_length_eq hr.toFwdRing) rfl rfl rfl hc
  simpa [list_push_back, list_iterator_create] using this

/-- `list_push_front` on a ring prepends the fresh node `m.brk` carrying the copy. -/
theorem list_push_front_ring {α : Type} (copy : α → Option α) {m : Mem α} {l : ListT}
    {ps : List Nat} {xs : List α} (v v' : α) (hr : Ring m l.head ps xs)
    (hc : copy v = some v') :
    ∃ m', list_push_front copy m l (some v)
        = (LIST_SUCCESS, m', { l with size := l.size + 1 }) ∧
      Ring m' l.head (m.brk :: ps) (v' :: xs) ∧
      m'.brk = m.brk + 1 ∧ Frame m m' (l.head :: ps) := by
  have hr' : Ring m l.head ([] ++ ps) ([] ++ xs) := by simpa using hr
  have := list_push_after_ring copy [] ps [] xs
    { list := l.id, node := l.head, end_edge := false,
      start_edge := if l.size = 0 then true else false } v v' hr'
    rfl rfl rfl rfl hc
  simpa [list_push_front, list_iterator_create] using this

/-- C1. On a well-formed list with forward contents `xs`, for a non-null value
`v` whose copy succeeds with `v'`: `list_push_back` returns `LIST_SUCCESS` and
leaves a well-formed list whose forward contents are `xs ++ [v']`, and
`list_push_front` returns `LIST_SUCCESS` and leaves a well-formed list whose
forward contents are `[v'] ++ xs`; in both cases the size grows by exactly one. -/
theorem list_push_back_front_contents {α : Type} (copy : α → Option α) (m : Mem α)
    (l : ListT) (xs : List α) (v v' : α) (hwf : WellFormed m l xs)
    (hc : copy v = some v') :
    (∃ m' l', list_push_back copy m l (some v) = (LIST_SUCCESS, m', l') ∧
        WellFormed m' l' (xs ++ [v']) ∧
        (∀ fuel, list_get_size l' < fuel → forward fuel m' l' = some (xs ++ [v'])) ∧
        list_get_size l' = list_get_size l + 1) ∧
    (∃ m' l', list_push_front copy m l (some v) = (LIST_SUCCESS, m', l') ∧
        WellFormed m' l' ([v'] ++ xs) ∧
        (∀ fuel, list_get_size l' < fuel → forward fuel m' l' = some ([v'] ++ xs)) ∧
        list_get_size l' = list_get_size l + 1) := by
  obtain ⟨hs, ps, hr⟩ := hwf
  constructor
  · obtain ⟨m', he, hr', -, -⟩ := list_push_back_ring copy v v' hr hc
    have hwf' : WellFormed m' { l with size := l.size + 1 } (xs ++ [v']) :=
      ⟨by simp [hs], _, hr'⟩
    exact ⟨m', _, he, hwf', fun fuel hf => forward_of_wellFormed hwf' hf, rfl⟩
  · obtain ⟨m', he, hr', -, -⟩ := list_push_front_ring copy v v' hr hc
    have hwf' : WellFormed m' { l with size := l.size + 1 } ([v'] ++ xs) :=
      ⟨by simp [hs], _, hr'⟩
    exact ⟨m', _, he, hwf', fun fuel hf => forward_of_wellFormed hwf' hf, rfl⟩

theorem exampleList_wellFormed : WellFormed exampleMem exampleList [10, 20] :=
  ⟨rfl, [3, 4], ⟨⟨by decide, by decide, by decide, by decide, by decide⟩, by decide⟩⟩

/-- Instance of C1 on the list `[10, 20]` with the value `5`. -/
theorem list_push_back_front_contents_witness :
    WellFormed exampleMem exampleList [10, 20] ∧ int_copy 5 = some 5 ∧
    ((∃ m' l', list_push_back int_copy exampleMem exampleList (some 5)
          = (LIST_SUCCESS, m', l') ∧
        WellFormed m' l' ([10, 20] ++ [5]) ∧
        (∀ fuel, list_get_size l' < fuel → forward fuel m' l' = some ([10, 20] ++ [5])) ∧
        list_get_size l' = list_get_size exampleList + 1) ∧
    (∃ m' l', list_push_front int_copy exampleMem exampleList (some 5)
          = (LIST_SUCCESS, m', l') ∧
        WellFormed m' l' ([5] ++ [10, 20]) ∧
        (∀ fuel, list_get_size l' < fuel → forward fuel m' l' = some ([5] ++ [10, 20])) ∧
        list_get_size l' = list_get_size exampleList + 1)) :=
  ⟨exampleList_wellFormed, rfl,
    list_push_back_front_contents int_copy exampleMem exampleList [10, 20] 5 5
      exampleList_wellFormed rfl⟩

/-- The forward half of a ring only depends on the `data` and `next` fields of
its own nodes. -/
theorem fwdRing_frame {α : Type} {m m' : Mem α} {h : Nat} {ps : List Nat} {xs : List α}
    (hr : FwdRing m h ps xs) (hb : m.brk ≤ m'.brk)
    (hsame : ∀ x ∈ h :: ps, m'.data x = m.data x ∧ m'.next x = m.next x) :
    FwdRing m' h ps xs := by
  refine ⟨hr.nodup, fun p hp => ?_, ?_, ?_, ?_⟩
  · have := hr.alloc p hp
    omega
  · rw [(hsame h (List.mem_cons_self _ _)).1]; exact hr.sentinel
  · rw [← hr.data]
    exact List.map_congr_left (fun x hx => (hsame x (List.mem_cons_of_mem _ hx)).1)
  · exact nextPath_congr ps h h (fun x hx => (hsame x hx).2) hr.next

/-- A ring only depends on the fields of its own nodes. -/
theorem ring_frame {α : Type} {m m' : Mem α} {h : Nat} {ps : List Nat} {xs : List α}
    (hr : Ring m h ps xs) (hb : m.brk ≤ m'.brk)
    (hsame : ∀ x ∈ h :: ps,
      m'.data x = m.data x ∧ m'.next x = m.next x ∧ m'.prev x = m.prev x) :
    Ring m' h ps xs := by
  refine ⟨fwdRing_frame hr.toFwdRing hb (fun x hx => ⟨(hsame x hx).1, (hsame x hx).2.1⟩), ?_⟩
  refine nextPath_congr ps.reverse h h (fun x hx => (hsame x ?_).2.2) hr.prev
  simpa using hx

/-- Every element node of a ring carries data. -/
theorem fwdRing_data_isSome {α : Type} {m : Mem α} {h : Nat} {ps : List Nat} {xs : List α}
    (hr : FwdRing m h ps xs) : ∀ p ∈ ps, (m.data p).isSome = true := by
  intro p hp
  have : m.data p ∈ ps.map m.data := List.mem_map_of_mem _ hp
  rw [hr.data] at this
  obtain ⟨x, -, hx⟩ := List.mem_map.1 this
  rw [← hx]; rfl

/-- The counting loop started on the first node of a chain of data-carrying
nodes with counter `stop + k` ends on the node at position `k`. -/
theorem foreach_count_chain {α : Type} (m : Mem α) (stop b : Nat) :
    ∀ (k : Nat) (ps : List Nat) (a fuel : Nat),
      nextPath m.next a ps b → (∀ p ∈ ps, (m.data p).isSome = true) →
      k < ps.length → k < fuel →
      foreach_count m stop fuel (m.next a) (stop + k) = some (lastD (ps.take (k + 1)) a)
  | k, [], a, fuel, _, _, hk, _ => by simp at hk
  | 0, p :: ps, a, fuel, hp, hd, _, hf => by
    obtain ⟨n, rfl⟩ : ∃ n, fuel = n + 1 := ⟨fuel - 1, by omega⟩
    have hdp := hd p (List.mem_cons_self _ _)
    have hdp' : (m.data p).isNone = false := by
      cases hx : m.data p <;> simp [hx] at hdp ⊢
    simp only [nextPath] at hp
    simp [foreach_count, hp.1, hdp']
  | k + 1, p :: ps, a, fuel, hp, hd, hk, hf => by
    obtain ⟨n, rfl⟩ : ∃ n, fuel = n + 1 := ⟨fuel - 1, by omega⟩
    have hdp := hd p (List.mem_cons_self _ _)
    have hdp' : (m.data p).isNone = false := by
      cases hx : m.data p <;> simp [hx] at hdp ⊢
    simp only [nextPath] at hp
    have ih := foreach_count_chain m stop b k ps p n hp.2
      (fun q hq => hd q (List.mem_cons_of_mem _ hq)) (by simpa using hk) (by omega)
    have hdec : size_dec (stop + (k + 1)) = stop + k := by
      simp [size_dec]
    simp [foreach_count, hp.1, hdp', hdec, ih]

/-- `list_push_at` with `1 ≤ n ≤ size`: the fresh node is linked into the
forward chain after the node at position `n - 1`; the only `prev` field
written is the one of the fresh node itself. -/
theorem list_push_at_fwd {α : Type} (copy : α → Option α) {m : Mem α} {l : ListT}
    {ps : List Nat} {xs : List α} (n fuel : Nat) (v v' : α)
    (hr : FwdRing m l.head ps xs) (hs : l.size = xs.length) (hn0 : 0 < n)
    (hn : n ≤ l.size) (hf : l.size < fuel) (hc : copy v = some v') :
    ∃ m', list_push_at fuel copy m l n (some v)
        = some (LIST_SUCCESS, m', { l with size := l.size + 1 }) ∧
      FwdRing m' l.head (ps.take n ++ m.brk :: ps.drop n) (xs.take n ++ v' :: xs.drop n) ∧
      m'.brk = m.brk + 1 ∧ m'.prev = upd m.prev m.brk m.brk ∧
      Frame m m' (l.head :: ps) := by
  have hh := hr.alloc l.head (List.mem_cons_self _ _)
  have hb0 : m.brk ≠ 0 := by omega
  have hlen := fwdRing_length_eq hr
  have hne : ∀ x ∈ l.head :: ps, x ≠ m.brk := fun x hx e => by
    have := (hr.alloc x hx).2; omega
  have hr2 : FwdRing
      { data := upd m.data m.brk (some v'), next := upd m.next m.brk 0,
        prev := upd m.prev m.brk 0, brk := m.brk + 1 } l.head ps xs := by
    refine fwdRing_frame hr (Nat.le_succ _) (fun x hx => ?_)
    simp [upd_apply, hne x hx]
  obtain ⟨k, rfl⟩ : ∃ k, n = 1 + k := ⟨n - 1, by omega⟩
  have hloop := foreach_count_chain _ 1 l.head k ps l.head fuel hr2.next (fwdRing_data_isSome hr2)
    (by omega) (by omega)
  have hit : lastD (ps.take (k + 1)) l.head ∈ l.head :: ps := by
    have := lastD_mem (ps.take (k + 1)) l.head
    rcases List.mem_cons.1 this with h | h
    · rw [h]; exact List.mem_cons_self _ _
    · exact List.mem_cons_of_mem _ (List.mem_of_mem_take h)
  have hitne := hne _ hit
  have e1 : 1 + k = k + 1 := by omega
  rw [e1] at hn hloop ⊢
  have hloop' : foreach_count
      { data := upd m.data m.brk (some v'), next := upd m.next m.brk 0,
        prev := upd m.prev m.brk 0, brk := m.brk + 1 } 1 fuel
      (upd m.next m.brk 0 l.head) (k + 1) = some (lastD (ps.take (k + 1)) l.head) := hloop
  have heq : list_push_at fuel copy m l (k + 1) (some v)
      = some (LIST_SUCCESS,
          { data := upd m.data m.brk (some v')
            next := upd (upd m.next m.brk (m.next (lastD (ps.take (k + 1)) l.head)))
              (lastD (ps.take (k + 1)) l.head) m.brk
            prev := upd m.prev m.brk m.brk
            brk := m.brk + 1 },
          { l with size := l.size + 1 }) := by
    simp only [list_push_at, Nat.succ_ne_zero, if_false, not_lt.2 hn, node_create, node_set,
      hb0, hc, Mem.setData, __list_get_first, upd_same, upd_upd_same, Option.isNone_some,
      ne_eq, not_true]
    simp [Mem.setNext, Mem.setPrev, hloop', upd_other _ _ hitne]
  refine ⟨_, heq, ?_, rfl, rfl, ?_⟩
  swap
  · refine ⟨Nat.le_succ _, fun x hx hxS => ?_⟩
    have h1 : x ≠ m.brk := by omega
    have h2 : x ≠ lastD (ps.take (k + 1)) l.head := fun e => hxS (e ▸ hit)
    simp [upd_apply, h1, h2]
  have hsplit : FwdRing m l.head (ps.take (k + 1) ++ ps.drop (k + 1))
      (xs.take (k + 1) ++ xs.drop (k + 1)) := by
    simpa using hr
  refine fwdRing_insert _ _ _ _ v' hsplit (by simp [hlen]) rfl ?_ ?_ ?_ ?_ ?_
  · simp
  · intro x hx; simp [upd_apply, hx]
  · simp
  · simp [upd_apply, hitne, hitne.symm, nextPath_mid _ _ hsplit.next]
  · intro x hx1 hx2; simp [upd_apply, hx1, hx2]

/-- C2. On a well-formed list with forward contents `xs`, for every index
`0 ≤ n ≤ size` and value `v` whose copy succeeds with `v'`, `list_push_at`
(with fuel above the size) returns `LIST_SUCCESS`, the forward traversal
becomes `take n xs ++ [v'] ++ drop n xs` (the new element sits at position `n`,
immediately before the element formerly there), and the size grows by one. -/
theorem list_push_at_contents {α : Type} (copy : α → Option α) (m : Mem α) (l : ListT)
    (xs : List α) (n fuel : Nat) (v v' : α) (hwf : WellFormed m l xs)
    (hn : n ≤ list_get_size l) (hf : list_get_size l < fuel) (hc : copy v = some v') :
    ∃ m' l', list_push_at fuel copy m l n (some v) = some (LIST_SUCCESS, m', l') ∧
      (∀ fuel', list_get_size l' < fuel' →
        forward fuel' m' l' = some (xs.take n ++ [v'] ++ xs.drop n)) ∧
      list_get_size l' = list_get_size l + 1 := by
  obtain ⟨hs, ps, hr⟩ := hwf
  simp only [list_get_size] at hn hf ⊢
  rcases Nat.eq_zero_or_pos n with rfl | hn0
  · obtain ⟨m', he, hr', -, -⟩ := list_push_front_ring copy v v' hr hc
    refine ⟨m', { l with size := l.size + 1 }, by simp [list_push_at, he],
      fun fuel' hf' => ?_, rfl⟩
    have : forward fuel' m' { l with size := l.size + 1 } = some (v' :: xs) :=
      forward_of_ring hr'.toFwdRing (by simp at hf' ⊢; omega)
    simpa using this
  · obtain ⟨m', he, hr', -, -⟩ := list_push_at_fwd copy n fuel v v' hr.toFwdRing hs hn0 hn hf hc
    refine ⟨m', { l with size := l.size + 1 }, he, fun fuel' hf' => ?_, rfl⟩
    have : forward fuel' m' { l with size := l.size + 1 }
        = some (xs.take n ++ v' :: xs.drop n) :=
      forward_of_ring hr' (by simp at hf' ⊢; omega)
    simpa using this

/-- Instance of C2: `push_at(1, 5)` on the list `[10, 20]`. -/
theorem list_push_at_contents_witness :
    WellFormed exampleMem exampleList [10, 20] ∧ 1 ≤ list_get_size exampleList ∧
    list_get_size exampleList < 3 ∧ int_copy 5 = some 5 ∧
    ∃ m' l', list_push_at 3 int_copy exampleMem exampleList 1 (some 5)
        = some (LIST_SUCCESS, m', l') ∧
      (∀ fuel', list_get_size l' < fuel' →
        forward fuel' m' l' = some (([10, 20] : List Int).take 1 ++ [5] ++ [10, 20].drop 1)) ∧
      list_get_size l' = list_get_size exampleList + 1 :=
  ⟨exampleList_wellFormed, by decide, by decide, rfl,
    list_push_at_contents int_copy exampleMem exampleList [10, 20] 1 3 5 5
      exampleList_wellFormed (by decide) (by decide) rfl⟩

/-- Taking the node `p` out of a chain: the node before it is linked to what
followed `p`. -/
theorem nextPath_remove {f g : Nat → Nat} (p : Nat) (post : List Nat) (b : Nat) :
    ∀ (pre : List Nat) (a : Nat),
      nextPath f a (pre ++ p :: post) b → (a :: (pre ++ p :: post)).Nodup →
      g (lastD pre a) = f p → (∀ x, x ≠ lastD pre a → g x = f x) →
      nextPath g a (pre ++ post) b
  | [], a, hp, hnd, hu, hfr => by
    simp only [List.nil_append, lastD_nil, nextPath] at *
    have hnd' := List.nodup_cons.1 hnd
    cases post with
    | nil =>
      simp only [nextPath] at hp ⊢
      rw [hu, hp.2]
    | cons w t =>
      simp only [nextPath] at hp ⊢
      refine ⟨by rw [hu, hp.2.1], ?_⟩
      refine nextPath_congr t w b (fun x hx => hfr x ?_) hp.2.2
      rintro rfl
      exact hnd'.1 (List.mem_cons_of_mem _ hx)
  | q :: pre, a, hp, hnd, hu, hfr => by
    simp only [List.cons_append, lastD_cons, nextPath] at *
    have hnd' := List.nodup_cons.1 hnd
    refine ⟨?_, nextPath_remove p post b pre q hp.2 hnd'.2 hu hfr⟩
    rw [hfr a ?_]
    · exact hp.1
    · intro h
      apply hnd'.1
      rw [h]
      exact List.mem_cons.2 ((List.mem_cons.1 (lastD_mem pre q)).elim Or.inl
        (fun h => Or.inr (List.mem_append_left _ h)))

/-- The neighbours of an element node of a ring, and its data. -/
theorem ring_neighbours {α : Type} {m : Mem α} {h p : Nat} {pre post : List Nat}
    {xs1 xs2 : List α} {x : α}
    (hr : Ring m h (pre ++ p :: post) (xs1 ++ x :: xs2)) (hlen : pre.length = xs1.length) :
    m.data p = some x ∧ m.prev p = lastD pre h ∧ m.next p = firstD post h := by
  refine ⟨?_, ?_, ?_⟩
  · have hd := hr.data
    rw [List.map_append, List.map_append] at hd
    have := (List.append_inj hd (by simpa using hlen)).2
    simpa using (List.cons.inj this).1
  · have h2 : nextPath m.prev h ((post.reverse ++ [p]) ++ pre.reverse) h := by
      simpa using hr.prev
    simpa [firstD_reverse] using nextPath_mid (post.reverse ++ [p]) pre.reverse h2
  · have h1 : nextPath m.next h ((pre ++ [p]) ++ post) h := by simpa using hr.next
    simpa using nextPath_mid (pre ++ [p]) post h1

/-- Unlinking the element node `p` from a ring, as the removal functions do:
`p->prev->next = p->next; p->next->prev = p->prev`. -/
theorem ring_unlink {α : Type} {m : Mem α} {h p : Nat} {pre post : List Nat}
    {xs1 xs2 : List α} {x : α}
    (hr : Ring m h (pre ++ p :: post) (xs1 ++ x :: xs2)) (hlen : pre.length = xs1.length) :
    Ring { m with next := upd m.next (m.prev p) (m.next p)
                  prev := upd m.prev (m.next p) (m.prev p) }
      h (pre ++ post) (xs1 ++ xs2) := by
  obtain ⟨-, hpv, hnx⟩ := ring_neighbours hr hlen
  have hsub : ∀ y, y ∈ h :: (pre ++ post) → y ∈ h :: (pre ++ p :: post) := by
    intro y hy
    simp only [List.mem_cons, List.mem_append] at hy ⊢
    tauto
  have hnd : (h :: (pre ++ post)).Nodup := by
    have hsl : (h :: (pre ++ post)).Sublist (h :: (pre ++ p :: post)) :=
      List.Sublist.cons₂ _ (List.Sublist.append (List.Sublist.refl _) (List.sublist_cons_self _ _))
    exact hsl.nodup hr.nodup
  refine ⟨⟨hnd, fun y hy => hr.alloc y (hsub y hy), hr.sentinel, ?_, ?_⟩, ?_⟩
  · have hd := hr.data
    rw [List.map_append, List.map_append] at hd
    have hd' := List.append_inj hd (by simpa using hlen)
    rw [List.map_append, List.map_append]
    show pre.map m.data ++ post.map m.data = _
    rw [hd'.1, (List.cons.inj hd'.2).2]
  · refine nextPath_remove p post h pre h hr.next hr.nodup ?_ ?_
    · simp [hpv]
    · intro y hy; simp [upd_apply, hpv, hy]
  · have hprev : nextPath m.prev h (post.reverse ++ p :: pre.reverse) h := by
      simpa using hr.prev
    have hnd' : (h :: (post.reverse ++ p :: pre.reverse)).Nodup := by
      have : (h :: (post.reverse ++ p :: pre.reverse)).Perm (h :: (pre ++ p :: post)) := by
        refine List.Perm.cons h ?_
        have h1 : (post.reverse ++ p :: pre.reverse) = (pre ++ p :: post).reverse := by simp
        rw [h1]
        exact List.reverse_perm _
      exact this.nodup_iff.2 hr.nodup
    have := nextPath_remove (g := upd m.prev (m.next p) (m.prev p)) p pre.reverse h
      post.reverse h hprev hnd' (by simp [lastD_reverse, hnx])
      (by intro y hy; rw [lastD_reverse] at hy; simp [upd_apply, hnx, hy])
    simpa using this

/-- `__find_node` stops on the first node whose data compares equal. -/
theorem find_node_loop_found {α : Type} (cmp : α → α → Int) (m : Mem α) (v : α) (p : Nat)
    (post : List Nat) (x : α) (xs2 : List α) (b : Nat) :
    ∀ (pre : List Nat) (xs1 : List α) (a fuel : Nat),
      nextPath m.next a (pre ++ p :: post) b →
      (pre ++ p :: post).map m.data = (xs1 ++ x :: xs2).map some →
      pre.length = xs1.length → (∀ y ∈ xs1, cmp v y ≠ 0) → cmp v x = 0 →
      pre.length < fuel → __find_node_loop cmp m v fuel (m.next a) = some p
  | [], [], a, fuel, hp, hd, _, _, hx, hf => by
    obtain ⟨n, rfl⟩ : ∃ n, fuel = n + 1 := ⟨fuel - 1, by simp at hf; omega⟩
    simp only [List.nil_append, nextPath, List.map_cons, List.cons.injEq] at hp hd
    simp [__find_node_loop, hp.1, hd.1, hx]
  | [], _ :: _, _, _, _, _, hl, _, _, _ => by simp at hl
  | _ :: _, [], _, _, _, _, hl, _, _, _ => by simp at hl
  | q :: pre, y :: xs1, a, fuel, hp, hd, hl, hno, hx, hf => by
    obtain ⟨n, rfl⟩ : ∃ n, fuel = n + 1 := ⟨fuel - 1, by simp at hf; omega⟩
    simp only [List.cons_append, nextPath, List.map_cons, List.cons.injEq] at hp hd
    have ih := find_node_loop_found cmp m v p post x xs2 b pre xs1 q n hp.2 hd.2
      (by simpa using hl) (fun z hz => hno z (List.mem_cons_of_mem _ hz)) hx
      (by simpa using hf)
    simp [__find_node_loop, hp.1, hd.1, hno y (List.mem_cons_self _ _), ih]

/-- `__find_node` runs into the node without data (the sentinel) when no
element compares equal. -/
theorem find_node_loop_none {α : Type} (cmp : α → α → Int) (m : Mem α) (v : α) (b : Nat) :
    ∀ (ps : List Nat) (xs : List α) (a fuel : Nat),
      nextPath m.next a ps b → ps.map m.data = xs.map some → m.data b = none →
      (∀ y ∈ xs, cmp v y ≠ 0) → ps.length < fuel →
      __find_node_loop cmp m v fuel (m.next a) = some b
  | [], _, a, fuel, hp, _, hb, _, hf => by
    obtain ⟨n, rfl⟩ : ∃ n, fuel = n + 1 := ⟨fuel - 1, by simp at hf; omega⟩
    simp only [nextPath] at hp
    simp [__find_node_loop, hp, hb]
  | _ :: _, [], _, _, _, hd, _, _, _ => by simp at hd
  | q :: ps, y :: xs, a, fuel, hp, hd, hb, hno, hf => by
    obtain ⟨n, rfl⟩ : ∃ n, fuel = n + 1 := ⟨fuel - 1, by simp at hf; omega⟩
    simp only [nextPath, List.map_cons, List.cons.injEq] at hp hd
    have ih := find_node_loop_none cmp m v b ps xs q n hp.2 hd.2 hb
      (fun z hz => hno z (List.mem_cons_of_mem _ hz)) (by simpa using hf)
    simp [__find_node_loop, hp.1, hd.1, hno y (List.mem_cons_self _ _), ih]

/-- Splitting the node list of a ring along a split of its contents. -/
theorem ring_split {α : Type} {m : Mem α} {h : Nat} {ps : List Nat} {xs1 xs2 : List α}
    {x : α} (hr : FwdRing m h ps (xs1 ++ x :: xs2)) :
    ∃ pre p post, ps = pre ++ p :: post ∧ pre.length = xs1.length := by
  have hlen := fwdRing_length_eq hr
  simp only [List.length_append, List.length_cons] at hlen
  refine ⟨ps.take xs1.length, ps[xs1.length], ps.drop (xs1.length + 1), ?_, ?_⟩
  · have h1 := (List.take_append_drop xs1.length ps).symm
    rw [List.drop_eq_getElem_cons (by omega)] at h1
    exact h1
  · simp; omega

/-- `list_remove` of a value that compares equal to the element `x` and to no
element before it unlinks the node of `x`. -/
theorem list_remove_ring {α : Type} (cmp : α → α → Int) {m : Mem α} {l : ListT}
    {ps : List Nat} {xs1 xs2 : List α} {x : α} (v : α) (fuel : Nat)
    (hr : Ring m l.head ps (xs1 ++ x :: xs2)) (hno : ∀ y ∈ xs1, cmp v y ≠ 0)
    (hx : cmp v x = 0) (hf : xs1.length < fuel) :
    ∃ pre p post m' l', ps = pre ++ p :: post ∧ pre.length = xs1.length ∧
      list_remove fuel cmp m l (some v) = some (LIST_SUCCESS, m', l') ∧
      Ring m' l.head (pre ++ post) (xs1 ++ xs2) ∧ l'.head = l.head ∧ l'.id = l.id ∧
      l'.size = size_dec l.size ∧
      l'.iterator = (if l.iterator = p then m.next p else l.iterator) ∧
      m'.brk = m.brk ∧ m'.data = m.data ∧
      m'.next = upd m.next (m.prev p) (m.next p) ∧
      m'.prev = upd m.prev (m.next p) (m.prev p) := by
  obtain ⟨pre, p, post, rfl, hlen⟩ := ring_split hr.toFwdRing
  have hfind : __find_node fuel cmp m l v = some p :=
    find_node_loop_found cmp m v p post x xs2 l.head pre xs1 l.head fuel hr.next hr.data hlen
      hno hx (by omega)
  have hp0 : p ≠ 0 := by
    have := (hr.alloc p (by simp)).1
    omega
  refine ⟨pre, p, post, _,
    { id := l.id, size := size_dec l.size,
      iterator := if l.iterator = p then m.next p else l.iterator, head := l.head },
    rfl, hlen, ?_, ring_unlink hr hlen, rfl, rfl, rfl, rfl, rfl, rfl, rfl, rfl⟩
  by_cases hi : l.iterator = p <;>
    simp [list_remove, hfind, hp0, Mem.setNext, Mem.setPrev, hi]

theorem size_dec_succ (n : Nat) : size_dec (n + 1) = n := by simp [size_dec]

/-- C5. On a well-formed list with forward contents `xs`, for a non-null value
`v` such that some stored element compares equal to it (`cmp v x = 0`),
`list_remove` (with fuel above the size) returns `LIST_SUCCESS`; the list stays
well-formed and its forward contents are `xs` with only the first such element
deleted, all other elements in their order, and the size is one less. -/
theorem list_remove_first_match {α : Type} (cmp : α → α → Int) (m : Mem α) (l : ListT)
    (xs : List α) (v : α) (fuel : Nat) (hwf : WellFormed m l xs)
    (hex : ∃ x ∈ xs, cmp v x = 0) (hf : list_get_size l < fuel) :
    ∃ m' l', list_remove fuel cmp m l (some v) = some (LIST_SUCCESS, m', l') ∧
      WellFormed m' l' (xs.eraseP (fun y => decide (cmp v y = 0))) ∧
      (∀ fuel', list_get_size l' < fuel' →
        forward fuel' m' l' = some (xs.eraseP (fun y => decide (cmp v y = 0)))) ∧
      list_get_size l' + 1 = list_get_size l := by
  obtain ⟨hs, ps, hr⟩ := hwf
  obtain ⟨x, hxm, hx0⟩ := hex
  obtain ⟨x', xs1, xs2, hno, hx', rfl, herase⟩ :=
    List.exists_of_eraseP (p := fun y => decide (cmp v y = 0)) hxm (by simpa using hx0)
  simp only [list_get_size] at hf ⊢
  have hsz : l.size = (xs1 ++ xs2).length + 1 := by simp [hs]; omega
  obtain ⟨pre, p, post, m', l', -, -, he, hr', hh, -, hsize, -⟩ :=
    list_remove_ring cmp v fuel hr (fun y hy => by simpa using hno y hy)
      (by simpa using hx') (by simp at hsz; omega)
  have hsize' : l'.size = (xs1 ++ xs2).length := by rw [hsize, hsz, size_dec_succ]
  have hwf' : WellFormed m' l' (xs1 ++ xs2) := ⟨hsize', pre ++ post, hh ▸ hr'⟩
  rw [herase]
  exact ⟨m', l', he, hwf', fun fuel' hf' => forward_of_wellFormed hwf' hf', by omega⟩

/-- Instance of C5: removing `20` from the list `[10, 20]`. -/
theorem list_remove_first_match_witness :
    WellFormed exampleMem exampleList [10, 20] ∧
    (∃ x ∈ ([10, 20] : List Int), int_compare 20 x = 0) ∧ list_get_size exampleList < 3 ∧
    ∃ m' l', list_remove 3 int_compare exampleMem exampleList (some 20)
        = some (LIST_SUCCESS, m', l') ∧
      WellFormed m' l' (([10, 20] : List Int).eraseP (fun y => decide (int_compare 20 y = 0))) ∧
      (∀ fuel', list_get_size l' < fuel' → forward fuel' m' l'
        = some (([10, 20] : List Int).eraseP (fun y => decide (int_compare 20 y = 0)))) ∧
      list_get_size l' + 1 = list_get_size exampleList :=
  ⟨exampleList_wellFormed, ⟨20, by decide, by decide⟩, by decide,
    list_remove_first_match int_compare exampleMem exampleList [10, 20] 20 3
      exampleList_wellFormed ⟨20, by decide, by decide⟩ (by decide)⟩

/-- `list_remove_at` with `n < size` unlinks the node at position `n`. -/
theorem list_remove_at_ring {α : Type} {m : Mem α} {l : ListT} {ps : List Nat}
    {xs : List α} (n fuel : Nat) (hr : Ring m l.head ps xs) (hs : l.size = xs.length)
    (hn : n < l.size) (hf : l.size < fuel) :
    ∃ pre p post m', ps = pre ++ p :: post ∧ pre.length = n ∧
      list_remove_at fuel m l n = some (LIST_SUCCESS, m',
        { id := l.id, size := size_dec l.size,
          iterator := if l.iterator = p then m.next p else l.iterator, head := l.head }) ∧
      Ring m' l.head (pre ++ post) (xs.eraseIdx n) ∧
      m'.brk = m.brk ∧ m'.data = m.data ∧
      m'.next = upd m.next (m.prev p) (m.next p) ∧
      m'.prev = upd m.prev (m.next p) (m.prev p) := by
  have hxs : xs = xs.take n ++ xs[n] :: xs.drop (n + 1) := by
    have h1 := (List.take_append_drop n xs).symm
    rw [List.drop_eq_getElem_cons (by omega)] at h1
    exact h1
  have hr0 := hr
  rw [hxs] at hr
  obtain ⟨pre, p, post, rfl, hlen⟩ := ring_split hr.toFwdRing
  have hlen' : pre.length = n := by simp at hlen; omega
  have hloop := foreach_count_chain m 0 l.head n (pre ++ p :: post) l.head fuel
    hr.next (fwdRing_data_isSome hr.toFwdRing) (by simp; omega) (by omega)
  have htake : List.take (n + 1) (pre ++ p :: post) = pre ++ [p] := by
    rw [List.take_append_eq_append_take]
    simp [hlen']
  rw [htake, lastD_append_singleton, Nat.zero_add] at hloop
  obtain ⟨-, hpv, -⟩ := ring_neighbours hr (by simpa using hlen)
  have hpp : p ≠ lastD pre l.head := by
    intro e
    have hnd := hr.nodup
    have hmem := lastD_mem pre l.head
    rw [← e] at hmem
    have : (l.head :: pre ++ p :: post).Nodup := by simpa using hnd
    rw [List.nodup_append] at this
    exact this.2.2 hmem (List.mem_cons_self _ _)
  refine ⟨pre, p, post,
    { m with next := upd m.next (m.prev p) (m.next p)
             prev := upd m.prev (m.next p) (m.prev p) },
    rfl, hlen', ?_, ?_, rfl, rfl, rfl, rfl⟩
  · by_cases hi : l.iterator = p <;>
      simp [list_remove_at, not_le.2 hn, __list_get_first, hloop, Mem.setNext, Mem.setPrev,
        hi, upd_apply, hpv, hpp]
  · rw [List.eraseIdx_eq_take_drop_succ]
    exact ring_unlink hr (by simpa using hlen)

/-- C7. On a well-formed list with forward contents `xs`, for every index
`n < size`, `list_remove_at` (with fuel above the size) returns `LIST_SUCCESS`;
the list stays well-formed, its forward contents are `xs` with exactly the
element at position `n` deleted, and the size is one less. -/
theorem list_remove_at_contents {α : Type} (m : Mem α) (l : ListT) (xs : List α)
    (n fuel : Nat) (hwf : WellFormed m l xs) (hn : n < list_get_size l)
    (hf : list_get_size l < fuel) :
    ∃ m' l', list_remove_at fuel m l n = some (LIST_SUCCESS, m', l') ∧
      WellFormed m' l' (xs.eraseIdx n) ∧
      (∀ fuel', list_get_size l' < fuel' → forward fuel' m' l' = some (xs.eraseIdx n)) ∧
      list_get_size l' + 1 = list_get_size l := by
  obtain ⟨hs, ps, hr⟩ := hwf
  simp only [list_get_size] at hn hf ⊢
  obtain ⟨pre, p, post, m', -, -, he, hr', -⟩ := list_remove_at_ring n fuel hr hs hn hf
  have hlen : (xs.eraseIdx n).length + 1 = l.size := by
    rw [List.length_eraseIdx, if_pos (by omega)]; omega
  have hsize : size_dec l.size = (xs.eraseIdx n).length := by
    rw [← hlen, size_dec_succ]
  have hwf' : WellFormed m'
      { id := l.id, size := size_dec l.size,
        iterator := if l.iterator = p then m.next p else l.iterator, head := l.head }
      (xs.eraseIdx n) := ⟨hsize, pre ++ post, hr'⟩
  refine ⟨m', _, he, hwf', fun fuel' hf' => forward_of_wellFormed hwf' hf', ?_⟩
  show size_dec l.size + 1 = l.size
  omega

/-- Instance of C7: `remove_at(0)` on the list `[10, 20]`. -/
theorem list_remove_at_contents_witness :
    WellFormed exampleMem exampleList [10, 20] ∧ 0 < list_get_size exampleList ∧
    list_get_size exampleList < 3 ∧
    ∃ m' l', list_remove_at 3 exampleMem exampleList 0 = some (LIST_SUCCESS, m', l') ∧
      WellFormed m' l' (([10, 20] : List Int).eraseIdx 0) ∧
      (∀ fuel', list_get_size l' < fuel' →
        forward fuel' m' l' = some (([10, 20] : List Int).eraseIdx 0)) ∧
      list_get_size l' + 1 = list_get_size exampleList :=
  ⟨exampleList_wellFormed, by decide, by decide,
    list_remove_at_contents exampleMem exampleList [10, 20] 0 3 exampleList_wellFormed
      (by decide) (by decide)⟩

/-- C3 (failing input). On the well-formed, ring-closed list `[10, 20]`
(sentinel 2, nodes 3 and 4), `list_push_at(list, 2, 5)` returns `LIST_SUCCESS`
and links the new node 5 into the forward chain, but ring closure is lost: the
new node's `prev` points to itself and the sentinel's `prev` is still the old
tail, so `s.next.prev == s` fails for the new node and walking backward from
the tail never meets the new element. -/
theorem list_push_at_breaks_ring_closure :
    WellFormed exampleMem exampleList [10, 20] ∧ RingClosed exampleMem [2, 3, 4] ∧
    ∃ m' l', list_push_at 3 int_copy exampleMem exampleList 2 (some 5)
        = some (LIST_SUCCESS, m', l') ∧
      forward 4 m' l' = some [10, 20, 5] ∧ backward 4 m' l' = some [20, 10] ∧
      m'.prev 5 = 5 ∧ m'.prev (m'.next 5) = 4 ∧ ¬ RingClosed m' [2, 3, 4, 5] := by
  refine ⟨exampleList_wellFormed, by decide, _, _, rfl, ?_, ?_, ?_, ?_, ?_⟩ <;> decide

/-- C4 (failing input). Starting from `list_create`, the calls
`list_push_back(1)`, `list_push_at(1, 2)`, `list_pop_back()` all succeed and
leave `list_get_size` equal to `1`, while no element is reachable from the
sentinel any more: the forward traversal is empty. -/
theorem size_differs_from_element_count :
    ∃ m1 l1 m2 l2 m3 l3,
      list_push_back int_copy (list_create (Mem.empty Int)).2
        (list_create (Mem.empty Int)).1 (some 1) = (LIST_SUCCESS, m1, l1) ∧
      list_push_at 2 int_copy m1 l1 1 (some 2) = some (LIST_SUCCESS, m2, l2) ∧
      forward 3 m2 l2 = some [1, 2] ∧
      list_pop_back m2 l2 = (some 1, m3, l3) ∧
      list_get_size l3 = 1 ∧ forward 3 m3 l3 = some [] ∧
      m3.next l3.head = l3.head := by
  refine ⟨_, _, _, _, _, _, rfl, rfl, ?_, rfl, ?_, ?_, ?_⟩ <;> decide

/-- C6 (failing input). On the well-formed list `[10, 20]`, `list_remove` of the
value `99`, which compares equal to no element, does not return
`LIST_NOT_FOUND`: `__find_node` hands back the sentinel, never NULL, so the
sentinel itself is unlinked, the size drops to `1` and `LIST_SUCCESS` is
returned; the forward traversal from the sentinel no longer terminates. -/
theorem list_remove_not_found_unlinks_sentinel :
    WellFormed exampleMem exampleList [10, 20] ∧
    (∀ x ∈ ([10, 20] : List Int), int_compare 99 x ≠ 0) ∧
    __find_node 3 int_compare exampleMem exampleList 99 = some exampleList.head ∧
    ∃ m' l', list_remove 3 int_compare exampleMem exampleList (some 99)
        = some (LIST_SUCCESS, m', l') ∧
      list_get_size l' = 1 ∧ m'.next 4 = 3 ∧ m'.prev 3 = 4 ∧
      forward 100 m' l' = none := by
  refine ⟨exampleList_wellFormed, by decide, by decide, _, _, rfl, ?_, ?_, ?_, ?_⟩ <;> decide

/-! ## The merge sort on array slices -/

theorem merge_loop_nil_left {α : Type} (cmp : α → α → Int) (fuel : Nat) (b : List α) :
    __merge_loop cmp (fuel + 1) [] b = some b := by
  simp [__merge_loop]

theorem merge_loop_nil_right {α : Type} (cmp : α → α → Int) (fuel : Nat) (a : List α) :
    __merge_loop cmp (fuel + 1) a [] = some a := by
  cases a <;> simp [__merge_loop]

theorem merge_loop_cons_cons {α : Type} (cmp : α → α → Int) (fuel : Nat) (a b : α)
    (as bs : List α) :
    __merge_loop cmp (fuel + 1) (a :: as) (b :: bs)
      = if cmp a b ≤ 0 then (__merge_loop cmp fuel as (b :: bs)).map (fun r => a :: r)
        else (__merge_loop cmp fuel (a :: as) bs).map (fun r => b :: r) := by
  simp [__merge_loop]

/-- The merge loop ends within `|a| + |b| + 1` steps. -/
theorem merge_loop_some {α : Type} (cmp : α → α → Int) :
    ∀ (fuel : Nat) (a b : List α), a.length + b.length < fuel →
      ∃ r, __merge_loop cmp fuel a b = some r
  | 0, _, _, h => by omega
  | fuel + 1, [], b, _ => ⟨b, merge_loop_nil_left cmp fuel b⟩
  | fuel + 1, a :: as, [], _ => ⟨a :: as, merge_loop_nil_right cmp fuel _⟩
  | fuel + 1, a :: as, b :: bs, h => by
    rw [merge_loop_cons_cons]
    simp only [List.length_cons] at h
    split
    · obtain ⟨r, hr⟩ := merge_loop_some cmp fuel as (b :: bs) (by simp; omega)
      exact ⟨a :: r, by simp [hr]⟩
    · obtain ⟨r, hr⟩ := merge_loop_some cmp fuel (a :: as) bs (by simp; omega)
      exact ⟨b :: r, by simp [hr]⟩

/-- The merged slice is a permutation of the two input slices. -/
theorem merge_loop_perm {α : Type} (cmp : α → α → Int) :
    ∀ (fuel : Nat) (a b r : List α), __merge_loop cmp fuel a b = some r →
      r.Perm (a ++ b)
  | 0, _, _, _, h => by simp [__merge_loop] at h
  | fuel + 1, [], b, r, h => by
    rw [merge_loop_nil_left] at h
    simp at h; subst h; simp
  | fuel + 1, a :: as, [], r, h => by
    rw [merge_loop_nil_right] at h
    simp at h; subst h; simp
  | fuel + 1, a :: as, b :: bs, r, h => by
    rw [merge_loop_cons_cons] at h
    split at h
    · obtain ⟨r', hr', rfl⟩ := Option.map_eq_some'.1 h
      exact (merge_loop_perm cmp fuel as (b :: bs) r' hr').cons a
    · obtain ⟨r', hr', rfl⟩ := Option.map_eq_some'.1 h
      have ih := merge_loop_perm cmp fuel (a :: as) bs r' hr'
      exact (ih.cons b).trans
        (show (b :: (a :: as ++ bs)).Perm (a :: as ++ b :: bs) from List.perm_middle.symm)

/-- Merging two non-decreasing slices gives a non-decreasing slice. -/
theorem merge_loop_sorted {α : Type} {cmp : α → α → Int} (hT : TotalPreorder cmp) :
    ∀ (fuel : Nat) (a b r : List α), __merge_loop cmp fuel a b = some r →
      a.Pairwise (fun x y => cmp x y ≤ 0) → b.Pairwise (fun x y => cmp x y ≤ 0) →
      r.Pairwise (fun x y => cmp x y ≤ 0)
  | 0, _, _, _, h, _, _ => by simp [__merge_loop] at h
  | fuel + 1, [], b, r, h, _, hb => by
    rw [merge_loop_nil_left] at h
    simp at h; subst h; exact hb
  | fuel + 1, a :: as, [], r, h, ha, _ => by
    rw [merge_loop_nil_right] at h
    simp at h; subst h; exact ha
  | fuel + 1, a :: as, b :: bs, r, h, ha, hb => by
    rw [merge_loop_cons_cons] at h
    have ha' := List.pairwise_cons.1 ha
    have hb' := List.pairwise_cons.1 hb
    split at h
    · rename_i hab
      obtain ⟨r', hr', rfl⟩ := Option.map_eq_some'.1 h
      refine List.pairwise_cons.2 ⟨fun z hz => ?_,
        merge_loop_sorted hT fuel as (b :: bs) r' hr' ha'.2 hb⟩
      have hz' := (merge_loop_perm cmp fuel as (b :: bs) r' hr').mem_iff.1 hz
      rcases List.mem_append.1 hz' with hz1 | hz2
      · exact ha'.1 z hz1
      · rcases List.mem_cons.1 hz2 with rfl | hz3
        · exact hab
        · exact hT.trans _ _ _ hab (hb'.1 z hz3)
    · rename_i hab
      have hba : cmp b a ≤ 0 := (hT.total a b).resolve_left hab
      obtain ⟨r', hr', rfl⟩ := Option.map_eq_some'.1 h
      refine List.pairwise_cons.2 ⟨fun z hz => ?_,
        merge_loop_sorted hT fuel (a :: as) bs r' hr' ha hb'.2⟩
      have hz' := (merge_loop_perm cmp fuel (a :: as) bs r' hr').mem_iff.1 hz
      rcases List.mem_append.1 hz' with hz1 | hz2
      · rcases List.mem_cons.1 hz1 with rfl | hz3
        · exact hba
        · exact hT.trans _ _ _ hba (ha'.1 z hz3)
      · exact hb'.1 z hz2

/-- Stability of the merge: a sublist of `a` followed by a sublist of `b`, the
former never after the latter in the order, is still a sublist of the merge,
provided `a` is non-decreasing. -/
theorem merge_loop_sublist {α : Type} {cmp : α → α → Int} (hT : TotalPreorder cmp) :
    ∀ (fuel : Nat) (a b r : List α), __merge_loop cmp fuel a b = some r →
      a.Pairwise (fun x y => cmp x y ≤ 0) →
      ∀ c1 c2 : List α, c1.Sublist a → c2.Sublist b →
        (∀ x ∈ c1, ∀ y ∈ c2, cmp x y ≤ 0) → (c1 ++ c2).Sublist r
  | 0, _, _, _, h, _, _, _, _, _, _ => by simp [__merge_loop] at h
  | fuel + 1, [], b, r, h, _, c1, c2, h1, h2, _ => by
    rw [merge_loop_nil_left] at h
    simp at h; subst h
    rw [List.sublist_nil.1 h1]
    simpa using h2
  | fuel + 1, a :: as, [], r, h, _, c1, c2, h1, h2, _ => by
    rw [merge_loop_nil_right] at h
    simp at h; subst h
    rw [List.sublist_nil.1 h2]
    simpa using h1
  | fuel + 1, a :: as, b :: bs, r, h, ha, c1, c2, h1, h2, hc => by
    rw [merge_loop_cons_cons] at h
    have ha' := List.pairwise_cons.1 ha
    split at h
    · obtain ⟨r', hr', rfl⟩ := Option.map_eq_some'.1 h
      have ih := merge_loop_sublist hT fuel as (b :: bs) r' hr' ha'.2
      cases h1 with
      | cons _ h1' => exact (ih c1 c2 h1' h2 hc).cons a
      | cons₂ _ h1' =>
        rename_i c1'
        exact (ih c1' c2 h1' h2
          (fun x hx y hy => hc x (List.mem_cons_of_mem _ hx) y hy)).cons₂ a
    · rename_i hab
      obtain ⟨r', hr', rfl⟩ := Option.map_eq_some'.1 h
      have ih := merge_loop_sublist hT fuel (a :: as) bs r' hr' ha
      cases h2 with
      | cons _ h2' => exact (ih c1 c2 h1 h2' hc).cons b
      | cons₂ _ h2' =>
        rename_i c2'
        have hc1 : c1 = [] := by
          cases c1 with
          | nil => rfl
          | cons x c1' =>
            exfalso
            apply hab
            have hxb := hc x (List.mem_cons_self _ _) b (List.mem_cons_self _ _)
            have hxa : x ∈ a :: as := h1.subset (List.mem_cons_self _ _)
            rcases List.mem_cons.1 hxa with rfl | hx
            · exact hxb
            · exact hT.trans _ _ _ (ha'.1 x hx) hxb
        subst hc1
        have := ih [] c2' (List.nil_sublist _) h2' (fun x hx => by simp at hx)
        simpa using this.cons₂ b

/-- `__merge` always yields a slice. -/
theorem merge_some {α : Type} (cmp : α → α → Int) (a b : List α) :
    ∃ r, __merge cmp a b = some r :=
  merge_loop_some cmp _ a b (Nat.lt_succ_self _)

/-- `__merge_sort` returns, with result code `0`, whenever the fuel exceeds
the slice size, and its result is a permutation of the slice. -/
theorem merge_sort_some {α : Type} (cmp : α → α → Int) :
    ∀ (fuel : Nat) (a : List α), a.length < fuel →
      ∃ r, __merge_sort cmp fuel a = some (0, r) ∧ r.Perm a
  | 0, _, h => by omega
  | fuel + 1, a, h => by
    by_cases hsz : a.length ≤ 1
    · exact ⟨a, by simp [__merge_sort, hsz], List.Perm.refl _⟩
    · have h1 : (a.take (a.length / 2)).length < fuel := by
        rw [List.length_take]; omega
      have h2 : (a.drop (a.length / 2)).length < fuel := by
        rw [List.length_drop]; omega
      obtain ⟨left, hl, hlp⟩ := merge_sort_some cmp fuel _ h1
      obtain ⟨right, hr, hrp⟩ := merge_sort_some cmp fuel _ h2
      obtain ⟨sorted, hm⟩ := merge_some cmp left right
      refine ⟨sorted, by simp [__merge_sort, hsz, hl, hr, hm], ?_⟩
      have := (merge_loop_perm cmp _ _ _ _ hm).trans (hlp.append hrp)
      simpa using this

/-- The slice `__merge_sort` leaves is non-decreasing. -/
theorem merge_sort_sorted {α : Type} {cmp : α → α → Int} (hT : TotalPreorder cmp) :
    ∀ (fuel : Nat) (a r : List α) (res : Nat), __merge_sort cmp fuel a = some (res, r) →
      r.Pairwise (fun x y => cmp x y ≤ 0)
  | 0, _, _, _, h => by simp [__merge_sort] at h
  | fuel + 1, a, r, res, h => by
    by_cases hsz : a.length ≤ 1
    · simp only [__merge_sort, hsz, if_true, Option.some.injEq, Prod.mk.injEq] at h
      obtain ⟨-, rfl⟩ := h
      match a, hsz with
      | [], _ => exact List.Pairwise.nil
      | [x], _ => exact List.pairwise_singleton _ _
      | _ :: _ :: _, hsz => simp at hsz
    · simp only [__merge_sort, hsz, if_false] at h
      split at h
      · simp at h
      · rename_i res1 left hl
        split at h
        · simp at h
        · rename_i res2 right hr
          split at h
          · simp at h
          · rename_i sorted hm
            simp only [Option.some.injEq, Prod.mk.injEq] at h
            obtain ⟨-, rfl⟩ := h
            exact merge_loop_sorted hT _ _ _ _ hm
              (merge_sort_sorted hT fuel _ _ _ hl) (merge_sort_sorted hT fuel _ _ _ hr)

/-- Stability of `__merge_sort`: a sublist of the slice that is non-decreasing
is still a sublist of the sorted slice. -/
theorem merge_sort_sublist {α : Type} {cmp : α → α → Int} (hT : TotalPreorder cmp) :
    ∀ (fuel : Nat) (a r : List α) (res : Nat), __merge_sort cmp fuel a = some (res, r) →
      ∀ c : List α, c.Sublist a → c.Pairwise (fun x y => cmp x y ≤ 0) → c.Sublist r
  | 0, _, _, _, h, _, _, _ => by simp [__merge_sort] at h
  | fuel + 1, a, r, res, h, c, hc, hp => by
    by_cases hsz : a.length ≤ 1
    · simp only [__merge_sort, hsz, if_true, Option.some.injEq, Prod.mk.injEq] at h
      obtain ⟨-, rfl⟩ := h
      exact hc
    · simp only [__merge_sort, hsz, if_false] at h
      split at h
      · simp at h
      · rename_i res1 left hl
        split at h
        · simp at h
        · rename_i res2 right hr
          split at h
          · simp at h
          · rename_i sorted hm
            simp only [Option.some.injEq, Prod.mk.injEq] at h
            obtain ⟨-, rfl⟩ := h
            rw [← List.take_append_drop (a.length / 2) a] at hc
            obtain ⟨c1, c2, rfl, hc1, hc2⟩ := List.sublist_append_iff.1 hc
            have hp' := List.pairwise_append.1 hp
            exact merge_loop_sublist hT _ _ _ _ hm (merge_sort_sorted hT fuel _ _ _ hl)
              c1 c2 (merge_sort_sublist hT fuel _ _ _ hl c1 hc1 hp'.1)
              (merge_sort_sublist hT fuel _ _ _ hr c2 hc2 hp'.2.1) hp'.2.2

/-! ## Footprints, `list_create`, `list_clear` -/

theorem frame_refl {α : Type} (m : Mem α) (S : List Nat) : Frame m m S :=
  ⟨le_refl _, fun _ _ _ => ⟨rfl, rfl, rfl⟩⟩

/-- A footprint may be enlarged. -/
theorem frame_mono {α : Type} {m m' : Mem α} {S S' : List Nat} (h : Frame m m' S)
    (hS : ∀ x ∈ S, x ∈ S') : Frame m m' S' :=
  ⟨h.1, fun x hx hxS => h.2 x hx (fun hm => hxS (hS x hm))⟩

/-- Footprints compose when the later one only adds cells that were not yet
allocated at the start. -/
theorem frame_trans {α : Type} {m m1 m2 : Mem α} {S S' : List Nat}
    (h1 : Frame m m1 S) (h2 : Frame m1 m2 S')
    (hS : ∀ x ∈ S', x ∈ S ∨ m.brk ≤ x) : Frame m m2 S := by
  refine ⟨le_trans h1.1 h2.1, fun x hx hxS => ?_⟩
  have hx1 : x < m1.brk := lt_of_lt_of_le hx h1.1
  have hxS' : x ∉ S' := fun h => by
    rcases hS x h with h | h
    · exact hxS h
    · omega
  obtain ⟨a1, a2, a3⟩ := h1.2 x hx hxS
  obtain ⟨b1, b2, b3⟩ := h2.2 x hx1 hxS'
  exact ⟨b1.trans a1, b2.trans a2, b3.trans a3⟩

/-- A ring disjoint from the footprint of an operation is left as it was. -/
theorem ring_of_frame {α : Type} {m m' : Mem α} {S : List Nat} {h : Nat} {ps : List Nat}
    {xs : List α} (hr : Ring m h ps xs) (hf : Frame m m' S)
    (hd : ∀ x ∈ h :: ps, x ∉ S) : Ring m' h ps xs :=
  ring_frame hr hf.1 (fun x hx => hf.2 x (hr.alloc x hx).2 (hd x hx))

/-- `list_create` yields an empty ring on a fresh sentinel and touches no
allocated cell. -/
theorem list_create_ring {α : Type} (m : Mem α) :
    (list_create m).1 = { id := m.brk, size := 0, iterator := m.brk + 1, head := m.brk + 1 } ∧
    Ring (list_create m).2 (m.brk + 1) [] [] ∧ (list_create m).2.brk = m.brk + 2 ∧
    Frame m (list_create m).2 [] := by
  refine ⟨rfl, ⟨⟨by simp, ?_, ?_, rfl, ?_⟩, ?_⟩, rfl, ?_, ?_⟩
  · intro p hp
    simp only [List.mem_singleton] at hp
    subst hp
    simp [list_create, node_create, Mem.setPrev, Mem.setNext]
  · simp [list_create, node_create, Mem.setPrev, Mem.setNext]
  · simp [list_create, node_create, Mem.setPrev, Mem.setNext, nextPath]
  · simp [list_create, node_create, Mem.setPrev, Mem.setNext, nextPath]
  · show m.brk ≤ m.brk + 1 + 1
    omega
  · intro x hx _
    have h1 : x ≠ m.brk + 1 := by omega
    simp [list_create, node_create, Mem.setPrev, Mem.setNext, upd_apply, h1]

/-- The loop of `list_clear` walks the chain up to the sentinel. -/
theorem list_clear_loop_chain {α : Type} (m : Mem α) (h : Nat) :
    ∀ (ps : List Nat) (a fuel : Nat), nextPath m.next a ps h → h ∉ ps →
      ps.length < fuel → list_clear_loop m h fuel (m.next a) = some h
  | [], a, fuel, hp, _, hf => by
    obtain ⟨n, rfl⟩ : ∃ n, fuel = n + 1 := ⟨fuel - 1, by simp at hf; omega⟩
    simp only [nextPath] at hp
    simp [list_clear_loop, hp]
  | p :: ps, a, fuel, hp, hh, hf => by
    obtain ⟨n, rfl⟩ : ∃ n, fuel = n + 1 := ⟨fuel - 1, by simp at hf; omega⟩
    simp only [nextPath] at hp
    have hne : p ≠ h := fun e => hh (e ▸ List.mem_cons_self _ _)
    have ih := list_clear_loop_chain m h ps p n hp.2
      (fun hm => hh (List.mem_cons_of_mem _ hm)) (by simpa using hf)
    simp [list_clear_loop, hp.1, hne, ih]

/-- `list_clear` on a list whose forward chain is closed resets the sentinel's
links and leaves the empty ring. -/
theorem list_clear_ring {α : Type} {m : Mem α} {l : ListT} {ps : List Nat} {xs : List α}
    (fuel : Nat) (hr : FwdRing m l.head ps xs) (hf : xs.length < fuel) :
    list_clear fuel m l
      = some ({ m with next := upd m.next l.head l.head, prev := upd m.prev l.head l.head },
          { l with size := 0, iterator := l.head }) ∧
    Ring { m with next := upd m.next l.head l.head, prev := upd m.prev l.head l.head }
      l.head [] [] ∧
    Frame m { m with next := upd m.next l.head l.head, prev := upd m.prev l.head l.head }
      [l.head] := by
  have hloop := list_clear_loop_chain m l.head ps l.head fuel hr.next
    (List.nodup_cons.1 hr.nodup).1 (by rw [fwdRing_length_eq hr]; exact hf)
  refine ⟨by simp [list_clear, hloop, Mem.setPrev, Mem.setNext], ⟨⟨by simp, ?_, hr.sentinel,
    rfl, by simp [nextPath]⟩, by simp [nextPath]⟩, ⟨le_refl _, fun x _ hx => ?_⟩⟩
  · intro p hp
    exact hr.alloc p (List.mem_cons.2 (Or.inl (List.mem_singleton.1 hp)))
  · have : x ≠ l.head := by simpa using hx
    simp [upd_apply, this]

/-! ## `list_copy` -/

/-- Either every copy succeeds or some copy fails. -/
theorem copies_succeed_or_fail {α : Type} (copy : α → Option α) :
    ∀ xs : List α, (∃ cs : List α, xs.map copy = cs.map some) ∨ (∃ x ∈ xs, copy x = none)
  | [] => Or.inl ⟨[], rfl⟩
  | x :: xs => by
    cases hx : copy x with
    | none => exact Or.inr ⟨x, List.mem_cons_self _ _, hx⟩
    | some c =>
      rcases copies_succeed_or_fail copy xs with ⟨cs, hcs⟩ | ⟨y, hy, hyn⟩
      · exact Or.inl ⟨c :: cs, by simp [hx, hcs]⟩
      · exact Or.inr ⟨y, List.mem_cons_of_mem _ hy, hyn⟩

/-- The loop of `list_copy` when every copy succeeds: the copies are appended
to the new ring in order, and only the new ring and fresh cells are written. -/
theorem list_copy_loop_ok {α : Type} (copy : α → Option α) (F b : Nat) :
    ∀ (rest : List Nat) (xr cs : List α) (m : Mem α) (new : ListT) (qs : List Nat)
      (zs : List α) (a fuel : Nat),
      nextPath m.next a rest b → rest.map m.data = xr.map some → m.data b = none →
      (∀ x ∈ a :: b :: rest, x < m.brk ∧ x ∉ new.head :: qs) →
      Ring m new.head qs zs → xr.map copy = cs.map some → rest.length < fuel →
      ∃ m' qs', list_copy_loop copy F fuel m new (m.next a)
          = some (some { new with size := new.size + xr.length }, m') ∧
        Ring m' new.head (qs ++ qs') (zs ++ cs) ∧ Frame m m' (new.head :: qs) ∧
        (∀ q ∈ qs', m.brk ≤ q)
  | [], xr, cs, m, new, qs, zs, a, fuel, hp, hd, hb, _, hr, hc, hf => by
    obtain ⟨n, rfl⟩ : ∃ n, fuel = n + 1 := ⟨fuel - 1, by simp at hf; omega⟩
    simp only [nextPath] at hp
    have hxr : xr = [] := by simpa using hd.symm
    subst hxr
    have hcs : cs = [] := by simpa using hc.symm
    subst hcs
    exact ⟨m, [], by simp [list_copy_loop, hp, hb], by simpa using hr, frame_refl _ _,
      by simp⟩
  | p :: rest, [], _, _, _, _, _, _, _, _, hd, _, _, _, _, _ => by simp at hd
  | p :: rest, x :: xr, [], _, _, _, _, _, _, _, _, _, _, _, hc, _ => by simp at hc
  | p :: rest, x :: xr, c :: cs, m, new, qs, zs, a, fuel, hp, hd, hb, hsrc, hr, hc, hf => by
    obtain ⟨n, rfl⟩ : ∃ n, fuel = n + 1 := ⟨fuel - 1, by simp at hf; omega⟩
    simp only [nextPath, List.map_cons, List.cons.injEq] at hp hd hc
    obtain ⟨m1, he, hr1, hbrk1, hfr1⟩ := list_push_back_ring copy x c hr hc.1
    have hkeep : ∀ y ∈ a :: b :: p :: rest,
        m1.data y = m.data y ∧ m1.next y = m.next y ∧ m1.prev y = m.prev y :=
      fun y hy => hfr1.2 y (hsrc y hy).1 (hsrc y hy).2
    have hp1 : nextPath m1.next p rest b :=
      nextPath_congr rest p b (fun y hy => (hkeep y (by
        simp only [List.mem_cons] at hy ⊢; tauto)).2.1) hp.2
    have hd1 : rest.map m1.data = xr.map some := by
      rw [← hd.2]
      exact List.map_congr_left (fun y hy => (hkeep y (by
        simp only [List.mem_cons]; tauto)).1)
    have hb1 : m1.data b = none := by
      rw [(hkeep b (by simp)).1]; exact hb
    have hsrc1 : ∀ y ∈ p :: b :: rest,
        y < m1.brk ∧ y ∉ ({ new with size := new.size + 1 } : ListT).head :: (qs ++ [m.brk]) := by
      intro y hy
      have hy' : y ∈ a :: b :: p :: rest := by
        simp only [List.mem_cons] at hy ⊢; tauto
      obtain ⟨hlt, hnot⟩ := hsrc y hy'
      refine ⟨by omega, fun hm => ?_⟩
      simp only [List.mem_cons, List.mem_append, List.not_mem_nil, or_false] at hm
      rcases hm with h | h | h
      · exact hnot (h ▸ List.mem_cons_self _ _)
      · exact hnot (List.mem_cons_of_mem _ h)
      · omega
    obtain ⟨m', qs', hloop, hr', hfr', hq'⟩ :=
      list_copy_loop_ok copy F b rest xr cs m1 { new with size := new.size + 1 }
        (qs ++ [m.brk]) (zs ++ [c]) p n hp1 hd1 hb1 hsrc1 hr1 hc.2 (by simpa using hf)
    refine ⟨m', m.brk :: qs', ?_, by simpa using hr', ?_, ?_⟩
    · have hsz : new.size + 1 + xr.length = new.size + (xr.length + 1) := by omega
      rw [hsz] at hloop
      rw [hp.1]
      simp only [list_copy_loop, hd.1, he]
      simpa using hloop
    · refine frame_trans hfr1 hfr' (fun y hy => ?_)
      simp only [List.mem_cons, List.mem_append, List.not_mem_nil, or_false] at hy ⊢
      rcases hy with h | h | h
      · exact Or.inl (Or.inl h)
      · exact Or.inl (Or.inr h)
      · exact Or.inr (by omega)
    · intro q hq
      rcases List.mem_cons.1 hq with rfl | hq
      · exact le_refl _
      · have := hq' q hq
        omega

/-- `list_push_back` when the copy callback fails: `LIST_NO_MEM`, and only the
discarded fresh cell was written. -/
theorem list_push_back_fail {α : Type} (copy : α → Option α) (m : Mem α) (l : ListT)
    (v : α) (hb : m.brk ≠ 0) (hc : copy v = none) :
    ∃ m', list_push_back copy m l (some v) = (LIST_NO_MEM, m', l) ∧ Frame m m' [] ∧
      m'.brk = m.brk + 1 := by
  refine ⟨{ data := upd m.data m.brk none, next := upd m.next m.brk 0,
            prev := upd m.prev m.brk 0, brk := m.brk + 1 }, ?_, ⟨Nat.le_succ _, ?_⟩, rfl⟩
  · simp [list_push_back, list_iterator_create, list_push_before, node_create, node_set,
      hb, hc, Mem.setData, NodeStatus_to_ListStatus]
  · intro x hx _
    have : x ≠ m.brk := by omega
    simp [upd_apply, this]

/-- The loop of `list_copy` when some copy fails: the partial copy is cleared,
NULL is returned, and only the new ring and fresh cells were written. -/
theorem list_copy_loop_fail {α : Type} (copy : α → Option α) (F b : Nat) :
    ∀ (rest : List Nat) (xr : List α) (m : Mem α) (new : ListT) (qs : List Nat)
      (zs : List α) (a fuel : Nat),
      nextPath m.next a rest b → rest.map m.data = xr.map some → m.data b = none →
      (∀ x ∈ a :: b :: rest, x < m.brk ∧ x ∉ new.head :: qs) →
      Ring m new.head qs zs → (∃ x ∈ xr, copy x = none) → rest.length < fuel →
      zs.length + xr.length < F →
      ∃ m', list_copy_loop copy F fuel m new (m.next a) = some (none, m') ∧
        Frame m m' (new.head :: qs)
  | [], xr, m, new, qs, zs, a, fuel, _, hd, _, _, _, hc, _, _ => by
    have hxr : xr = [] := by simpa using hd.symm
    subst hxr
    simp at hc
  | p :: rest, [], _, _, _, _, _, _, _, hd, _, _, _, _, _, _ => by simp at hd
  | p :: rest, x :: xr, m, new, qs, zs, a, fuel, hp, hd, hb, hsrc, hr, hc, hf, hF => by
    obtain ⟨n, rfl⟩ : ∃ n, fuel = n + 1 := ⟨fuel - 1, by simp at hf; omega⟩
    simp only [nextPath, List.map_cons, List.cons.injEq] at hp hd
    have hb0 : m.brk ≠ 0 := by
      have := (hsrc a (List.mem_cons_self _ _)).1
      omega
    cases hx : copy x with
    | none =>
      obtain ⟨m1, he, hfr1, -⟩ := list_push_back_fail copy m new x hb0 hx
      have hr1 : Ring m1 new.head qs zs := ring_of_frame hr hfr1 (fun _ _ => by simp)
      obtain ⟨hclear, -, hfr2⟩ := list_clear_ring (l := new) F hr1.toFwdRing
        (by simp at hF; omega)
      refine ⟨_, ?_, frame_trans (frame_mono hfr1 (fun _ h => by simp at h)) hfr2
        (fun y hy => ?_)⟩
      · rw [hp.1]
        simp only [list_copy_loop, hd.1, he, list_destroy, hclear]
        simp
      · simp only [List.mem_singleton] at hy
        exact Or.inl (hy ▸ List.mem_cons_self _ _)
    | some c =>
      obtain ⟨m1, he, hr1, hbrk1, hfr1⟩ := list_push_back_ring copy x c hr hx
      have hkeep : ∀ y ∈ a :: b :: p :: rest,
          m1.data y = m.data y ∧ m1.next y = m.next y ∧ m1.prev y = m.prev y :=
        fun y hy => hfr1.2 y (hsrc y hy).1 (hsrc y hy).2
      have hp1 : nextPath m1.next p rest b :=
        nextPath_congr rest p b (fun y hy => (hkeep y (by
          simp only [List.mem_cons] at hy ⊢; tauto)).2.1) hp.2
      have hd1 : rest.map m1.data = xr.map some := by
        rw [← hd.2]
        exact List.map_congr_left (fun y hy => (hkeep y (by
          simp only [List.mem_cons]; tauto)).1)
      have hb1 : m1.data b = none := by
        rw [(hkeep b (by simp)).1]; exact hb
      have hsrc1 : ∀ y ∈ p :: b :: rest,
          y < m1.brk ∧
            y ∉ ({ new with size := new.size + 1 } : ListT).head :: (qs ++ [m.brk]) := by
        intro y hy
        have hy' : y ∈ a :: b :: p :: rest := by
          simp only [List.mem_cons] at hy ⊢; tauto
        obtain ⟨hlt, hnot⟩ := hsrc y hy'
        refine ⟨by omega, fun hm => ?_⟩
        simp only [List.mem_cons, List.mem_append, List.not_mem_nil, or_false] at hm
        rcases hm with h | h | h
        · exact hnot (h ▸ List.mem_cons_self _ _)
        · exact hnot (List.mem_cons_of_mem _ h)
        · omega
      have hc' : ∃ y ∈ xr, copy y = none := by
        obtain ⟨y, hy, hyn⟩ := hc
        rcases List.mem_cons.1 hy with rfl | hy
        · rw [hx] at hyn; cases hyn
        · exact ⟨y, hy, hyn⟩
      obtain ⟨m', hloop, hfr'⟩ :=
        list_copy_loop_fail copy F b rest xr m1 { new with size := new.size + 1 }
          (qs ++ [m.brk]) (zs ++ [c]) p n hp1 hd1 hb1 hsrc1 hr1 hc' (by simpa using hf)
          (by simp at hF ⊢; omega)
      refine ⟨m', ?_, frame_trans hfr1 hfr' (fun y hy => ?_)⟩
      · rw [hp.1]
        simp only [list_copy_loop, hd.1, he]
        simpa using hloop
      · simp only [List.mem_cons, List.mem_append, List.not_mem_nil, or_false] at hy ⊢
        rcases hy with h | h | h
        · exact Or.inl (Or.inl h)
        · exact Or.inl (Or.inr h)
        · exact Or.inr (by omega)

/-- The source ring as the loop of `list_copy` sees it after `list_create`. -/
theorem list_copy_setup {α : Type} {m : Mem α} {l : ListT} {ps : List Nat} {xs : List α}
    (hr : Ring m l.head ps xs) :
    Ring (list_create m).2 l.head ps xs ∧
    (∀ x ∈ l.head :: l.head :: ps,
      x < (list_create m).2.brk ∧ x ∉ (list_create m).1.head :: ([] : List Nat)) := by
  obtain ⟨he, -, hbrk, hfr⟩ := list_create_ring m
  refine ⟨ring_of_frame hr hfr (fun _ _ => by simp), fun x hx => ?_⟩
  have hx' : x ∈ l.head :: ps := by
    simp only [List.mem_cons] at hx ⊢; tauto
  have := (hr.alloc x hx').2
  rw [hbrk, he]
  refine ⟨by omega, ?_⟩
  simp only [List.mem_singleton]
  omega

/-- `list_copy` when every copy succeeds: a new well-formed list on fresh
cells holding the copies in order; no allocated cell is written. -/
theorem list_copy_ok {α : Type} (copy : α → Option α) {m : Mem α} {l : ListT}
    {ps : List Nat} {xs : List α} (cs : List α) (fuel : Nat) (hr : Ring m l.head ps xs)
    (hc : xs.map copy = cs.map some) (hf : xs.length < fuel) :
    ∃ m' qs, list_copy fuel copy m l
        = some (some { id := m.brk, size := xs.length, iterator := m.brk + 1,
                       head := m.brk + 1 }, m') ∧
      Ring m' (m.brk + 1) qs cs ∧ Frame m m' [] ∧ (∀ q ∈ qs, m.brk + 2 ≤ q) := by
  obtain ⟨he, hr0, hbrk, hfr⟩ := list_create_ring m
  obtain ⟨hsrc, hdis⟩ := list_copy_setup hr
  obtain ⟨m', qs, hloop, hr', hfr', hq⟩ :=
    list_copy_loop_ok copy fuel l.head ps xs cs (list_create m).2 (list_create m).1 [] []
      l.head fuel hsrc.next hsrc.data hsrc.sentinel hdis (by rw [he]; exact hr0) hc
      (by rw [fwdRing_length_eq hr.toFwdRing]; exact hf)
  refine ⟨m', qs, ?_, by simpa [he] using hr', ?_, fun q hq' => by
    have := hq q hq'; omega⟩
  · simp only [list_copy, __list_get_first]
    rw [hloop, he]
    simp
  · refine frame_trans hfr hfr' (fun y hy => Or.inr ?_)
    rw [he] at hy
    simp only [List.mem_singleton] at hy
    omega

/-- `list_copy` when some copy fails: NULL, and no allocated cell is written. -/
theorem list_copy_fail {α : Type} (copy : α → Option α) {m : Mem α} {l : ListT}
    {ps : List Nat} {xs : List α} (fuel : Nat) (hr : Ring m l.head ps xs)
    (hc : ∃ x ∈ xs, copy x = none) (hf : xs.length < fuel) :
    ∃ m', list_copy fuel copy m l = some (none, m') ∧ Frame m m' [] := by
  obtain ⟨he, hr0, hbrk, hfr⟩ := list_create_ring m
  obtain ⟨hsrc, hdis⟩ := list_copy_setup hr
  obtain ⟨m', hloop, hfr'⟩ :=
    list_copy_loop_fail copy fuel l.head ps xs (list_create m).2 (list_create m).1 [] []
      l.head fuel hsrc.next hsrc.data hsrc.sentinel hdis (by rw [he]; exact hr0) hc
      (by rw [fwdRing_length_eq hr.toFwdRing]; exact hf) (by simpa using hf)
  refine ⟨m', ?_, ?_⟩
  · simp only [list_copy, __list_get_first]
    exact hloop
  · refine frame_trans hfr hfr' (fun y hy => Or.inr ?_)
    rw [he] at hy
    simp only [List.mem_singleton] at hy
    omega

/-! ## The loops of `list_sort` -/

/-- The first loop of `list_sort` when every copy succeeds: the array holds the
copies in order. -/
theorem list_sort_fill_ok {α : Type} (copy : α → Option α) (m : Mem α) (b : Nat) :
    ∀ (rest : List Nat) (xr ys : List α) (a fuel : Nat) (acc : List α),
      nextPath m.next a rest b → rest.map m.data = xr.map some → m.data b = none →
      xr.map copy = ys.map some → rest.length < fuel →
      list_sort_fill copy m fuel (m.next a) acc = some (some (acc ++ ys))
  | [], xr, ys, a, fuel, acc, hp, hd, hb, hc, hf => by
    obtain ⟨n, rfl⟩ : ∃ n, fuel = n + 1 := ⟨fuel - 1, by simp at hf; omega⟩
    simp only [nextPath] at hp
    have hxr : xr = [] := by simpa using hd.symm
    subst hxr
    have hys : ys = [] := by simpa using hc.symm
    subst hys
    simp [list_sort_fill, hp, hb]
  | _ :: _, [], _, _, _, _, _, hd, _, _, _ => by simp at hd
  | _ :: _, _ :: _, [], _, _, _, _, _, _, hc, _ => by simp at hc
  | p :: rest, x :: xr, y :: ys, a, fuel, acc, hp, hd, hb, hc, hf => by
    obtain ⟨n, rfl⟩ : ∃ n, fuel = n + 1 := ⟨fuel - 1, by simp at hf; omega⟩
    simp only [nextPath, List.map_cons, List.cons.injEq] at hp hd hc
    have ih := list_sort_fill_ok copy m b rest xr ys p n (acc ++ [y]) hp.2 hd.2 hb hc.2
      (by simpa using hf)
    rw [hp.1]
    simp only [list_sort_fill, hd.1, hc.1]
    simpa using ih

/-- The first loop of `list_sort` when some copy fails. -/
theorem list_sort_fill_fail {α : Type} (copy : α → Option α) (m : Mem α) (b : Nat) :
    ∀ (rest : List Nat) (xr : List α) (a fuel : Nat) (acc : List α),
      nextPath m.next a rest b → rest.map m.data = xr.map some →
      (∃ x ∈ xr, copy x = none) → rest.length < fuel →
      list_sort_fill copy m fuel (m.next a) acc = some none
  | [], xr, a, fuel, acc, _, hd, hc, _ => by
    have hxr : xr = [] := by simpa using hd.symm
    subst hxr
    simp at hc
  | _ :: _, [], _, _, _, _, hd, _, _ => by simp at hd
  | p :: rest, x :: xr, a, fuel, acc, hp, hd, hc, hf => by
    obtain ⟨n, rfl⟩ : ∃ n, fuel = n + 1 := ⟨fuel - 1, by simp at hf; omega⟩
    simp only [nextPath, List.map_cons, List.cons.injEq] at hp hd
    rw [hp.1]
    cases hx : copy x with
    | none => simp [list_sort_fill, hd.1, hx]
    | some c =>
      have hc' : ∃ y ∈ xr, copy y = none := by
        obtain ⟨y, hy, hyn⟩ := hc
        rcases List.mem_cons.1 hy with rfl | hy
        · rw [hx] at hyn; cases hyn
        · exact ⟨y, hy, hyn⟩
      have ih := list_sort_fill_fail copy m b rest xr p n (acc ++ [c]) hp.2 hd.2 hc'
        (by simpa using hf)
      simp only [list_sort_fill, hd.1, hx]
      exact ih

/-- The second loop of `list_sort`: the data of the nodes of the chain become
the array elements from index `i` on, in order; nothing else is written. -/
theorem list_sort_store_chain {α : Type} (arr : List α) (b : Nat) :
    ∀ (rest : List Nat) (i a fuel : Nat) (m : Mem α),
      nextPath m.next a rest b → (∀ p ∈ rest, (m.data p).isSome = true) →
      m.data b = none → (b :: rest).Nodup → rest.length < fuel →
      i + rest.length ≤ arr.length →
      ∃ m', list_sort_store arr fuel m (m.next a) i = some m' ∧
        m'.next = m.next ∧ m'.prev = m.prev ∧ m'.brk = m.brk ∧
        (∀ x, x ∉ rest → m'.data x = m.data x) ∧
        rest.map m'.data = ((arr.drop i).take rest.length).map some
  | [], i, a, fuel, m, hp, _, hb, _, hf, _ => by
    obtain ⟨n, rfl⟩ : ∃ n, fuel = n + 1 := ⟨fuel - 1, by simp at hf; omega⟩
    simp only [nextPath] at hp
    exact ⟨m, by simp [list_sort_store, hp, hb], rfl, rfl, rfl, fun _ _ => rfl, by simp⟩
  | p :: rest, i, a, fuel, m, hp, hd, hb, hnd, hf, hi => by
    obtain ⟨n, rfl⟩ : ∃ n, fuel = n + 1 := ⟨fuel - 1, by simp at hf; omega⟩
    simp only [nextPath] at hp
    simp only [List.length_cons] at hi
    have hnd' := List.nodup_cons.1 hnd
    have hnd'' := List.nodup_cons.1 hnd'.2
    have hbp : b ≠ p := fun e => hnd'.1 (e ▸ List.mem_cons_self _ _)
    have hdp := hd p (List.mem_cons_self _ _)
    have hdp' : (m.data p).isNone = false := by
      cases hx : m.data p <;> simp [hx] at hdp ⊢
    obtain ⟨m', hloop, hn, hpv, hbk, hdo, hdm⟩ :=
      list_sort_store_chain arr b rest (i + 1) p n (m.setData p arr[i]?) hp.2
        (fun q hq => by
          have hqp : q ≠ p := fun e => hnd''.1 (e ▸ hq)
          simpa [Mem.setData, upd_apply, hqp] using hd q (List.mem_cons_of_mem _ hq))
        (by simpa [Mem.setData, upd_apply, hbp] using hb)
        (List.nodup_cons.2 ⟨fun h => hnd'.1 (List.mem_cons_of_mem _ h), hnd''.2⟩)
        (by simpa using hf) (by omega)
    refine ⟨m', ?_, hn, hpv, hbk, fun x hx => ?_, ?_⟩
    · rw [hp.1]
      simp only [list_sort_store, hdp']
      simpa using hloop
    · have hxp : x ≠ p := fun e => hx (e ▸ List.mem_cons_self _ _)
      rw [hdo x (fun h => hx (List.mem_cons_of_mem _ h))]
      simp [Mem.setData, upd_apply, hxp]
    · have hi' : i < arr.length := by omega
      have hsplit : (arr.drop i).take (rest.length + 1)
          = arr[i] :: (arr.drop (i + 1)).take rest.length := by
        rw [List.drop_eq_getElem_cons hi', List.take_succ_cons]
      rw [List.length_cons, hsplit, List.map_cons, List.map_cons, hdm, hdo p hnd''.1]
      simp [Mem.setData, List.getElem?_eq_getElem hi']

/-! ## `list_sort` -/

/-- `list_sort` when both rounds of copies succeed (`cs` the scratch list's
contents, `ys` the array's): `LIST_SUCCESS`, and the list is now the scratch
ring, on fresh cells, holding the merge-sorted array. -/
theorem list_sort_ok {α : Type} (copy : α → Option α) (cmp : α → α → Int) {m : Mem α}
    {l : ListT} {ps : List Nat} {xs : List α} (cs ys : List α) (fuel : Nat)
    (hr : Ring m l.head ps xs) (hc1 : xs.map copy = cs.map some)
    (hc2 : cs.map copy = ys.map some) (hf : xs.length < fuel) :
    ∃ m' qs sorted, list_sort fuel copy cmp m l
        = some (LIST_SUCCESS, m', { l with head := m.brk + 1, iterator := m.brk + 1 }) ∧
      __merge_sort cmp fuel ys = some (0, sorted) ∧ sorted.Perm ys ∧
      Ring m' (m.brk + 1) qs sorted ∧ Frame m m' [l.head] := by
  have hlcs : cs.length = xs.length := by simpa using (congrArg List.length hc1).symm
  have hlys : ys.length = cs.length := by simpa using (congrArg List.length hc2).symm
  obtain ⟨m1, qs, hcopy, hr1, hfr1, hq⟩ := list_copy_ok copy cs fuel hr hc1 hf
  have hlqs : qs.length = cs.length := fwdRing_length_eq hr1.toFwdRing
  have hfill := list_sort_fill_ok copy m1 (m.brk + 1) qs cs ys (m.brk + 1) fuel []
    hr1.next hr1.data hr1.sentinel hc2 (by omega)
  obtain ⟨sorted, hms, hperm⟩ := merge_sort_some cmp fuel ys (by omega)
  have hlso : sorted.length = qs.length := by rw [hperm.length_eq]; omega
  obtain ⟨m2, hstore, hn2, hp2, hb2, hdo2, hdm2⟩ :=
    list_sort_store_chain sorted (m.brk + 1) qs 0 (m.brk + 1) fuel m1 hr1.next
      (fwdRing_data_isSome hr1.toFwdRing) hr1.sentinel hr1.nodup (by omega) (by omega)
  have hr2 : Ring m2 (m.brk + 1) qs sorted := by
    refine ⟨⟨hr1.nodup, fun p hp => by rw [hb2]; exact hr1.alloc p hp, ?_, ?_, ?_⟩, ?_⟩
    · rw [hdo2 _ (List.nodup_cons.1 hr1.nodup).1]; exact hr1.sentinel
    · rw [hdm2, List.drop_zero, ← hlso, List.take_length]
    · rw [hn2]; exact hr1.next
    · rw [hp2]; exact hr1.prev
  have hsrc1 : Ring m1 l.head ps xs := ring_of_frame hr hfr1 (fun _ _ => by simp)
  have hsrcq : ∀ x ∈ l.head :: ps, x ∉ (m.brk + 1) :: qs := by
    intro x hx hm
    have hlt := (hr.alloc x hx).2
    rcases List.mem_cons.1 hm with h | h
    · omega
    · have := hq x h; omega
  have hsrc2 : Ring m2 l.head ps xs := by
    refine ring_frame hsrc1 (le_of_eq hb2.symm) (fun x hx => ⟨?_, by rw [hn2], by rw [hp2]⟩)
    exact hdo2 x (fun h => hsrcq x hx (List.mem_cons_of_mem _ h))
  obtain ⟨hclear, -, hfr3⟩ := list_clear_ring
    (l := { id := m.brk, size := xs.length, iterator := m.brk + 1, head := l.head })
    fuel hsrc2.toFwdRing hf
  dsimp only at hclear hfr3
  simp only [List.nil_append] at hfill
  refine ⟨_, qs, sorted, ?_, hms, hperm, ring_of_frame hr2 hfr3 ?_, ?_⟩
  · simp only [list_sort, hcopy, __list_get_first, hfill, hms, hstore, list_destroy, hclear]
    simp
  · intro x hx hm
    simp only [List.mem_singleton] at hm
    exact hsrcq l.head (List.mem_cons_self _ _) (hm ▸ hx)
  · refine ⟨by have := hfr1.1; have := hfr3.1; omega, fun x hx hxl => ?_⟩
    have hx1 : x < m1.brk := lt_of_lt_of_le hx hfr1.1
    have hxq : x ∉ qs := fun h => by have := hq x h; omega
    obtain ⟨a1, a2, a3⟩ := hfr1.2 x hx (by simp)
    obtain ⟨c1, c2, c3⟩ := hfr3.2 x (by omega) hxl
    exact ⟨c1.trans ((hdo2 x hxq).trans a1), c2.trans ((congrFun hn2 x).trans a2),
      c3.trans ((congrFun hp2 x).trans a3)⟩

/-- `list_sort` when a copy fails, in the scratch copy or when the array is
filled: `LIST_FAIL`, and no allocated cell is written. -/
theorem list_sort_fail {α : Type} (copy : α → Option α) (cmp : α → α → Int) {m : Mem α}
    {l : ListT} {ps : List Nat} {xs : List α} (fuel : Nat) (hr : Ring m l.head ps xs)
    (hc : (∃ x ∈ xs, copy x = none) ∨
      ∃ cs : List α, xs.map copy = cs.map some ∧ ∃ c ∈ cs, copy c = none)
    (hf : xs.length < fuel) :
    ∃ m', list_sort fuel copy cmp m l = some (LIST_FAIL, m', l) ∧ Frame m m' [] := by
  rcases hc with hc | ⟨cs, hc1, hc2⟩
  · obtain ⟨m1, hcopy, hfr1⟩ := list_copy_fail copy fuel hr hc hf
    exact ⟨m1, by simp [list_sort, hcopy], hfr1⟩
  · have hlcs : cs.length = xs.length := by simpa using (congrArg List.length hc1).symm
    obtain ⟨m1, qs, hcopy, hr1, hfr1, hq⟩ := list_copy_ok copy cs fuel hr hc1 hf
    have hlqs : qs.length = cs.length := fwdRing_length_eq hr1.toFwdRing
    have hfill := list_sort_fill_fail copy m1 (m.brk + 1) qs cs (m.brk + 1) fuel []
      hr1.next hr1.data hc2 (by omega)
    obtain ⟨hclear, -, hfr2⟩ := list_clear_ring
      (l := { id := m.brk, size := xs.length, iterator := m.brk + 1, head := m.brk + 1 })
      fuel hr1.toFwdRing (by omega)
    dsimp only at hclear hfr2
    refine ⟨_, ?_, frame_trans hfr1 hfr2 (fun y hy => Or.inr ?_)⟩
    · simp only [list_sort, hcopy, __list_get_first, hfill, list_destroy, hclear]
      simp
    · simp only [List.mem_singleton] at hy
      omega

/-- The two outcomes of `list_sort` on a well-formed list, for any fuel above
the size: either both rounds of copies succeed, `LIST_SUCCESS` is returned and
the list is well-formed with the merge-sorted copies as contents and the size
it had; or a copy fails, `LIST_FAIL` is returned and the list is as before. -/
theorem list_sort_cases {α : Type} (copy : α → Option α) (cmp : α → α → Int) {m : Mem α}
    {l : ListT} {xs : List α} (fuel : Nat) (hwf : WellFormed m l xs)
    (hf : l.size < fuel) :
    (∃ (cs ys sorted : List α) (m' : Mem α) (l' : ListT),
        xs.map copy = cs.map some ∧ cs.map copy = ys.map some ∧
        list_sort fuel copy cmp m l = some (LIST_SUCCESS, m', l') ∧
        __merge_sort cmp fuel ys = some (0, sorted) ∧ sorted.Perm ys ∧
        WellFormed m' l' sorted ∧ l'.size = l.size) ∨
    (((∃ x ∈ xs, copy x = none) ∨
        ∃ cs : List α, xs.map copy = cs.map some ∧ ∃ c ∈ cs, copy c = none) ∧
      ∃ m', list_sort fuel copy cmp m l = some (LIST_FAIL, m', l) ∧ WellFormed m' l xs) := by
  obtain ⟨hs, ps, hr⟩ := hwf
  have hf' : xs.length < fuel := by omega
  have hfail : ((∃ x ∈ xs, copy x = none) ∨
      ∃ cs : List α, xs.map copy = cs.map some ∧ ∃ c ∈ cs, copy c = none) →
      ∃ m', list_sort fuel copy cmp m l = some (LIST_FAIL, m', l) ∧ WellFormed m' l xs := by
    intro hc
    obtain ⟨m', he, hfr⟩ := list_sort_fail copy cmp fuel hr hc hf'
    exact ⟨m', he, hs, ps, ring_of_frame hr hfr (fun _ _ => by simp)⟩
  rcases copies_succeed_or_fail copy xs with ⟨cs, hc1⟩ | hc1
  · rcases copies_succeed_or_fail copy cs with ⟨ys, hc2⟩ | hc2
    · left
      obtain ⟨m', qs, sorted, he, hms, hperm, hr', -⟩ :=
        list_sort_ok copy cmp cs ys fuel hr hc1 hc2 hf'
      have hlcs : cs.length = xs.length := by simpa using (congrArg List.length hc1).symm
      have hlys : ys.length = cs.length := by simpa using (congrArg List.length hc2).symm
      refine ⟨cs, ys, sorted, m', _, hc1, hc2, he, hms, hperm, ⟨?_, qs, hr'⟩, rfl⟩
      show l.size = sorted.length
      rw [hperm.length_eq]; omega
    · exact Or.inr ⟨Or.inr ⟨cs, hc1, hc2⟩, hfail (Or.inr ⟨cs, hc1, hc2⟩)⟩
  · exact Or.inr ⟨Or.inl hc1, hfail (Or.inl hc1)⟩

/-- When every copy of `xs` succeeds, no element has a failing copy. -/
theorem copies_ok_no_fail {α : Type} {copy : α → Option α} {xs cs : List α}
    (h : xs.map copy = cs.map some) : ¬ ∃ x ∈ xs, copy x = none := by
  rintro ⟨x, hx, hn⟩
  have : copy x ∈ xs.map copy := List.mem_map_of_mem _ hx
  rw [h, hn] at this
  simp at this

/-- The result of `list_sort` on a well-formed list, for any fuel above the
size: it returns; it returns `LIST_SUCCESS` when both rounds of copies succeed;
and when it returns `LIST_SUCCESS` the list is well-formed, of the same size,
and holds the merge-sorted copies `ys` of the copies `cs` of `xs`. -/
theorem list_sort_result {α : Type} (copy : α → Option α) (cmp : α → α → Int) {m : Mem α}
    {l : ListT} {xs : List α} (fuel : Nat) (hwf : WellFormed m l xs)
    (hf : l.size < fuel) :
    ∃ st m' l', list_sort fuel copy cmp m l = some (st, m', l') ∧
      ((∃ cs ys : List α, xs.map copy = cs.map some ∧ cs.map copy = ys.map some) →
        st = LIST_SUCCESS) ∧
      (st = LIST_SUCCESS → ∃ cs ys sorted : List α,
        xs.map copy = cs.map some ∧ cs.map copy = ys.map some ∧
        __merge_sort cmp fuel ys = some (0, sorted) ∧ sorted.Perm ys ∧
        WellFormed m' l' sorted ∧ l'.size = l.size) := by
  rcases list_sort_cases copy cmp fuel hwf hf with
    ⟨cs, ys, sorted, m', l', hc1, hc2, he, hms, hperm, hwf', hsz⟩ | ⟨hc, m', he, -⟩
  · exact ⟨LIST_SUCCESS, m', l', he, fun _ => rfl,
      fun _ => ⟨cs, ys, sorted, hc1, hc2, hms, hperm, hwf', hsz⟩⟩
  · refine ⟨LIST_FAIL, m', l, he, ?_, fun h => by cases h⟩
    rintro ⟨cs, ys, hc1, hc2⟩
    exfalso
    rcases hc with hc | ⟨cs', hc1', hc2'⟩
    · exact copies_ok_no_fail hc1 hc
    · have : cs' = cs :=
        List.map_injective_iff.2 (Option.some_injective _) (hc1'.symm.trans hc1)
      subst this
      exact copies_ok_no_fail hc2 hc2'

theorem int_compare_totalPreorder : TotalPreorder int_compare :=
  ⟨fun a b => by simp only [int_compare]; omega,
   fun a b c => by simp only [int_compare]; omega⟩

theorem unsortedList_wellFormed : WellFormed unsortedMem unsortedList [30, 10, 20] :=
  ⟨rfl, [3, 4, 5], ⟨⟨by decide, by decide, by decide, by decide, by decide⟩, by decide⟩⟩

/-- The sorting scenario of the specification: `push_back` of 5, 3, 8, 1 on a
new list, then `list_sort`, gives the forward traversal `[1, 3, 5, 8]`. -/
theorem list_sort_scenario :
    (list_sort 5 int_copy int_compare (build_list [5, 3, 8, 1]).1
        (build_list [5, 3, 8, 1]).2).map
      (fun r => (r.1, forward 5 r.2.1 r.2.2, list_get_size r.2.2))
      = some (LIST_SUCCESS, some [1, 3, 5, 8], 4) := by
  decide

/-- C8. On a well-formed list, for a compare callback that is a total
preorder, `list_sort` (with fuel above the size) returns; it returns
`LIST_SUCCESS` whenever the copies succeed; and whenever it returns
`LIST_SUCCESS` the forward traversal `out` is non-decreasing:
`cmp x_i x_{i+1} ≤ 0` for every pair of adjacent elements (and indeed for every
pair `i < j`). -/
theorem list_sort_non_decreasing {α : Type} (copy : α → Option α) (cmp : α → α → Int)
    (m : Mem α) (l : ListT) (xs : List α) (fuel : Nat) (hwf : WellFormed m l xs)
    (hT : TotalPreorder cmp) (hf : list_get_size l < fuel) :
    ∃ st m' l', list_sort fuel copy cmp m l = some (st, m', l') ∧
      ((∃ cs ys : List α, xs.map copy = cs.map some ∧ cs.map copy = ys.map some) →
        st = LIST_SUCCESS) ∧
      (st = LIST_SUCCESS → ∃ out : List α,
        (∀ fuel', list_get_size l' < fuel' → forward fuel' m' l' = some out) ∧
        out.Chain' (fun a b => cmp a b ≤ 0) ∧ out.Pairwise (fun a b => cmp a b ≤ 0)) := by
  obtain ⟨st, m', l', he, hok, hsucc⟩ := list_sort_result copy cmp fuel hwf hf
  refine ⟨st, m', l', he, hok, fun hst => ?_⟩
  obtain ⟨cs, ys, sorted, -, -, hms, -, hwf', -⟩ := hsucc hst
  have hp := merge_sort_sorted hT fuel ys sorted 0 hms
  exact ⟨sorted, fun fuel' hf' => forward_of_wellFormed hwf' hf', hp.chain', hp⟩

/-- Instance of C8: sorting the list `[30, 10, 20]`. -/
theorem list_sort_non_decreasing_witness :
    WellFormed unsortedMem unsortedList [30, 10, 20] ∧ TotalPreorder int_compare ∧
    list_get_size unsortedList < 4 ∧
    ∃ st m' l', list_sort 4 int_copy int_compare unsortedMem unsortedList
        = some (st, m', l') ∧
      ((∃ cs ys : List Int, ([30, 10, 20] : List Int).map int_copy = cs.map some ∧
          cs.map int_copy = ys.map some) → st = LIST_SUCCESS) ∧
      (st = LIST_SUCCESS → ∃ out : List Int,
        (∀ fuel', list_get_size l' < fuel' → forward fuel' m' l' = some out) ∧
        out.Chain' (fun a b => int_compare a b ≤ 0) ∧
        out.Pairwise (fun a b => int_compare a b ≤ 0)) :=
  ⟨unsortedList_wellFormed, int_compare_totalPreorder, by decide,
    list_sort_non_decreasing int_copy int_compare unsortedMem unsortedList [30, 10, 20] 4
      unsortedList_wellFormed int_compare_totalPreorder (by decide)⟩

/-- C9. On a well-formed list with forward contents `xs`, `list_sort` (with
fuel above the size) returns, and whenever it returns `LIST_SUCCESS` the forward
contents `out` are a permutation of `ys`, the copies (made for the array) of
the copies `cs` (made for the scratch list) of `xs`, element by element: no
element is lost or duplicated, and `list_get_size` is unchanged. -/
theorem list_sort_permutation {α : Type} (copy : α → Option α) (cmp : α → α → Int)
    (m : Mem α) (l : ListT) (xs : List α) (fuel : Nat) (hwf : WellFormed m l xs)
    (hf : list_get_size l < fuel) :
    ∃ st m' l', list_sort fuel copy cmp m l = some (st, m', l') ∧
      (st = LIST_SUCCESS → ∃ cs ys out : List α,
        xs.map copy = cs.map some ∧ cs.map copy = ys.map some ∧
        (∀ fuel', list_get_size l' < fuel' → forward fuel' m' l' = some out) ∧
        out.Perm ys ∧ out.length = xs.length ∧ WellFormed m' l' out ∧
        list_get_size l' = list_get_size l) := by
  obtain ⟨st, m', l', he, -, hsucc⟩ := list_sort_result copy cmp fuel hwf hf
  refine ⟨st, m', l', he, fun hst => ?_⟩
  obtain ⟨cs, ys, sorted, hc1, hc2, -, hperm, hwf', hsz⟩ := hsucc hst
  refine ⟨cs, ys, sorted, hc1, hc2, fun fuel' hf' => forward_of_wellFormed hwf' hf', hperm,
    ?_, hwf', hsz⟩
  rw [← hwf.1, ← hsz, hwf'.1]

/-- Instance of C9: sorting the list `[30, 10, 20]`. -/
theorem list_sort_permutation_witness :
    WellFormed unsortedMem unsortedList [30, 10, 20] ∧ list_get_size unsortedList < 4 ∧
    ∃ st m' l', list_sort 4 int_copy int_compare unsortedMem unsortedList
        = some (st, m', l') ∧
      (st = LIST_SUCCESS → ∃ cs ys out : List Int,
        ([30, 10, 20] : List Int).map int_copy = cs.map some ∧
        cs.map int_copy = ys.map some ∧
        (∀ fuel', list_get_size l' < fuel' → forward fuel' m' l' = some out) ∧
        out.Perm ys ∧ out.length = ([30, 10, 20] : List Int).length ∧
        WellFormed m' l' out ∧ list_get_size l' = list_get_size unsortedList) :=
  ⟨unsortedList_wellFormed, by decide,
    list_sort_permutation int_copy int_compare unsortedMem unsortedList [30, 10, 20] 4
      unsortedList_wellFormed (by decide)⟩

/-- C10. `list_sort` is stable: on a well-formed list with forward contents
`xs`, for a compare callback that is a total preorder, whenever `list_sort`
(with fuel above the size) returns `LIST_SUCCESS`, any two elements `x`, `y` of
the copied contents `ys` with `cmp x y = 0` and `x` before `y` (the pair is a
sublist of `ys`) still appear with `x` before `y` in the forward traversal
`out` after the sort. -/
theorem list_sort_stable {α : Type} (copy : α → Option α) (cmp : α → α → Int)
    (m : Mem α) (l : ListT) (xs : List α) (fuel : Nat) (hwf : WellFormed m l xs)
    (hT : TotalPreorder cmp) (hf : list_get_size l < fuel) :
    ∃ st m' l', list_sort fuel copy cmp m l = some (st, m', l') ∧
      (st = LIST_SUCCESS → ∃ cs ys out : List α,
        xs.map copy = cs.map some ∧ cs.map copy = ys.map some ∧
        (∀ fuel', list_get_size l' < fuel' → forward fuel' m' l' = some out) ∧
        ∀ x y, cmp x y = 0 → [x, y].Sublist ys → [x, y].Sublist out) := by
  obtain ⟨st, m', l', he, -, hsucc⟩ := list_sort_result copy cmp fuel hwf hf
  refine ⟨st, m', l', he, fun hst => ?_⟩
  obtain ⟨cs, ys, sorted, hc1, hc2, hms, -, hwf', -⟩ := hsucc hst
  refine ⟨cs, ys, sorted, hc1, hc2, fun fuel' hf' => forward_of_wellFormed hwf' hf', ?_⟩
  intro x y hxy hsub
  exact merge_sort_sublist hT fuel ys sorted 0 hms [x, y] hsub
    (List.pairwise_pair.2 (le_of_eq hxy))

theorem pair_compare_totalPreorder : TotalPreorder pair_compare :=
  ⟨fun a b => by simp only [pair_compare]; omega,
   fun a b c => by simp only [pair_compare]; omega⟩

theorem pairList_wellFormed :
    WellFormed pairMem pairList [(2, 0), (1, 0), (2, 1), (1, 1)] :=
  ⟨rfl, [3, 4, 5, 6],
    ⟨⟨by decide, by decide, by decide, by decide, by decide⟩, by decide⟩⟩

/-- Sorting the keyed records `[(2, 0), (1, 0), (2, 1), (1, 1)]` by key keeps
the records of equal key in their order. -/
theorem list_sort_pairs_example :
    (list_sort 5 pair_copy pair_compare pairMem pairList).map
      (fun r => (r.1, forward 5 r.2.1 r.2.2))
      = some (LIST_SUCCESS, some [(1, 0), (1, 1), (2, 0), (2, 1)]) := by
  decide

/-- Instance of C10: sorting the keyed records `[(2, 0), (1, 0), (2, 1), (1, 1)]`
by key. -/
theorem list_sort_stable_witness :
    WellFormed pairMem pairList [(2, 0), (1, 0), (2, 1), (1, 1)] ∧
    TotalPreorder pair_compare ∧ list_get_size pairList < 5 ∧
    ∃ st m' l', list_sort 5 pair_copy pair_compare pairMem pairList = some (st, m', l') ∧
      (st = LIST_SUCCESS → ∃ cs ys out : List (Int × Int),
        ([(2, 0), (1, 0), (2, 1), (1, 1)] : List (Int × Int)).map pair_copy = cs.map some ∧
        cs.map pair_copy = ys.map some ∧
        (∀ fuel', list_get_size l' < fuel' → forward fuel' m' l' = some out) ∧
        ∀ x y, pair_compare x y = 0 → [x, y].Sublist ys → [x, y].Sublist out) :=
  ⟨pairList_wellFormed, pair_compare_totalPreorder, by decide,
    list_sort_stable pair_copy pair_compare pairMem pairList
      [(2, 0), (1, 0), (2, 1), (1, 1)] 5 pairList_wellFormed pair_compare_totalPreorder
      (by decide)⟩

/-! ## Failure atomicity of `list_sort`, and `list_copy` -/

/-- C11. `list_sort` is all-or-nothing: on a well-formed list with forward
contents `xs` (fuel above the size) it returns `LIST_FAIL` whenever a copy
fails, for the scratch list or for the array; and whenever it returns
`LIST_FAIL` the list struct is unchanged (so is its size), every cell that was
allocated before the call has the data and links it had, and the forward and
backward contents are `xs` and its reverse as before. -/
theorem list_sort_all_or_nothing {α : Type} (copy : α → Option α) (cmp : α → α → Int)
    (m : Mem α) (l : ListT) (xs : List α) (fuel : Nat) (hwf : WellFormed m l xs)
    (hf : list_get_size l < fuel) :
    ∃ st m' l', list_sort fuel copy cmp m l = some (st, m', l') ∧
      (((∃ x ∈ xs, copy x = none) ∨
          ∃ cs : List α, xs.map copy = cs.map some ∧ ∃ c ∈ cs, copy c = none) →
        st = LIST_FAIL) ∧
      (st = LIST_FAIL → l' = l ∧ Frame m m' [] ∧ WellFormed m' l' xs ∧
        ∀ fuel', list_get_size l' < fuel' →
          forward fuel' m' l' = some xs ∧ backward fuel' m' l' = some xs.reverse) := by
  obtain ⟨hs, ps, hr⟩ := hwf
  have hf' : xs.length < fuel := by simp only [list_get_size] at hf; omega
  have hfail : ((∃ x ∈ xs, copy x = none) ∨
      ∃ cs : List α, xs.map copy = cs.map some ∧ ∃ c ∈ cs, copy c = none) →
      ∃ st m' l', list_sort fuel copy cmp m l = some (st, m', l') ∧
        (((∃ x ∈ xs, copy x = none) ∨
            ∃ cs : List α, xs.map copy = cs.map some ∧ ∃ c ∈ cs, copy c = none) →
          st = LIST_FAIL) ∧
        (st = LIST_FAIL → l' = l ∧ Frame m m' [] ∧ WellFormed m' l' xs ∧
          ∀ fuel', list_get_size l' < fuel' →
            forward fuel' m' l' = some xs ∧ backward fuel' m' l' = some xs.reverse) := by
    intro hc
    obtain ⟨m', he, hfr⟩ := list_sort_fail copy cmp fuel hr hc hf'
    have hwf' : WellFormed m' l xs := ⟨hs, ps, ring_of_frame hr hfr (fun _ _ => by simp)⟩
    exact ⟨LIST_FAIL, m', l, he, fun _ => rfl, fun _ => ⟨rfl, hfr, hwf', fun fuel' hf'' =>
      ⟨forward_of_wellFormed hwf' hf'', backward_of_wellFormed hwf' hf''⟩⟩⟩
  rcases copies_succeed_or_fail copy xs with ⟨cs, hc1⟩ | hc1
  · rcases copies_succeed_or_fail copy cs with ⟨ys, hc2⟩ | hc2
    · obtain ⟨m', qs, sorted, he, -⟩ := list_sort_ok copy cmp cs ys fuel hr hc1 hc2 hf'
      refine ⟨LIST_SUCCESS, m', _, he, ?_, fun h => by cases h⟩
      rintro (hc | ⟨cs', hc1', hc2'⟩)
      · exact absurd hc (copies_ok_no_fail hc1)
      · have : cs' = cs :=
          List.map_injective_iff.2 (Option.some_injective _) (hc1'.symm.trans hc1)
        subst this
        exact absurd hc2' (copies_ok_no_fail hc2)
    · exact hfail (Or.inr ⟨cs, hc1, hc2⟩)
  · exact hfail (Or.inl hc1)

/-- Instance of C11: sorting `[10, 20]` with a copy callback that fails on `20`. -/
theorem list_sort_all_or_nothing_witness :
    WellFormed exampleMem exampleList [10, 20] ∧ list_get_size exampleList < 3 ∧
    ∃ st m' l', list_sort 3 failing_copy int_compare exampleMem exampleList
        = some (st, m', l') ∧
      (((∃ x ∈ ([10, 20] : List Int), failing_copy x = none) ∨
          ∃ cs : List Int, ([10, 20] : List Int).map failing_copy = cs.map some ∧
            ∃ c ∈ cs, failing_copy c = none) →
        st = LIST_FAIL) ∧
      (st = LIST_FAIL → l' = exampleList ∧ Frame exampleMem m' [] ∧
        WellFormed m' l' [10, 20] ∧
        ∀ fuel', list_get_size l' < fuel' →
          forward fuel' m' l' = some [10, 20] ∧
          backward fuel' m' l' = some ([10, 20] : List Int).reverse) :=
  ⟨exampleList_wellFormed, by decide,
    list_sort_all_or_nothing failing_copy int_compare exampleMem exampleList [10, 20] 3
      exampleList_wellFormed (by decide)⟩

/-- The failing sort of the instance above indeed returns `LIST_FAIL`. -/
theorem list_sort_fail_example :
    (list_sort 3 failing_copy int_compare exampleMem exampleList).map
      (fun r => (r.1, r.2.2, forward 3 r.2.1 r.2.2, backward 3 r.2.1 r.2.2))
      = some (LIST_FAIL, exampleList, some [10, 20], some [20, 10]) := by
  decide

/-- C12. `list_copy` on a well-formed list with forward contents `xs` (fuel
above the size) returns; no cell allocated before the call is written, so the
source keeps its contents and size; when every copy succeeds (with results
`cs`) the result is a new well-formed list whose forward contents are `cs`, in
the same order, and whose size is the source's; when the copy callback fails
on some element the result is NULL. -/
theorem list_copy_contents {α : Type} (copy : α → Option α) (m : Mem α) (l : ListT)
    (xs : List α) (fuel : Nat) (hwf : WellFormed m l xs) (hf : list_get_size l < fuel) :
    ∃ r m', list_copy fuel copy m l = some (r, m') ∧ Frame m m' [] ∧
      WellFormed m' l xs ∧
      (∀ fuel', list_get_size l < fuel' → forward fuel' m' l = some xs) ∧
      (∀ cs : List α, xs.map copy = cs.map some →
        ∃ c, r = some c ∧ WellFormed m' c cs ∧ c.head ≠ l.head ∧
          (∀ fuel', list_get_size c < fuel' → forward fuel' m' c = some cs) ∧
          list_get_size c = list_get_size l) ∧
      ((∃ x ∈ xs, copy x = none) → r = none) := by
  obtain ⟨hs, ps, hr⟩ := hwf
  have hf' : xs.length < fuel := by simp only [list_get_size] at hf; omega
  rcases copies_succeed_or_fail copy xs with ⟨cs, hc⟩ | hc
  · obtain ⟨m', qs, he, hr', hfr, -⟩ := list_copy_ok copy cs fuel hr hc hf'
    have hwf' : WellFormed m' l xs := ⟨hs, ps, ring_of_frame hr hfr (fun _ _ => by simp)⟩
    refine ⟨_, m', he, hfr, hwf', fun fuel' h => forward_of_wellFormed hwf' h, ?_,
      fun h => absurd h (copies_ok_no_fail hc)⟩
    intro cs' hc'
    have : cs' = cs := List.map_injective_iff.2 (Option.some_injective _) (hc'.symm.trans hc)
    subst this
    have hlcs : cs'.length = xs.length := by simpa using (congrArg List.length hc).symm
    have hwc : WellFormed m'
        { id := m.brk, size := xs.length, iterator := m.brk + 1, head := m.brk + 1 } cs' :=
      ⟨hlcs.symm, qs, hr'⟩
    refine ⟨_, rfl, hwc, ?_, fun fuel' h => forward_of_wellFormed hwc h, hs.symm⟩
    have := (hr.alloc l.head (List.mem_cons_self _ _)).2
    show m.brk + 1 ≠ l.head
    omega
  · obtain ⟨m', he, hfr⟩ := list_copy_fail copy fuel hr hc hf'
    have hwf' : WellFormed m' l xs := ⟨hs, ps, ring_of_frame hr hfr (fun _ _ => by simp)⟩
    refine ⟨none, m', he, hfr, hwf', fun fuel' h => forward_of_wellFormed hwf' h, ?_,
      fun _ => rfl⟩
    intro cs hcs
    exact absurd hc (copies_ok_no_fail hcs)

/-- Instance of C12: copying the list `[10, 20]`. -/
theorem list_copy_contents_witness :
    WellFormed exampleMem exampleList [10, 20] ∧ list_get_size exampleList < 3 ∧
    ∃ r m', list_copy 3 int_copy exampleMem exampleList = some (r, m') ∧
      Frame exampleMem m' [] ∧ WellFormed m' exampleList [10, 20] ∧
      (∀ fuel', list_get_size exampleList < fuel' →
        forward fuel' m' exampleList = some [10, 20]) ∧
      (∀ cs : List Int, ([10, 20] : List Int).map int_copy = cs.map some →
        ∃ c, r = some c ∧ WellFormed m' c cs ∧ c.head ≠ exampleList.head ∧
          (∀ fuel', list_get_size c < fuel' → forward fuel' m' c = some cs) ∧
          list_get_size c = list_get_size exampleList) ∧
      ((∃ x ∈ ([10, 20] : List Int), int_copy x = none) → r = none) :=
  ⟨exampleList_wellFormed, by decide,
    list_copy_contents int_copy exampleMem exampleList [10, 20] 3
      exampleList_wellFormed (by decide)⟩

/-! ## Cursors -/

theorem lastD_take_succ : ∀ (ps : List Nat) (i a b : Nat), i < ps.length →
    lastD (ps.take (i + 1)) a = firstD (ps.drop i) b
  | [], _, _, _, h => by simp at h
  | p :: ps, 0, _, _, _ => by simp
  | p :: ps, i + 1, a, b, h => by
    simpa using lastD_take_succ ps i p b (by simpa using h)

/-- In a ring, the node at position `i` is `ps[i]`, and position `size` is the
sentinel. -/
theorem node_at_ring {α : Type} {m : Mem α} {l : ListT} {ps : List Nat} {xs : List α}
    (hr : FwdRing m l.head ps xs) :
    ∀ i, i ≤ ps.length → node_at m l i = firstD (ps.drop i) l.head
  | 0, _ => by simpa [node_at] using nextPath_first hr.next
  | i + 1, hi => by
    have ih := node_at_ring hr i (by omega)
    have hp : nextPath m.next l.head (ps.take (i + 1) ++ ps.drop (i + 1)) l.head := by
      simpa using hr.next
    have := nextPath_mid _ _ hp
    rw [lastD_take_succ ps i l.head l.head (by omega)] at this
    rw [node_at, ih, this]

/-- In a ring split as `pre ++ p :: post`, the node at position `|pre|` is `p`. -/
theorem node_at_split {α : Type} {m : Mem α} {l : ListT} {pre post : List Nat} {p : Nat}
    {xs : List α} (hr : FwdRing m l.head (pre ++ p :: post) xs) :
    node_at m l pre.length = p := by
  rw [node_at_ring hr pre.length (by simp)]
  simp

/-- `list_remove_iterator` with a cursor bound to the list and on the element
node `p`: the node is unlinked and the cursor moves to the following node,
with the end edge set when that is the sentinel. -/
theorem list_remove_iterator_ring {α : Type} {m : Mem α} {l : ListT} {pre post : List Nat}
    {p : Nat} {xs1 xs2 : List α} {x : α} (it : Iter)
    (hr : Ring m l.head (pre ++ p :: post) (xs1 ++ x :: xs2))
    (hlen : pre.length = xs1.length) (hl : it.list = l.id) (hnode : it.node = p) :
    list_remove_iterator m l (some it)
      = (LIST_SUCCESS,
          { m with next := upd m.next (m.prev p) (m.next p)
                   prev := upd m.prev (m.next p) (m.prev p) },
          { l with size := size_dec l.size },
          some { it with node := firstD post l.head
                         end_edge := if firstD post l.head = l.head then true
                           else it.end_edge }) ∧
    Ring { m with next := upd m.next (m.prev p) (m.next p)
                  prev := upd m.prev (m.next p) (m.prev p) }
      l.head (pre ++ post) (xs1 ++ xs2) := by
  obtain ⟨-, -, hnx⟩ := ring_neighbours hr hlen
  refine ⟨?_, ring_unlink hr hlen⟩
  by_cases hh : firstD post l.head = l.head <;>
    simp [list_remove_iterator, hl, hnode, Mem.setNext, Mem.setPrev, hnx, hh]

/-- The data along a ring: the node at position `i` carries `xs[i]`, and the
sentinel (position `size`) carries nothing. -/
theorem data_at_ring {α : Type} {m : Mem α} {h : Nat} {ps : List Nat} {xs : List α}
    (hr : FwdRing m h ps xs) (i : Nat) (hi : i ≤ ps.length) :
    m.data (firstD (ps.drop i) h) = xs[i]? := by
  have hlen := fwdRing_length_eq hr
  rcases Nat.lt_or_ge i ps.length with hlt | hge
  · have h1 : (ps.map m.data)[i]? = (xs.map some)[i]? := by rw [hr.data]
    rw [List.getElem?_map, List.getElem?_map, List.getElem?_eq_getElem hlt,
      List.getElem?_eq_getElem (by omega)] at h1
    rw [List.drop_eq_getElem_cons hlt, firstD_cons, List.getElem?_eq_getElem (by omega)]
    simpa using h1
  · have hi' : i = ps.length := by omega
    subst hi'
    rw [List.drop_length, firstD_nil, hr.sentinel, List.getElem?_eq_none (by omega)]

/-- C14. On a well-formed list with forward contents `xs`, for a cursor bound
to the list that references the element at position `i` (not marked at an
edge), `list_remove_iterator` returns `LIST_SUCCESS`; the list stays
well-formed with forward contents `xs` without the element at position `i` and
size one less; the cursor then references the node formerly at position
`i + 1`, which is now at position `i`, so `list_iterator_get` yields
`xs[i + 1]`; when the removed element was the last, the cursor is on the
sentinel with the after-end flag set and `list_iterator_get` yields NULL. -/
theorem list_remove_iterator_contents {α : Type} (m : Mem α) (l : ListT) (xs : List α)
    (it : Iter) (i : Nat) (hwf : WellFormed m l xs) (hl : it.list = l.id)
    (hi : i < list_get_size l) (hnode : it.node = node_at m l i)
    (he : it.end_edge = false) (hs : it.start_edge = false) :
    ∃ m' l' it', list_remove_iterator m l (some it) = (LIST_SUCCESS, m', l', some it') ∧
      WellFormed m' l' (xs.eraseIdx i) ∧
      (∀ fuel', list_get_size l' < fuel' → forward fuel' m' l' = some (xs.eraseIdx i)) ∧
      list_get_size l' + 1 = list_get_size l ∧
      it'.list = l'.id ∧ it'.start_edge = false ∧
      it'.node = node_at m l (i + 1) ∧ it'.node = node_at m' l' i ∧
      list_iterator_get m' (some it') = xs[i + 1]? ∧
      (i + 1 < xs.length → it'.end_edge = false) ∧
      (i + 1 = xs.length → it'.end_edge = true ∧ it'.node = l'.head ∧
        list_iterator_get m' (some it') = none) := by
  obtain ⟨hsz, ps, hr⟩ := hwf
  simp only [list_get_size] at hi ⊢
  have hxs : xs = xs.take i ++ xs[i] :: xs.drop (i + 1) := by
    have h1 := (List.take_append_drop i xs).symm
    rw [List.drop_eq_getElem_cons (by omega)] at h1
    exact h1
  have hr0 := hr
  rw [hxs] at hr
  obtain ⟨pre, p, post, rfl, hlen⟩ := ring_split hr.toFwdRing
  have hlen' : pre.length = i := by simp at hlen; omega
  have hp : it.node = p := by rw [hnode, ← hlen']; exact node_at_split hr.toFwdRing
  obtain ⟨heq, hr'⟩ := list_remove_iterator_ring it hr hlen hl hp
  rw [← List.eraseIdx_eq_take_drop_succ] at hr'
  have hlenE : (xs.eraseIdx i).length + 1 = l.size := by
    rw [List.length_eraseIdx, if_pos (by omega)]; omega
  have hwf' : WellFormed
      { m with next := upd m.next (m.prev p) (m.next p)
               prev := upd m.prev (m.next p) (m.prev p) }
      { l with size := size_dec l.size } (xs.eraseIdx i) :=
    ⟨by show size_dec l.size = _; rw [← hlenE, size_dec_succ], pre ++ post, hr'⟩
  have hnext : node_at m l (i + 1) = firstD post l.head := by
    rw [node_at_ring hr0.toFwdRing (i + 1) (by simp; omega), ← hlen']
    simp
  have hnew : node_at { m with next := upd m.next (m.prev p) (m.next p)
                               prev := upd m.prev (m.next p) (m.prev p) }
      { l with size := size_dec l.size } i = firstD post l.head := by
    rw [node_at_ring (l := { l with size := size_dec l.size }) hr'.toFwdRing i
      (by simp; omega), ← hlen']
    simp
  have hget : m.data (firstD post l.head) = xs[i + 1]? := by
    have := data_at_ring hr0.toFwdRing (i + 1) (by simp; omega)
    rw [← hlen'] at this ⊢
    simpa using this
  have hpost : post.length + (i + 1) = xs.length := by
    have := fwdRing_length_eq hr0.toFwdRing
    simp at this; omega
  have hhead : firstD post l.head = l.head ↔ post = [] := by
    constructor
    · intro h
      cases post with
      | nil => rfl
      | cons q post' =>
        exfalso
        have hnd := (List.nodup_cons.1 hr0.nodup).1
        simp only [firstD_cons] at h
        exact hnd (by rw [← h]; simp)
    · rintro rfl; rfl
  refine ⟨_, _, _, heq, hwf', fun fuel' hf' => forward_of_wellFormed hwf' hf', ?_, hl, hs,
    hnext.symm, hnew.symm, hget, fun hlt => ?_, fun heq' => ?_⟩
  · show size_dec l.size + 1 = l.size
    rw [← hlenE, size_dec_succ]
  · have hne : post ≠ [] := fun h => by simp [h] at hpost; omega
    show (if firstD post l.head = l.head then true else it.end_edge) = false
    rw [if_neg (fun h => hne (hhead.1 h)), he]
  · have hnil : post = [] := by
      cases post with
      | nil => rfl
      | cons q post' => simp at hpost; omega
    subst hnil
    refine ⟨by simp, rfl, ?_⟩
    show m.data l.head = none
    exact hr0.sentinel

/-- Instance of C14: removing through a cursor on the first element of
`[10, 20]`. -/
theorem list_remove_iterator_contents_witness :
    WellFormed exampleMem exampleList [10, 20] ∧
    ({ list := 1, node := 3, end_edge := false, start_edge := false } : Iter).list
      = exampleList.id ∧
    0 < list_get_size exampleList ∧
    ({ list := 1, node := 3, end_edge := false, start_edge := false } : Iter).node
      = node_at exampleMem exampleList 0 ∧
    ∃ m' l' it', list_remove_iterator exampleMem exampleList
        (some { list := 1, node := 3, end_edge := false, start_edge := false })
        = (LIST_SUCCESS, m', l', some it') ∧
      WellFormed m' l' (([10, 20] : List Int).eraseIdx 0) ∧
      (∀ fuel', list_get_size l' < fuel' →
        forward fuel' m' l' = some (([10, 20] : List Int).eraseIdx 0)) ∧
      list_get_size l' + 1 = list_get_size exampleList ∧
      it'.list = l'.id ∧ it'.start_edge = false ∧
      it'.node = node_at exampleMem exampleList (0 + 1) ∧ it'.node = node_at m' l' 0 ∧
      list_iterator_get m' (some it') = ([10, 20] : List Int)[0 + 1]? ∧
      (0 + 1 < ([10, 20] : List Int).length → it'.end_edge = false) ∧
      (0 + 1 = ([10, 20] : List Int).length → it'.end_edge = true ∧ it'.node = l'.head ∧
        list_iterator_get m' (some it') = none) :=
  ⟨exampleList_wellFormed, rfl, by decide, by decide,
    list_remove_iterator_contents exampleMem exampleList [10, 20]
      { list := 1, node := 3, end_edge := false, start_edge := false } 0
      exampleList_wellFormed rfl (by decide) (by decide) rfl rfl⟩

theorem emptyList_wellFormed : WellFormed emptyMem emptyList [] :=
  ⟨rfl, [], ⟨⟨by decide, by decide, by decide, by decide, by decide⟩, by decide⟩⟩

/-- C15 (failing input). On the list `[10, 20]` (sentinel 2, nodes 3 and 4),
after `list_get_first(list, 0)` the internal scan cursor is on node 3; a cursor
created by `list_iterator_create` is on node 3 as well. `list_remove_iterator`
unlinks node 3 and moves the cursor given to node 4, but never writes
`list->iterator`: the internal scan cursor still references the removed node,
whereas `list_remove_at` on the same state repositions it to node 4. -/
theorem list_remove_iterator_keeps_scan_cursor :
    ∃ l1 m' l' it',
      list_get_first exampleMem exampleList none = (some 10, l1, none) ∧
      l1.iterator = 3 ∧ (list_iterator_create exampleMem l1).node = 3 ∧
      list_remove_iterator exampleMem l1 (some (list_iterator_create exampleMem l1))
        = (LIST_SUCCESS, m', l', some it') ∧
      forward 3 m' l' = some [20] ∧ it'.node = 4 ∧ l'.iterator = 3 ∧
      (list_remove_at 3 exampleMem l1 0).map (fun r => (r.1, r.2.2.iterator))
        = some (LIST_SUCCESS, 4) := by
  refine ⟨_, _, _, _, rfl, ?_, ?_, rfl, ?_, ?_, ?_, ?_⟩ <;> decide

/-- The last node of a non-empty ring is followed by the sentinel, and the
first is preceded by it. -/
theorem ring_ends {α : Type} {m : Mem α} {l : ListT} {ps : List Nat} {xs : List α}
    (hr : Ring m l.head ps xs) (hne : xs ≠ []) :
    m.next (node_at m l (xs.length - 1)) = l.head ∧ m.prev (node_at m l 0) = l.head ∧
    node_at m l (xs.length - 1) ≠ l.head ∧ node_at m l 0 ≠ l.head ∧
    m.data (node_at m l 0) = xs.head? ∧ m.data (node_at m l (xs.length - 1)) = xs.getLast? := by
  have hlen := fwdRing_length_eq hr.toFwdRing
  have hpos : 0 < xs.length := List.length_pos.2 hne
  have hnd := (List.nodup_cons.1 hr.nodup).1
  have h1 : node_at m l (xs.length - 1 + 1) = l.head := by
    rw [node_at_ring hr.toFwdRing _ (by omega)]
    have : xs.length - 1 + 1 = ps.length := by omega
    rw [this, List.drop_length, firstD_nil]
  have h0 := node_at_ring hr.toFwdRing 0 (by omega)
  rw [List.drop_zero] at h0
  have hlast := node_at_ring hr.toFwdRing (xs.length - 1) (by omega)
  have hp := nextPath_last ps.reverse l.head l.head hr.prev
  rw [lastD_reverse] at hp
  have hmem : ∀ k, k < ps.length → firstD (ps.drop k) l.head ≠ l.head := by
    intro k hk e
    rw [List.drop_eq_getElem_cons hk, firstD_cons] at e
    exact hnd (e ▸ List.getElem_mem _)
  refine ⟨h1, by rw [h0]; exact hp, ?_, ?_, ?_, ?_⟩
  · rw [hlast]; exact hmem _ (by omega)
  · rw [h0]; exact hmem 0 (by omega)
  · rw [h0]
    have := data_at_ring hr.toFwdRing 0 (by omega)
    rw [List.drop_zero] at this
    rw [this, List.head?_eq_getElem?]
  · rw [hlast, data_at_ring hr.toFwdRing _ (by omega), List.getLast?_eq_getElem?]

/-- C16. Iterator boundary law. On a non-empty well-formed list, for a cursor
`itL` on the last element, `list_iterator_next` returns `LIST_ITERATOR_END` and
leaves the cursor on the sentinel with the after-end flag set and the
before-start flag clear, `list_iterator_get` then returns NULL, and a further
`list_iterator_next` returns `LIST_ITERATOR_EINVAL` and leaves the cursor as it
is; symmetrically, for a cursor `itF` on the first element,
`list_iterator_prev` reaches the before-start state and a further
`list_iterator_prev` is rejected with `LIST_ITERATOR_EINVAL`. -/
theorem list_iterator_boundary_law {α : Type} (m : Mem α) (l : ListT) (xs : List α)
    (itL itF : Iter) (hwf : WellFormed m l xs) (hne : xs ≠ [])
    (hL : itL.node = node_at m l (list_get_size l - 1)) (hLe : itL.end_edge = false)
    (hF : itF.node = node_at m l 0) (hFs : itF.start_edge = false) :
    (∃ it', list_iterator_next m l (some itL) = (LIST_ITERATOR_END, some it') ∧
      it'.node = l.head ∧ it'.end_edge = true ∧ it'.start_edge = false ∧
      list_iterator_get m (some it') = none ∧
      list_iterator_next m l (some it') = (LIST_ITERATOR_EINVAL, some it')) ∧
    (∃ it', list_iterator_prev m l (some itF) = (LIST_ITERATOR_END, some it') ∧
      it'.node = l.head ∧ it'.start_edge = true ∧ it'.end_edge = false ∧
      list_iterator_get m (some it') = none ∧
      list_iterator_prev m l (some it') = (LIST_ITERATOR_EINVAL, some it')) := by
  obtain ⟨hs, ps, hr⟩ := hwf
  obtain ⟨h1, h2, -⟩ := ring_ends hr hne
  simp only [list_get_size, hs] at hL
  constructor
  · refine ⟨{ itL with start_edge := false, node := l.head, end_edge := true }, ?_, rfl, rfl,
      rfl, hr.sentinel, ?_⟩
    · simp [list_iterator_next, hLe, hL, h1]
    · simp [list_iterator_next]
  · refine ⟨{ itF with end_edge := false, node := l.head, start_edge := true }, ?_, rfl, rfl,
      rfl, hr.sentinel, ?_⟩
    · simp [list_iterator_prev, hFs, hF, h2]
    · simp [list_iterator_prev]

/-- Instance of C16 on the list `[10, 20]`: a cursor on node 4 (last) and a
cursor on node 3 (first). -/
theorem list_iterator_boundary_law_witness :
    WellFormed exampleMem exampleList [10, 20] ∧ ([10, 20] : List Int) ≠ [] ∧
    (cursorOn 4).node = node_at exampleMem exampleList (list_get_size exampleList - 1) ∧
    (cursorOn 4).end_edge = false ∧
    (cursorOn 3).node = node_at exampleMem exampleList 0 ∧
    (cursorOn 3).start_edge = false ∧
    (∃ it', list_iterator_next exampleMem exampleList (some (cursorOn 4))
          = (LIST_ITERATOR_END, some it') ∧
      it'.node = exampleList.head ∧ it'.end_edge = true ∧ it'.start_edge = false ∧
      list_iterator_get exampleMem (some it') = none ∧
      list_iterator_next exampleMem exampleList (some it')
        = (LIST_ITERATOR_EINVAL, some it')) ∧
    (∃ it', list_iterator_prev exampleMem exampleList (some (cursorOn 3))
          = (LIST_ITERATOR_END, some it') ∧
      it'.node = exampleList.head ∧ it'.start_edge = true ∧ it'.end_edge = false ∧
      list_iterator_get exampleMem (some it') = none ∧
      list_iterator_prev exampleMem exampleList (some it')
        = (LIST_ITERATOR_EINVAL, some it')) :=
  ⟨exampleList_wellFormed, by decide, by decide, rfl, by decide, rfl,
    list_iterator_boundary_law exampleMem exampleList [10, 20] (cursorOn 4) (cursorOn 3)
      exampleList_wellFormed (by decide) (by decide) rfl (by decide) rfl⟩

/-- C17 (counterexample). On the empty list, `list_iterator_first` does signal
`LIST_ITERATOR_END`, but it leaves the before-start flag set and the after-end
flag clear, and `list_iterator_last` leaves the after-end flag set and the
before-start flag clear: the claimed states (after-end for `first`,
before-start for `last`) are not the ones reached. -/
theorem list_iterator_first_last_empty_counterexample :
    (¬ ∃ it', list_iterator_first emptyMem emptyList (some (cursorOn 2))
          = (LIST_ITERATOR_END, some it') ∧ it'.end_edge = true ∧ it'.start_edge = false) ∧
    (¬ ∃ it', list_iterator_last emptyMem emptyList (some (cursorOn 2))
          = (LIST_ITERATOR_END, some it') ∧ it'.start_edge = true ∧ it'.end_edge = false) := by
  have hf : list_iterator_first emptyMem emptyList (some (cursorOn 2))
      = (LIST_ITERATOR_END,
          some { list := 1, node := 2, end_edge := false, start_edge := true }) := by
    decide
  have hl : list_iterator_last emptyMem emptyList (some (cursorOn 2))
      = (LIST_ITERATOR_END,
          some { list := 1, node := 2, end_edge := true, start_edge := false }) := by
    decide
  constructor
  · rintro ⟨it', h, h1, -⟩
    rw [hf] at h
    simp only [Prod.mk.injEq, Option.some.injEq, true_and] at h
    rw [← h] at h1
    exact absurd h1 (by decide)
  · rintro ⟨it', h, h1, -⟩
    rw [hl] at h
    simp only [Prod.mk.injEq, Option.some.injEq, true_and] at h
    rw [← h] at h1
    exact absurd h1 (by decide)

/-- C17 (amended). On an empty well-formed list, `list_iterator_first` signals
`LIST_ITERATOR_END` and leaves the cursor on the sentinel with the before-start
flag set and the after-end flag clear, and `list_iterator_last` signals
`LIST_ITERATOR_END` and leaves the cursor on the sentinel with the after-end
flag set and the before-start flag clear; on a non-empty well-formed list they
return `LIST_ITERATOR_SUCCESS` with the cursor on the head element resp. the
tail element and both flags clear. -/
theorem list_iterator_first_last_states {α : Type} (m : Mem α) (l : ListT) (xs : List α)
    (it : Iter) (hwf : WellFormed m l xs) :
    (xs = [] →
      list_iterator_first m l (some it)
        = (LIST_ITERATOR_END,
            some { it with node := l.head, start_edge := true, end_edge := false }) ∧
      list_iterator_last m l (some it)
        = (LIST_ITERATOR_END,
            some { it with node := l.head, start_edge := false, end_edge := true })) ∧
    (xs ≠ [] →
      list_iterator_first m l (some it)
        = (LIST_ITERATOR_SUCCESS,
            some { it with node := node_at m l 0, start_edge := false, end_edge := false }) ∧
      m.data (node_at m l 0) = xs.head? ∧
      list_iterator_last m l (some it)
        = (LIST_ITERATOR_SUCCESS,
            some { it with node := node_at m l (list_get_size l - 1), start_edge := false,
                           end_edge := false }) ∧
      m.data (node_at m l (list_get_size l - 1)) = xs.getLast?) := by
  obtain ⟨hs, ps, hr⟩ := hwf
  constructor
  · rintro rfl
    have hps : ps = [] := by simpa using fwdRing_length_eq hr.toFwdRing
    subst hps
    have h1 : m.next l.head = l.head := by simpa [nextPath] using hr.next
    have h2 : m.prev l.head = l.head := by simpa [nextPath] using hr.prev
    simp [list_iterator_first, list_iterator_last, __list_get_first, __list_get_last, h1, h2]
  · intro hne
    obtain ⟨-, -, h3, h4, h5, h6⟩ := ring_ends hr hne
    simp only [list_get_size, hs]
    have hlast : m.prev l.head = node_at m l (xs.length - 1) := by
      have hp := nextPath_first hr.prev
      rw [firstD_reverse] at hp
      rw [hp, node_at_ring hr.toFwdRing _ (by
        have := fwdRing_length_eq hr.toFwdRing; omega)]
      have hlen := fwdRing_length_eq hr.toFwdRing
      have hpos : 0 < xs.length := List.length_pos.2 hne
      have hk : xs.length - 1 < ps.length := by omega
      rw [← lastD_take_succ ps (xs.length - 1) l.head l.head hk]
      have : xs.length - 1 + 1 = ps.length := by omega
      rw [this, List.take_length]
    refine ⟨?_, h5, ?_, h6⟩
    · have : m.next l.head = node_at m l 0 := rfl
      simp [list_iterator_first, __list_get_first, this, h4]
    · simp [list_iterator_last, __list_get_last, hlast, h3]

/-- Instance of C17 (amended) on the empty list. -/
theorem list_iterator_first_last_states_witness :
    WellFormed emptyMem emptyList ([] : List Int) ∧
    ((([] : List Int) = [] →
      list_iterator_first emptyMem emptyList (some (cursorOn 2))
        = (LIST_ITERATOR_END,
            some { cursorOn 2 with node := emptyList.head, start_edge := true,
                                   end_edge := false }) ∧
      list_iterator_last emptyMem emptyList (some (cursorOn 2))
        = (LIST_ITERATOR_END,
            some { cursorOn 2 with node := emptyList.head, start_edge := false,
                                   end_edge := true })) ∧
    (([] : List Int) ≠ [] →
      list_iterator_first emptyMem emptyList (some (cursorOn 2))
        = (LIST_ITERATOR_SUCCESS,
            some { cursorOn 2 with node := node_at emptyMem emptyList 0, start_edge := false,
                                   end_edge := false }) ∧
      emptyMem.data (node_at emptyMem emptyList 0) = ([] : List Int).head? ∧
      list_iterator_last emptyMem emptyList (some (cursorOn 2))
        = (LIST_ITERATOR_SUCCESS,
            some { cursorOn 2 with
                     node := node_at emptyMem emptyList (list_get_size emptyList - 1),
                     start_edge := false, end_edge := false }) ∧
      emptyMem.data (node_at emptyMem emptyList (list_get_size emptyList - 1))
        = ([] : List Int).getLast?)) :=
  ⟨emptyList_wellFormed,
    list_iterator_first_last_states emptyMem emptyList [] (cursorOn 2) emptyList_wellFormed⟩

/-- C18. For every list, every cursor and every data pointer: `list_push_after`
on a cursor whose after-end flag is set, and `list_push_before` on a cursor
whose before-start flag is set, return `LIST_EINVAL` and leave the heap and the
list struct exactly as they were. -/
theorem list_push_on_edge_rejected {α : Type} (copy : α → Option α) (m : Mem α)
    (l : ListT) (itA itB : Iter) (data : Option α) (hA : itA.end_edge = true)
    (hB : itB.start_edge = true) :
    list_push_after copy m l (some itA) data = (LIST_EINVAL, m, l) ∧
    list_push_before copy m l (some itB) data = (LIST_EINVAL, m, l) := by
  cases data <;> simp [list_push_after, list_push_before, hA, hB]

/-- Instance of C18 on the list `[10, 20]`: a cursor at the after-end edge and
a cursor at the before-start edge. -/
theorem list_push_on_edge_rejected_witness :
    ({ list := 1, node := 2, end_edge := true, start_edge := false } : Iter).end_edge = true ∧
    ({ list := 1, node := 2, end_edge := false, start_edge := true } : Iter).start_edge
      = true ∧
    list_push_after int_copy exampleMem exampleList
      (some { list := 1, node := 2, end_edge := true, start_edge := false }) (some 5)
      = (LIST_EINVAL, exampleMem, exampleList) ∧
    list_push_before int_copy exampleMem exampleList
      (some { list := 1, node := 2, end_edge := false, start_edge := true }) (some 5)
      = (LIST_EINVAL, exampleMem, exampleList) :=
  ⟨rfl, rfl,
    list_push_on_edge_rejected int_copy exampleMem exampleList
      { list := 1, node := 2, end_edge := true, start_edge := false }
      { list := 1, node := 2, end_edge := false, start_edge := true } (some 5) rfl rfl⟩

/-- Splitting the contents and nodes of a ring at position `i`. -/
theorem ring_take_drop {α : Type} {m : Mem α} {h : Nat} {ps : List Nat} {xs : List α}
    (hr : Ring m h ps xs) (i : Nat) :
    Ring m h (ps.take i ++ ps.drop i) (xs.take i ++ xs.drop i) ∧
    (ps.take i).length = (xs.take i).length := by
  refine ⟨by simpa using hr, ?_⟩
  simp [fwdRing_length_eq hr.toFwdRing]

theorem firstD_drop (ps : List Nat) (k h : Nat) : firstD (ps.drop k) h = ps[k]?.getD h := by
  rcases Nat.lt_or_ge k ps.length with hlt | hge
  · rw [List.drop_eq_getElem_cons hlt, firstD_cons, List.getElem?_eq_getElem hlt]
    rfl
  · rw [List.drop_eq_nil_of_le hge, List.getElem?_eq_none hge]
    rfl

/-- In a ring, the node at position `k` and its data, by index. -/
theorem node_data_at {α : Type} {m : Mem α} {l : ListT} {ps : List Nat} {xs : List α}
    (hr : FwdRing m l.head ps xs) (k : Nat) (hk : k ≤ ps.length) :
    node_at m l k = ps[k]?.getD l.head ∧ m.data (ps[k]?.getD l.head) = xs[k]? := by
  have h1 := node_at_ring hr k hk
  have h2 := data_at_ring hr k hk
  rw [firstD_drop] at h1 h2
  exact ⟨h1, h2⟩

/-- C19. On a well-formed list with forward contents `xs`, for a value `v`
whose copy succeeds with `v'`:
* with a cursor `itE` bound to the list on the element at position `i`,
  `list_push_after` succeeds and inserts `v'` at position `i + 1`, and
  `list_push_before` succeeds and inserts `v'` at position `i`; the other
  elements keep their order, the size grows by one, and the cursor's node still
  carries the element `xs[i]` it referenced;
* with a cursor `itS` at the before-start state, `list_push_after` prepends;
* with a cursor `itA` at the after-end state, `list_push_before` appends. -/
theorem list_push_after_before_contents {α : Type} (copy : α → Option α) (m : Mem α)
    (l : ListT) (xs : List α) (itE itS itA : Iter) (i : Nat) (v v' : α)
    (hwf : WellFormed m l xs) (hc : copy v = some v')
    (hEl : itE.list = l.id) (hi : i < list_get_size l) (hEn : itE.node = node_at m l i)
    (hEe : itE.end_edge = false) (hEs : itE.start_edge = false)
    (hSl : itS.list = l.id) (hSn : itS.node = l.head) (_hSs : itS.start_edge = true)
    (hSe : itS.end_edge = false)
    (hAl : itA.list = l.id) (hAn : itA.node = l.head) (_hAe : itA.end_edge = true)
    (hAs : itA.start_edge = false) :
    (∃ m' l', list_push_after copy m l (some itE) (some v) = (LIST_SUCCESS, m', l') ∧
      WellFormed m' l' (xs.take (i + 1) ++ v' :: xs.drop (i + 1)) ∧
      (∀ fuel, list_get_size l' < fuel →
        forward fuel m' l' = some (xs.take (i + 1) ++ v' :: xs.drop (i + 1))) ∧
      list_get_size l' = list_get_size l + 1 ∧
      itE.node = node_at m' l' i ∧ list_iterator_get m' (some itE) = xs[i]?) ∧
    (∃ m' l', list_push_before copy m l (some itE) (some v) = (LIST_SUCCESS, m', l') ∧
      WellFormed m' l' (xs.take i ++ v' :: xs.drop i) ∧
      (∀ fuel, list_get_size l' < fuel →
        forward fuel m' l' = some (xs.take i ++ v' :: xs.drop i)) ∧
      list_get_size l' = list_get_size l + 1 ∧
      itE.node = node_at m' l' (i + 1) ∧ list_iterator_get m' (some itE) = xs[i]?) ∧
    (∃ m' l', list_push_after copy m l (some itS) (some v) = (LIST_SUCCESS, m', l') ∧
      WellFormed m' l' (v' :: xs) ∧
      (∀ fuel, list_get_size l' < fuel → forward fuel m' l' = some (v' :: xs)) ∧
      list_get_size l' = list_get_size l + 1) ∧
    (∃ m' l', list_push_before copy m l (some itA) (some v) = (LIST_SUCCESS, m', l') ∧
      WellFormed m' l' (xs ++ [v']) ∧
      (∀ fuel, list_get_size l' < fuel → forward fuel m' l' = some (xs ++ [v'])) ∧
      list_get_size l' = list_get_size l + 1) := by
  obtain ⟨hs, ps, hr⟩ := hwf
  simp only [list_get_size] at hi ⊢
  have hlen := fwdRing_length_eq hr.toFwdRing
  have hnodeE : itE.node = ps[i]?.getD l.head := by
    rw [hEn]; exact (node_data_at hr.toFwdRing i (by omega)).1
  have hfd : firstD (ps.drop i) l.head = ps[i]?.getD l.head := firstD_drop ps i l.head
  refine ⟨?_, ?_, ?_, ?_⟩
  · obtain ⟨hsplit, hl'⟩ := ring_take_drop hr (i + 1)
    have hn : itE.node = lastD (ps.take (i + 1)) l.head := by
      rw [hnodeE, lastD_take_succ ps i l.head l.head (by omega), hfd]
    obtain ⟨m', he, hr', -, -⟩ :=
      list_push_after_ring copy _ _ _ _ itE v v' hsplit hl' hEl hEe hn hc
    have hwf' : WellFormed m' { l with size := l.size + 1 }
        (xs.take (i + 1) ++ v' :: xs.drop (i + 1)) := ⟨by simp [hs]; omega, _, hr'⟩
    obtain ⟨h1, h2⟩ := node_data_at (l := { l with size := l.size + 1 }) hr'.toFwdRing i
      (by simp; omega)
    have e1 : (ps.take (i + 1) ++ m.brk :: ps.drop (i + 1))[i]? = ps[i]? := by
      rw [List.getElem?_append_left (by simp; omega), List.getElem?_take_of_lt (by omega)]
    have e2 : (xs.take (i + 1) ++ v' :: xs.drop (i + 1))[i]? = xs[i]? := by
      rw [List.getElem?_append_left (by simp; omega), List.getElem?_take_of_lt (by omega)]
    rw [e1] at h1 h2
    rw [e2] at h2
    refine ⟨m', _, he, hwf', fun fuel hf => forward_of_wellFormed hwf' hf, rfl, ?_, ?_⟩
    · rw [h1, hnodeE]
    · show m'.data itE.node = xs[i]?
      rw [hnodeE]; exact h2
  · obtain ⟨hsplit, hl'⟩ := ring_take_drop hr i
    have hn : itE.node = firstD (ps.drop i) l.head := by rw [hnodeE, hfd]
    obtain ⟨m', he, hr', -, -⟩ :=
      list_push_before_ring copy _ _ _ _ itE v v' hsplit hl' hEl hEs hn hc
    have hwf' : WellFormed m' { l with size := l.size + 1 }
        (xs.take i ++ v' :: xs.drop i) := ⟨by simp [hs]; omega, _, hr'⟩
    obtain ⟨h1, h2⟩ := node_data_at (l := { l with size := l.size + 1 }) hr'.toFwdRing
      (i + 1) (by simp; omega)
    have e1 : (ps.take i ++ m.brk :: ps.drop i)[i + 1]? = ps[i]? := by
      rw [List.getElem?_append_right (by simp)]
      simp [Nat.min_eq_left (by omega : i ≤ ps.length)]
    have e2 : (xs.take i ++ v' :: xs.drop i)[i + 1]? = xs[i]? := by
      rw [List.getElem?_append_right (by simp)]
      simp [Nat.min_eq_left (by omega : i ≤ xs.length)]
    rw [e1] at h1 h2
    rw [e2] at h2
    refine ⟨m', _, he, hwf', fun fuel hf => forward_of_wellFormed hwf' hf, rfl, ?_, ?_⟩
    · rw [h1, hnodeE]
    · show m'.data itE.node = xs[i]?
      rw [hnodeE]; exact h2
  · have hr0 : Ring m l.head ([] ++ ps) ([] ++ xs) := by simpa using hr
    obtain ⟨m', he, hr', -, -⟩ :=
      list_push_after_ring copy [] ps [] xs itS v v' hr0 rfl hSl hSe hSn hc
    have hwf' : WellFormed m' { l with size := l.size + 1 } (v' :: xs) :=
      ⟨by simp [hs], _, hr'⟩
    exact ⟨m', _, he, hwf', fun fuel hf => forward_of_wellFormed hwf' hf, rfl⟩
  · have hr0 : Ring m l.head (ps ++ []) (xs ++ []) := by simpa using hr
    obtain ⟨m', he, hr', -, -⟩ :=
      list_push_before_ring copy ps [] xs [] itA v v' hr0 hlen hAl hAs hAn hc
    have hwf' : WellFormed m' { l with size := l.size + 1 } (xs ++ [v']) :=
      ⟨by simp [hs], _, hr'⟩
    exact ⟨m', _, he, hwf', fun fuel hf => forward_of_wellFormed hwf' hf, rfl⟩

/-- Instance of C19 on the list `[10, 20]`: a cursor on the first element, a
cursor before the start and a cursor after the end. -/
theorem list_push_after_before_contents_witness :
    WellFormed exampleMem exampleList [10, 20] ∧ int_copy 5 = some 5 ∧
    (cursorOn 3).list = exampleList.id ∧ 0 < list_get_size exampleList ∧
    (cursorOn 3).node = node_at exampleMem exampleList 0 ∧
    (cursorOn 3).end_edge = false ∧ (cursorOn 3).start_edge = false ∧
    cursorBeforeStart.list = exampleList.id ∧ cursorBeforeStart.node = exampleList.head ∧
    cursorBeforeStart.start_edge = true ∧ cursorBeforeStart.end_edge = false ∧
    cursorAfterEnd.list = exampleList.id ∧ cursorAfterEnd.node = exampleList.head ∧
    cursorAfterEnd.end_edge = true ∧ cursorAfterEnd.start_edge = false ∧
    ((∃ m' l', list_push_after int_copy exampleMem exampleList (some (cursorOn 3)) (some 5)
          = (LIST_SUCCESS, m', l') ∧
      WellFormed m' l' (([10, 20] : List Int).take (0 + 1) ++ 5 :: [10, 20].drop (0 + 1)) ∧
      (∀ fuel, list_get_size l' < fuel → forward fuel m' l'
        = some (([10, 20] : List Int).take (0 + 1) ++ 5 :: [10, 20].drop (0 + 1))) ∧
      list_get_size l' = list_get_size exampleList + 1 ∧
      (cursorOn 3).node = node_at m' l' 0 ∧
      list_iterator_get m' (some (cursorOn 3)) = ([10, 20] : List Int)[0]?) ∧
    (∃ m' l', list_push_before int_copy exampleMem exampleList (some (cursorOn 3)) (some 5)
          = (LIST_SUCCESS, m', l') ∧
      WellFormed m' l' (([10, 20] : List Int).take 0 ++ 5 :: [10, 20].drop 0) ∧
      (∀ fuel, list_get_size l' < fuel → forward fuel m' l'
        = some (([10, 20] : List Int).take 0 ++ 5 :: [10, 20].drop 0)) ∧
      list_get_size l' = list_get_size exampleList + 1 ∧
      (cursorOn 3).node = node_at m' l' (0 + 1) ∧
      list_iterator_get m' (some (cursorOn 3)) = ([10, 20] : List Int)[0]?) ∧
    (∃ m' l', list_push_after int_copy exampleMem exampleList (some cursorBeforeStart)
          (some 5) = (LIST_SUCCESS, m', l') ∧
      WellFormed m' l' (5 :: [10, 20]) ∧
      (∀ fuel, list_get_size l' < fuel → forward fuel m' l' = some (5 :: [10, 20])) ∧
      list_get_size l' = list_get_size exampleList + 1) ∧
    (∃ m' l', list_push_before int_copy exampleMem exampleList (some cursorAfterEnd)
          (some 5) = (LIST_SUCCESS, m', l') ∧
      WellFormed m' l' ([10, 20] ++ [5]) ∧
      (∀ fuel, list_get_size l' < fuel → forward fuel m' l' = some ([10, 20] ++ [5])) ∧
      list_get_size l' = list_get_size exampleList + 1)) :=
  ⟨exampleList_wellFormed, rfl, rfl, by decide, by decide, rfl, rfl, rfl, rfl, rfl, rfl,
    rfl, rfl, rfl, rfl,
    list_push_after_before_contents int_copy exampleMem exampleList [10, 20] (cursorOn 3)
      cursorBeforeStart cursorAfterEnd 0 5 5 exampleList_wellFormed rfl rfl (by decide)
      (by decide) rfl rfl rfl rfl rfl rfl rfl rfl rfl rfl⟩

/-- C20 (failing input). On the non-empty list `[10, 20]`, `list_push_at(list,
2, 5)` (`n == size`) returns `LIST_SUCCESS` and the new element ends the
forward traversal, but it is not the list's last element for `list_get_last`
nor for a cursor after `list_iterator_last`: both follow `head->prev`, which
still is the old tail, and yield `20`. -/
theorem list_push_at_size_not_last :
    WellFormed exampleMem exampleList [10, 20] ∧
    ∃ m' l', list_push_at 3 int_copy exampleMem exampleList (list_get_size exampleList)
        (some 5) = some (LIST_SUCCESS, m', l') ∧
      forward 4 m' l' = some [10, 20, 5] ∧
      (list_get_last m' l' none).1 = some 20 ∧
      list_iterator_last m' l' (some (cursorOn 3))
        = (LIST_ITERATOR_SUCCESS, some (cursorOn 4)) ∧
      list_iterator_get m' (some (cursorOn 4)) = some 20 := by
  refine ⟨exampleList_wellFormed, _, _, rfl, ?_, ?_, ?_, ?_⟩ <;> decide

/-! ## Footprints of the mutating operations -/

/-- The neighbours of a ring node are ring nodes. -/
theorem ring_link_mem {α : Type} {m : Mem α} {h : Nat} {ps : List Nat} {xs : List α}
    (hr : Ring m h ps xs) {s : Nat} (hs : s ∈ h :: ps) :
    m.next s ∈ h :: ps ∧ m.prev s ∈ h :: ps := by
  have hc := ring_closed hr s hs
  have hfirst : ∀ (post : List Nat), (∀ x ∈ post, x ∈ ps) → firstD post h ∈ h :: ps := by
    intro post hsub
    cases post with
    | nil => exact List.mem_cons_self _ _
    | cons q t => exact List.mem_cons_of_mem _ (hsub q (List.mem_cons_self _ _))
  have hlast : ∀ (pre : List Nat), (∀ x ∈ pre, x ∈ ps) → lastD pre h ∈ h :: ps := by
    intro pre hsub
    rcases List.mem_cons.1 (lastD_mem pre h) with e | e
    · rw [e]; exact List.mem_cons_self _ _
    · exact List.mem_cons_of_mem _ (hsub _ e)
  rcases List.mem_cons.1 hs with rfl | hsp
  · constructor
    · rw [nextPath_first hr.next]
      exact hfirst ps (fun _ hx => hx)
    · rw [nextPath_first hr.prev, firstD_reverse]
      exact hlast ps (fun _ hx => hx)
  · obtain ⟨pre, post, rfl⟩ := List.append_of_mem hsp
    have h1 : nextPath m.next h ((pre ++ [s]) ++ post) h := by simpa using hr.next
    have h2 : nextPath m.prev h ((post.reverse ++ [s]) ++ pre.reverse) h := by
      simpa using hr.prev
    have e1 := nextPath_mid (pre ++ [s]) post h1
    have e2 := nextPath_mid (post.reverse ++ [s]) pre.reverse h2
    rw [lastD_append_singleton] at e1 e2
    rw [firstD_reverse] at e2
    constructor
    · rw [e1]
      exact hfirst post (fun x hx => List.mem_append_right _ (List.mem_cons_of_mem _ hx))
    · rw [e2]
      exact hlast pre (fun x hx => List.mem_append_left _ hx)

/-- The footprint of unlinking a ring node `s` (sentinel included) is the ring. -/
theorem frame_unlink {α : Type} {m : Mem α} {h : Nat} {ps : List Nat} {xs : List α}
    (hr : Ring m h ps xs) {s : Nat} (hs : s ∈ h :: ps) :
    Frame m { m with next := upd m.next (m.prev s) (m.next s)
                     prev := upd m.prev (m.next s) (m.prev s) } (h :: ps) := by
  obtain ⟨h1, h2⟩ := ring_link_mem hr hs
  refine ⟨le_refl _, fun x _ hx => ⟨rfl, ?_, ?_⟩⟩
  · have : x ≠ m.prev s := fun e => hx (e ▸ h2)
    simp [upd_apply, this]
  · have : x ≠ m.next s := fun e => hx (e ▸ h1)
    simp [upd_apply, this]

/-- The node at a position up to the size is a ring node. -/
theorem node_at_mem {α : Type} {m : Mem α} {l : ListT} {ps : List Nat} {xs : List α}
    (hr : FwdRing m l.head ps xs) (i : Nat) (hi : i ≤ ps.length) :
    node_at m l i ∈ l.head :: ps := by
  rw [node_at_ring hr i hi]
  rcases List.mem_append.1 (firstD_mem (ps.drop i) l.head) with h | h
  · exact List.mem_cons_of_mem _ (List.mem_of_mem_drop h)
  · rw [List.mem_singleton.1 h]; exact List.mem_cons_self _ _

/-- The footprint of `list_push_after`, for every cursor and data argument:
when the cursor is bound to the list and on a ring node, only ring nodes and
fresh cells are written. -/
theorem list_push_after_frame {α : Type} (copy : α → Option α) {m : Mem α} {l : ListT}
    {ps : List Nat} {xs : List α} (iterator : Option Iter) (data : Option α)
    (hr : Ring m l.head ps xs)
    (hit : ∀ it, iterator = some it → it.list = l.id → it.node ∈ l.head :: ps) :
    Frame m (list_push_after copy m l iterator data).2.1 (l.head :: ps) := by
  have hb0 : m.brk ≠ 0 := by
    have := hr.alloc l.head (List.mem_cons_self _ _); omega
  cases iterator with
  | none => simpa [list_push_after] using frame_refl m _
  | some it =>
    cases data with
    | none => simpa [list_push_after] using frame_refl m _
    | some v =>
      by_cases hg : l.id ≠ it.list ∨ it.end_edge = true
      · simpa [list_push_after, hg] using frame_refl m _
      · have hl : it.list = l.id := by
          by_contra h; exact hg (Or.inl (fun e => h e.symm))
        have he : it.end_edge = false := by
          cases h : it.end_edge
          · rfl
          · exact absurd (Or.inr h) hg
        have hmem := hit it rfl hl
        have hnx := (ring_link_mem hr hmem).1
        have hne : it.node ≠ m.brk := fun e => by
          have := (hr.alloc _ hmem).2; omega
        cases hc : copy v with
        | none =>
          refine ⟨?_, fun x hx _ => ?_⟩
          · simp [list_push_after, hl, he, node_create, node_set, hb0, hc, Mem.setData]
          · have : x ≠ m.brk := by omega
            simp [list_push_after, hl, he, node_create, node_set, hb0, hc, Mem.setData,
              upd_apply, this]
        | some v' =>
          rw [list_push_after_eq copy m l it v v' hl he hb0 hc]
          refine ⟨Nat.le_succ _, fun x hx hxS => ?_⟩
          have h1 : x ≠ m.brk := by omega
          have h2 : x ≠ it.node := fun e => hxS (e ▸ hmem)
          have h3 : x ≠ m.next it.node := fun e => hxS (e ▸ hnx)
          simp [upd_apply, h1, h2, h3, hne]

/-- The footprint of `list_push_before`, for every cursor and data argument. -/
theorem list_push_before_frame {α : Type} (copy : α → Option α) {m : Mem α} {l : ListT}
    {ps : List Nat} {xs : List α} (iterator : Option Iter) (data : Option α)
    (hr : Ring m l.head ps xs)
    (hit : ∀ it, iterator = some it → it.list = l.id → it.node ∈ l.head :: ps) :
    Frame m (list_push_before copy m l iterator data).2.1 (l.head :: ps) := by
  have hb0 : m.brk ≠ 0 := by
    have := hr.alloc l.head (List.mem_cons_self _ _); omega
  cases iterator with
  | none => simpa [list_push_before] using frame_refl m _
  | some it =>
    cases data with
    | none => simpa [list_push_before] using frame_refl m _
    | some v =>
      by_cases hg : l.id ≠ it.list ∨ it.start_edge = true
      · simpa [list_push_before, hg] using frame_refl m _
      · have hl : it.list = l.id := by
          by_contra h; exact hg (Or.inl (fun e => h e.symm))
        have he : it.start_edge = false := by
          cases h : it.start_edge
          · rfl
          · exact absurd (Or.inr h) hg
        have hmem := hit it rfl hl
        have hpv := (ring_link_mem hr hmem).2
        have hne : it.node ≠ m.brk := fun e => by
          have := (hr.alloc _ hmem).2; omega
        cases hc : copy v with
        | none =>
          refine ⟨?_, fun x hx _ => ?_⟩
          · simp [list_push_before, hl, he, node_create, node_set, hb0, hc, Mem.setData]
          · have : x ≠ m.brk := by omega
            simp [list_push_before, hl, he, node_create, node_set, hb0, hc, Mem.setData,
              upd_apply, this]
        | some v' =>
          rw [list_push_before_eq copy m l it v v' hl he hb0 hc]
          refine ⟨Nat.le_succ _, fun x hx hxS => ?_⟩
          have h1 : x ≠ m.brk := by omega
          have h2 : x ≠ it.node := fun e => hxS (e ▸ hmem)
          have h3 : x ≠ m.prev it.node := fun e => hxS (e ▸ hpv)
          simp [upd_apply, h1, h2, h3, hne]

/-- The footprint of `list_push_front`, for every data argument. -/
theorem list_push_front_frame {α : Type} (copy : α → Option α) {m : Mem α} {l : ListT}
    {ps : List Nat} {xs : List α} (data : Option α) (hr : Ring m l.head ps xs) :
    Frame m (list_push_front copy m l data).2.1 (l.head :: ps) := by
  cases data with
  | none => simpa [list_push_front] using frame_refl m _
  | some v =>
    have := list_push_after_frame copy
      (some { list := l.id, node := l.head, end_edge := false,
              start_edge := if l.size = 0 then true else false }) (some v) hr
      (fun it hit _ => by
        simp only [Option.some.injEq] at hit
        rw [← hit]; exact List.mem_cons_self _ _)
    simpa [list_push_front, list_iterator_create] using this

/-- The footprint of `list_push_back`, for every data argument. -/
theorem list_push_back_frame {α : Type} (copy : α → Option α) {m : Mem α} {l : ListT}
    {ps : List Nat} {xs : List α} (data : Option α) (hr : Ring m l.head ps xs) :
    Frame m (list_push_back copy m l data).2.1 (l.head :: ps) := by
  cases data with
  | none => simpa [list_push_back] using frame_refl m _
  | some v =>
    have := list_push_before_frame copy
      (some { list := l.id, node := l.head, end_edge := false, start_edge := false })
      (some v) hr
      (fun it hit _ => by
        simp only [Option.some.injEq] at hit
        rw [← hit]; exact List.mem_cons_self _ _)
    simpa [list_push_back, list_iterator_create] using this

/-- The footprint of `list_push_at`, for every index and data argument. -/
theorem list_push_at_frame {α : Type} (copy : α → Option α) {m : Mem α} {l : ListT}
    {ps : List Nat} {xs : List α} (fuel n : Nat) (data : Option α)
    (hr : Ring m l.head ps xs) (hs : l.size = xs.length) (hf : l.size < fuel) :
    ∃ r, list_push_at fuel copy m l n data = some r ∧ Frame m r.2.1 (l.head :: ps) := by
  have hb0 : m.brk ≠ 0 := by
    have := hr.alloc l.head (List.mem_cons_self _ _); omega
  by_cases hn0 : n = 0
  · exact ⟨list_push_front copy m l data, by simp [list_push_at, hn0],
      list_push_front_frame copy data hr⟩
  · cases data with
    | none => exact ⟨(LIST_EINVAL, m, l), by simp [list_push_at, hn0], frame_refl m _⟩
    | some v =>
      by_cases hn : l.size < n
      · exact ⟨(LIST_EINVAL, m, l), by simp [list_push_at, hn0, hn], frame_refl m _⟩
      · cases hc : copy v with
        | none =>
          refine ⟨(LIST_NO_MEM,
            { data := upd m.data m.brk none
              next := upd m.next m.brk 0
              prev := upd m.prev m.brk 0
              brk := m.brk + 1 }, l), ?_, Nat.le_succ _, fun x hx _ => ?_⟩
          · simp [list_push_at, hn0, hn, node_create, node_set, hb0, hc, Mem.setData,
              NodeStatus_to_ListStatus]
          · have : x ≠ m.brk := by omega
            simp [upd_apply, this]
        | some v' =>
          obtain ⟨m', he, -, -, -, hfr⟩ := list_push_at_fwd copy n fuel v v' hr.toFwdRing hs
            (by omega) (by omega) hf hc
          exact ⟨_, he, hfr⟩

/-- Writing one `next` field and one `prev` field, both of cells of `S`, has
footprint `S`. -/
theorem frame_writes {α : Type} (m : Mem α) {S : List Nat} {a b : Nat} (va vb : Nat)
    (ha : a ∈ S) (hb : b ∈ S) :
    Frame m ((m.setNext a va).setPrev b vb) S ∧ Frame m ((m.setPrev b vb).setNext a va) S := by
  refine ⟨⟨le_refl _, fun x _ hx => ?_⟩, ⟨le_refl _, fun x _ hx => ?_⟩⟩ <;>
  · have h1 : x ≠ a := fun e => hx (e ▸ ha)
    have h2 : x ≠ b := fun e => hx (e ▸ hb)
    simp [Mem.setNext, Mem.setPrev, upd_apply, h1, h2]

/-- On a ring, `__find_node` ends on a ring node: the first node whose data
compares equal, or the sentinel. -/
theorem find_node_mem {α : Type} (cmp : α → α → Int) {m : Mem α} {l : ListT}
    {ps : List Nat} {xs : List α} (v : α) (fuel : Nat) (hr : FwdRing m l.head ps xs)
    (hf : xs.length < fuel) :
    ∃ p ∈ l.head :: ps, __find_node fuel cmp m l v = some p := by
  have hlen := fwdRing_length_eq hr
  by_cases hex : ∃ x ∈ xs, cmp v x = 0
  · obtain ⟨x, hxm, hx0⟩ := hex
    obtain ⟨x', xs1, xs2, hno, hx', rfl, -⟩ :=
      List.exists_of_eraseP (p := fun y => decide (cmp v y = 0)) hxm (by simpa using hx0)
    obtain ⟨pre, p, post, rfl, hl⟩ := ring_split hr
    refine ⟨p, by simp, ?_⟩
    exact find_node_loop_found cmp m v p post x' xs2 l.head pre xs1 l.head fuel hr.next
      hr.data hl (fun y hy => by simpa using hno y hy) (by simpa using hx')
      (by simp at hf; omega)
  · refine ⟨l.head, List.mem_cons_self _ _, ?_⟩
    exact find_node_loop_none cmp m v l.head ps xs l.head fuel hr.next hr.data hr.sentinel
      (fun y hy h0 => hex ⟨y, hy, h0⟩) (by omega)

/-- The footprint of `list_remove`, for every data argument, found or not. -/
theorem list_remove_frame {α : Type} (cmp : α → α → Int) {m : Mem α} {l : ListT}
    {ps : List Nat} {xs : List α} (fuel : Nat) (data : Option α)
    (hr : Ring m l.head ps xs) (hf : xs.length < fuel) :
    ∃ r, list_remove fuel cmp m l data = some r ∧ Frame m r.2.1 (l.head :: ps) := by
  cases data with
  | none => exact ⟨(LIST_EINVAL, m, l), by simp [list_remove], frame_refl m _⟩
  | some v =>
    obtain ⟨p, hp, hfind⟩ := find_node_mem cmp v fuel hr.toFwdRing hf
    have hp0 : p ≠ 0 := by
      have := (hr.alloc p hp).1; omega
    obtain ⟨h1, h2⟩ := ring_link_mem hr hp
    simp only [list_remove, hfind, hp0, if_false]
    exact ⟨_, rfl, (frame_writes m _ _ h2 h1).1⟩

/-- The footprint of `list_remove_at`, for every index. -/
theorem list_remove_at_frame {α : Type} {m : Mem α} {l : ListT} {ps : List Nat}
    {xs : List α} (fuel n : Nat) (hr : Ring m l.head ps xs) (hs : l.size = xs.length)
    (hf : l.size < fuel) :
    ∃ r, list_remove_at fuel m l n = some r ∧ Frame m r.2.1 (l.head :: ps) := by
  by_cases hn : n ≥ l.size
  · exact ⟨(LIST_EINVAL, m, l), by simp [list_remove_at, hn], frame_refl m _⟩
  · have hlen := fwdRing_length_eq hr.toFwdRing
    have hloop := foreach_count_chain m 0 l.head n ps l.head fuel hr.next
      (fwdRing_data_isSome hr.toFwdRing) (by omega) (by omega)
    rw [Nat.zero_add] at hloop
    have hp : lastD (ps.take (n + 1)) l.head ∈ l.head :: ps := by
      rcases List.mem_cons.1 (lastD_mem (ps.take (n + 1)) l.head) with h | h
      · rw [h]; exact List.mem_cons_self _ _
      · exact List.mem_cons_of_mem _ (List.mem_of_mem_take h)
    obtain ⟨h1, h2⟩ := ring_link_mem hr hp
    have h1' : (m.setNext (m.prev (lastD (ps.take (n + 1)) l.head))
        (m.next (lastD (ps.take (n + 1)) l.head))).next (lastD (ps.take (n + 1)) l.head)
        ∈ l.head :: ps := by
      simp only [Mem.setNext, upd_apply]
      split <;> exact h1
    simp only [list_remove_at, hn, if_false, __list_get_first, hloop]
    exact ⟨_, rfl, (frame_writes m _ _ h2 h1').1⟩

/-- The footprint of `list_remove_iterator`, for every cursor argument on a
ring node. -/
theorem list_remove_iterator_frame {α : Type} {m : Mem α} {l : ListT} {ps : List Nat}
    {xs : List α} (iterator : Option Iter) (hr : Ring m l.head ps xs)
    (hit : ∀ it, iterator = some it → it.list = l.id → it.node ∈ l.head :: ps) :
    Frame m (list_remove_iterator m l iterator).2.1 (l.head :: ps) := by
  cases iterator with
  | none => simpa [list_remove_iterator] using frame_refl m _
  | some it =>
    by_cases hg : l.id ≠ it.list
    · simpa [list_remove_iterator, hg] using frame_refl m _
    · have hl : it.list = l.id := by
        by_contra h; exact hg (fun e => h e.symm)
      obtain ⟨h1, h2⟩ := ring_link_mem hr (hit it rfl hl)
      simp only [list_remove_iterator, hg, if_false]
      exact (frame_writes m _ _ h2 h1).1

/-- The footprints of `list_pop_front` and `list_pop_back`. -/
theorem list_pop_frame {α : Type} {m : Mem α} {l : ListT} {ps : List Nat} {xs : List α}
    (hr : Ring m l.head ps xs) :
    Frame m (list_pop_front m l).2.1 (l.head :: ps) ∧
    Frame m (list_pop_back m l).2.1 (l.head :: ps) := by
  have hh : l.head ∈ l.head :: ps := List.mem_cons_self _ _
  obtain ⟨hn, hp⟩ := ring_link_mem hr hh
  have hnn := (ring_link_mem hr hn).1
  have hpp := (ring_link_mem hr hp).2
  by_cases h0 : l.size = 0
  · constructor
    · simpa [list_pop_front, h0] using frame_refl m _
    · simpa [list_pop_back, h0] using frame_refl m _
  · constructor
    · have h1 : (m.setNext l.head (m.next (m.next l.head))).next (m.next l.head)
          ∈ l.head :: ps := by
        simp only [Mem.setNext, upd_apply]
        split <;> exact hnn
      simp only [list_pop_front, h0, if_false, __list_get_first]
      exact (frame_writes m _ _ hh h1).1
    · have h1 : (m.setPrev l.head (m.prev (m.prev l.head))).prev (m.prev l.head)
          ∈ l.head :: ps := by
        simp only [Mem.setPrev, upd_apply]
        split <;> exact hpp
      simp only [list_pop_back, h0, if_false, __list_get_last]
      exact (frame_writes m _ _ h1 hh).2

/-- The footprint of `list_sort`, whether the copies succeed or not. -/
theorem list_sort_frame {α : Type} (copy : α → Option α) (cmp : α → α → Int) {m : Mem α}
    {l : ListT} {ps : List Nat} {xs : List α} (fuel : Nat) (hr : Ring m l.head ps xs)
    (hf : xs.length < fuel) :
    ∃ r, list_sort fuel copy cmp m l = some r ∧ Frame m r.2.1 (l.head :: ps) := by
  have hfail : ((∃ x ∈ xs, copy x = none) ∨
      ∃ cs : List α, xs.map copy = cs.map some ∧ ∃ c ∈ cs, copy c = none) →
      ∃ r, list_sort fuel copy cmp m l = some r ∧ Frame m r.2.1 (l.head :: ps) := by
    intro hc
    obtain ⟨m', he, hfr⟩ := list_sort_fail copy cmp fuel hr hc hf
    exact ⟨_, he, frame_mono hfr (fun _ h => by simp at h)⟩
  rcases copies_succeed_or_fail copy xs with ⟨cs, hc1⟩ | hc1
  · rcases copies_succeed_or_fail copy cs with ⟨ys, hc2⟩ | hc2
    · obtain ⟨m', qs, sorted, he, -, -, -, hfr⟩ := list_sort_ok copy cmp cs ys fuel hr hc1 hc2 hf
      exact ⟨_, he, frame_mono hfr (fun x h => by
        rw [List.mem_singleton.1 h]; exact List.mem_cons_self _ _)⟩
    · exact hfail (Or.inr ⟨cs, hc1, hc2⟩)
  · exact hfail (Or.inl hc1)

/-- Every mutating operation called on a well-formed list, with a usable
cursor and fuel above the size, returns, and writes only cells of the list's
ring and cells allocated by the call. -/
theorem mutate_frame {α : Type} (fuel : Nat) (copy : α → Option α) (cmp : α → α → Int)
    {m : Mem α} {l : ListT} {ps : List Nat} {xs : List α} (μ : Mutation α)
    (hr : Ring m l.head ps xs) (hs : l.size = xs.length) (hf : l.size < fuel)
    (hv : CursorValid m l μ) :
    ∃ m' l', mutate fuel copy cmp m l μ = some (m', l') ∧ Frame m m' (l.head :: ps) := by
  have hlen := fwdRing_length_eq hr.toFwdRing
  have hit : ∀ it, μ.cursor = some it → it.list = l.id → it.node ∈ l.head :: ps := by
    intro it h1 h2
    obtain ⟨i, hi, hnode⟩ := hv it h1 h2
    rw [hnode]
    exact node_at_mem hr.toFwdRing i (by omega)
  cases μ with
  | push_front data => exact ⟨_, _, rfl, list_push_front_frame copy data hr⟩
  | push_back data => exact ⟨_, _, rfl, list_push_back_frame copy data hr⟩
  | push_after iterator data =>
    exact ⟨_, _, rfl, list_push_after_frame copy iterator data hr hit⟩
  | push_before iterator data =>
    exact ⟨_, _, rfl, list_push_before_frame copy iterator data hr hit⟩
  | push_at n data =>
    obtain ⟨r, he, hfr⟩ := list_push_at_frame copy fuel n data hr hs hf
    exact ⟨r.2.1, r.2.2, by simp [mutate, he], hfr⟩
  | remove data =>
    obtain ⟨r, he, hfr⟩ := list_remove_frame cmp fuel data hr (by omega)
    exact ⟨r.2.1, r.2.2, by simp [mutate, he], hfr⟩
  | remove_at n =>
    obtain ⟨r, he, hfr⟩ := list_remove_at_frame fuel n hr hs hf
    exact ⟨r.2.1, r.2.2, by simp [mutate, he], hfr⟩
  | remove_iterator iterator =>
    exact ⟨_, _, rfl, list_remove_iterator_frame iterator hr hit⟩
  | pop_front => exact ⟨_, _, rfl, (list_pop_frame hr).1⟩
  | pop_back => exact ⟨_, _, rfl, (list_pop_frame hr).2⟩
  | clear =>
    obtain ⟨he, -, hfr⟩ := list_clear_ring fuel hr.toFwdRing (by omega)
    exact ⟨_, _, he, frame_mono hfr (fun x h => by
      rw [List.mem_singleton.1 h]; exact List.mem_cons_self _ _)⟩
  | sort =>
    obtain ⟨r, he, hfr⟩ := list_sort_frame copy cmp fuel hr (by omega)
    exact ⟨r.2.1, r.2.2, by simp [mutate, he], hfr⟩

/-! ## Independence of a copy and its source -/

/-- A mutating operation called on a well-formed list, with a usable cursor and
fuel above the size, returns and leaves every ring that shares no node with
the list as it was. -/
theorem mutate_other_ring_intact {α : Type} (fuel : Nat) (copy : α → Option α)
    (cmp : α → α → Int) {m : Mem α} {l : ListT} {ps : List Nat} {xs : List α}
    {h : Nat} {qs : List Nat} {ys : List α} (μ : Mutation α)
    (hr : Ring m l.head ps xs) (hs : l.size = xs.length) (hf : l.size < fuel)
    (hv : CursorValid m l μ) (ho : Ring m h qs ys)
    (hd : ∀ x ∈ h :: qs, x ∉ l.head :: ps) :
    ∃ m' l', mutate fuel copy cmp m l μ = some (m', l') ∧ Ring m' h qs ys := by
  obtain ⟨m', l', he, hfr⟩ := mutate_frame fuel copy cmp μ hr hs hf hv
  exact ⟨m', l', he, ring_of_frame ho hfr hd⟩

/-- While the list that is mutated is well-formed, a copy and its source do not
affect each other. On a well-formed list `l` with forward contents `xs` whose
elements all copy successfully (with results `cs`), `list_copy` returns a list
`c` such that every mutating operation (`list_push_front`, `list_push_back`,
`list_push_after`, `list_push_before`, `list_push_at`, `list_remove`,
`list_remove_at`, `list_remove_iterator`, `list_pop_front`, `list_pop_back`,
`list_clear`, `list_sort`, with any arguments and a cursor that, when bound to
the mutated list, is on one of its nodes) called on `c` returns and leaves `l`
well-formed with forward contents `xs`, and every such operation called on `l`
returns and leaves `c` well-formed with forward contents `cs`. This covers one
call after the copy; what a later call does when an earlier one left a
destroyed node linked is the subject of the next theorem. -/
theorem list_copy_independent {α : Type} (copy : α → Option α) (cmp : α → α → Int)
    (m : Mem α) (l : ListT) (xs cs : List α) (fuel : Nat) (hwf : WellFormed m l xs)
    (hc : xs.map copy = cs.map some) (hf : list_get_size l < fuel) :
    ∃ c m1, list_copy fuel copy m l = some (some c, m1) ∧
      WellFormed m1 l xs ∧ WellFormed m1 c cs ∧
      (∀ μ : Mutation α, CursorValid m1 c μ →
        ∃ m2 c', mutate fuel copy cmp m1 c μ = some (m2, c') ∧ WellFormed m2 l xs ∧
          (∀ fuel', list_get_size l < fuel' → forward fuel' m2 l = some xs)) ∧
      (∀ μ : Mutation α, CursorValid m1 l μ →
        ∃ m2 l', mutate fuel copy cmp m1 l μ = some (m2, l') ∧ WellFormed m2 c cs ∧
          (∀ fuel', list_get_size c < fuel' → forward fuel' m2 c = some cs)) := by
  obtain ⟨hs, ps, hr⟩ := hwf
  simp only [list_get_size] at hf
  have hlcs : cs.length = xs.length := by simpa using (congrArg List.length hc).symm
  obtain ⟨m1, qs, he, hrc, hfr, hq⟩ := list_copy_ok copy cs fuel hr hc (by omega)
  have hrl : Ring m1 l.head ps xs := ring_of_frame hr hfr (fun _ _ => by simp)
  have hlow : ∀ x ∈ l.head :: ps, x < m.brk := fun x hx => (hr.alloc x hx).2
  have hhigh : ∀ x ∈ (m.brk + 1) :: qs, m.brk + 1 ≤ x := by
    intro x hx
    rcases List.mem_cons.1 hx with h | h
    · omega
    · have := hq x h; omega
  refine ⟨{ id := m.brk, size := xs.length, iterator := m.brk + 1, head := m.brk + 1 }, m1,
    he, ⟨hs, ps, hrl⟩, ⟨hlcs.symm, qs, hrc⟩, ?_, ?_⟩
  · intro μ hv
    obtain ⟨m2, c', hm, hrl2⟩ := mutate_other_ring_intact fuel copy cmp μ hrc hlcs.symm
      (show xs.length < fuel by omega) hv hrl (fun x hx hx' => by
        have h1 := hlow x hx
        have h2 := hhigh x hx'
        omega)
    have hwf2 : WellFormed m2 l xs := ⟨hs, ps, hrl2⟩
    exact ⟨m2, c', hm, hwf2, fun fuel' h => forward_of_wellFormed hwf2 h⟩
  · intro μ hv
    obtain ⟨m2, l', hm, hrc2⟩ := mutate_other_ring_intact fuel copy cmp μ hrl hs hf hv hrc
      (fun x hx hx' => by
        have h1 := hlow x hx'
        have h2 := hhigh x hx
        omega)
    have hwf2 : WellFormed m2
        { id := m.brk, size := xs.length, iterator := m.brk + 1, head := m.brk + 1 } cs :=
      ⟨hlcs.symm, qs, hrc2⟩
    exact ⟨m2, l', hm, hwf2, fun fuel' h => forward_of_wellFormed hwf2 h⟩

/-- C13 (divergence). The list `l = [10, 20]` is copied to `c`.
* `list_push_at(c, 1, 15)` then `list_remove_at(c, 1)` both return
  `LIST_SUCCESS`; `list_remove_at` destroys the node at address 9, yet the first
  node of `c` (address 7) still has `next` pointing to it, because the node's
  `prev` pointed to itself when it was unlinked.
* With that cell handed out again by `malloc`, `list_push_after(l, it, 99)` on
  the source returns `LIST_SUCCESS`, and `l` reads `[10, 99, 20]`.
* `list_remove_at(c, 1)` on the copy then returns `LIST_SUCCESS` and unlinks the
  node of `99` from the ring of `l`: `l` reads `[10, 20]` while its size is 3.
A mutation applied to the copy has changed the forward contents of the
source. -/
theorem list_copy_mutation_reaches_source :
    WellFormed exampleMem exampleList [10, 20] ∧
    copy_round_trip.map (fun s => (s.1, s.2.1.next 7, s.2.2.head, s.2.1.next s.2.2.head,
      list_get_size s.2.2)) = some (9, 9, 6, 7, 2) ∧
    copy_interference
      = some (LIST_SUCCESS, some [10, 99, 20], LIST_SUCCESS, some [10, 20], 3) := by
  refine ⟨exampleList_wellFormed, ?_, ?_⟩ <;> decide

/-- The copy of `[10, 20]` is mutated through the operations whose links go
wrong (`list_push_at` in the middle, `list_remove` of an absent value) and
cleared; after each the source still reads `[10, 20]`, and after clearing the
source instead the copy still reads `[10, 20]`. -/
theorem list_copy_independent_example :
    (∀ μ ∈ [Mutation.push_at 1 (some 15), Mutation.remove (some 99), Mutation.clear,
        Mutation.sort, Mutation.pop_back],
      (list_copy 3 int_copy exampleMem exampleList).bind (fun r =>
        r.1.bind (fun c =>
          (mutate 3 int_copy int_compare r.2 c μ).bind (fun s =>
            forward 3 s.1 exampleList))) = some [10, 20]) ∧
    (list_copy 3 int_copy exampleMem exampleList).bind (fun r =>
      r.1.bind (fun c =>
        (mutate 3 int_copy int_compare r.2 exampleList Mutation.clear).bind (fun s =>
          forward 3 s.1 c))) = some [10, 20] := by
  refine ⟨fun μ hμ => ?_, by decide⟩
  simp only [List.mem_cons, List.mem_singleton, List.not_mem_nil, or_false] at hμ
  rcases hμ with rfl | rfl | rfl | rfl | rfl <;> decide

/-! ## `list_get_at` and `list_find` -/

/-- C21. On a well-formed list with forward contents `xs`, `list_get_at` (with
fuel above the size) returns the element at 0-based position `n` of `xs` when
`n < size` and NULL when `n >= size`, that is `xs[n]?` in both cases. The
function only reads the heap and the list struct: it has no other result. -/
theorem list_get_at_contents {α : Type} (m : Mem α) (l : ListT) (xs : List α) (n fuel : Nat)
    (hwf : WellFormed m l xs) (hf : list_get_size l < fuel) :
    list_get_at fuel m l n = some xs[n]? ∧
    (∀ h : n < xs.length, n < list_get_size l ∧ list_get_at fuel m l n = some (some xs[n])) ∧
    (list_get_size l ≤ n → list_get_at fuel m l n = some none) := by
  obtain ⟨hs, ps, hr⟩ := hwf
  simp only [list_get_size] at hf ⊢
  have hlen := fwdRing_length_eq hr.toFwdRing
  have hge : l.size ≤ n → list_get_at fuel m l n = some none := by
    intro h
    simp [list_get_at, h]
  have hlt : ∀ h : n < xs.length, list_get_at fuel m l n = some (some xs[n]) := by
    intro h
    have hloop := foreach_count_chain m 0 l.head n ps l.head fuel hr.next
      (fwdRing_data_isSome hr.toFwdRing) (by omega) (by omega)
    rw [Nat.zero_add, lastD_take_succ ps n l.head l.head (by omega)] at hloop
    have hd := data_at_ring hr.toFwdRing n (by omega)
    rw [List.getElem?_eq_getElem h] at hd
    have hn : ¬ n ≥ l.size := by omega
    simp [list_get_at, hn, __list_get_first, hloop, hd]
  refine ⟨?_, fun h => ⟨by omega, hlt h⟩, hge⟩
  rcases Nat.lt_or_ge n xs.length with h | h
  · rw [hlt h, List.getElem?_eq_getElem h]
  · rw [hge (by omega), List.getElem?_eq_none h]

/-- Instance of C21: position 1 of the list `[10, 20]`. -/
theorem list_get_at_contents_witness :
    WellFormed exampleMem exampleList [10, 20] ∧ list_get_size exampleList < 3 ∧
    list_get_at 3 exampleMem exampleList 1 = some ([10, 20] : List Int)[1]? ∧
    (∀ h : 1 < ([10, 20] : List Int).length, 1 < list_get_size exampleList ∧
      list_get_at 3 exampleMem exampleList 1 = some (some ([10, 20] : List Int)[1])) ∧
    (list_get_size exampleList ≤ 1 → list_get_at 3 exampleMem exampleList 1 = some none) :=
  ⟨exampleList_wellFormed, by decide,
    list_get_at_contents exampleMem exampleList [10, 20] 1 3 exampleList_wellFormed
      (by decide)⟩

/-- Along a chain of data-carrying nodes that ends on a node without data,
`__find_node` ends on a node whose data is the first element comparing equal,
or on the node without data. -/
theorem find_node_loop_data {α : Type} (cmp : α → α → Int) (m : Mem α) (v : α) (b : Nat) :
    ∀ (ps : List Nat) (xs : List α) (a fuel : Nat),
      nextPath m.next a ps b → ps.map m.data = xs.map some → m.data b = none →
      ps.length < fuel →
      ∃ p, __find_node_loop cmp m v fuel (m.next a) = some p ∧
        m.data p = xs.find? (fun x => decide (cmp v x = 0))
  | [], [], a, fuel, hp, _, hb, hf => by
    obtain ⟨n, rfl⟩ : ∃ n, fuel = n + 1 := ⟨fuel - 1, by simp at hf; omega⟩
    simp only [nextPath] at hp
    exact ⟨b, by simp [__find_node_loop, hp, hb], by simp [hb]⟩
  | [], _ :: _, _, _, _, hd, _, _ => by simp at hd
  | _ :: _, [], _, _, _, hd, _, _ => by simp at hd
  | q :: ps, y :: xs, a, fuel, hp, hd, hb, hf => by
    obtain ⟨n, rfl⟩ : ∃ n, fuel = n + 1 := ⟨fuel - 1, by simp at hf; omega⟩
    simp only [nextPath, List.map_cons, List.cons.injEq] at hp hd
    by_cases hy : cmp v y = 0
    · exact ⟨q, by simp [__find_node_loop, hp.1, hd.1, hy], by simp [hd.1, hy]⟩
    · obtain ⟨p, h1, h2⟩ := find_node_loop_data cmp m v b ps xs q n hp.2 hd.2 hb
        (by simpa using hf)
      exact ⟨p, by simp [__find_node_loop, hp.1, hd.1, hy, h1], by simp [h2, hy]⟩

/-- C22. On a well-formed list with forward contents `xs` and a non-null value
`v`, `list_find` (with fuel above the size) returns the first element `x` of
`xs`, in forward order, with `cmp v x = 0`; it returns NULL if and only if no
element of `xs` compares equal to `v`. The function only reads the heap and
the list struct: it has no other result. -/
theorem list_find_first_match {α : Type} (cmp : α → α → Int) (m : Mem α) (l : ListT)
    (xs : List α) (v : α) (fuel : Nat) (hwf : WellFormed m l xs)
    (hf : list_get_size l < fuel) :
    list_find fuel cmp m l (some v) = some (xs.find? (fun x => decide (cmp v x = 0))) ∧
    (list_find fuel cmp m l (some v) = some none ↔ ∀ x ∈ xs, cmp v x ≠ 0) ∧
    (∀ (xs1 xs2 : List α) (x : α), xs = xs1 ++ x :: xs2 → (∀ y ∈ xs1, cmp v y ≠ 0) →
      cmp v x = 0 → list_find fuel cmp m l (some v) = some (some x)) := by
  obtain ⟨hs, ps, hr⟩ := hwf
  simp only [list_get_size] at hf
  have hlen := fwdRing_length_eq hr.toFwdRing
  obtain ⟨p, h1, h2⟩ := find_node_loop_data cmp m v l.head ps xs l.head fuel hr.next hr.data
    hr.sentinel (by omega)
  have he : list_find fuel cmp m l (some v)
      = some (xs.find? (fun x => decide (cmp v x = 0))) := by
    simp [list_find, __find_node, __list_get_first, h1, h2]
  refine ⟨he, ?_, ?_⟩
  · rw [he]
    simp [List.find?_eq_none]
  · rintro xs1 xs2 x rfl hno hx
    rw [he, List.find?_append]
    have : List.find? (fun x => decide (cmp v x = 0)) xs1 = none := by
      simpa [List.find?_eq_none] using hno
    simp [this, hx]

/-- Instance of C22: looking for `20` in the list `[10, 20]`. -/
theorem list_find_first_match_witness :
    WellFormed exampleMem exampleList [10, 20] ∧ list_get_size exampleList < 3 ∧
    list_find 3 int_compare exampleMem exampleList (some 20)
      = some (([10, 20] : List Int).find? (fun x => decide (int_compare 20 x = 0))) ∧
    (list_find 3 int_compare exampleMem exampleList (some 20) = some none ↔
      ∀ x ∈ ([10, 20] : List Int), int_compare 20 x ≠ 0) ∧
    (∀ (xs1 xs2 : List Int) (x : Int), [10, 20] = xs1 ++ x :: xs2 →
      (∀ y ∈ xs1, int_compare 20 y ≠ 0) → int_compare 20 x = 0 →
      list_find 3 int_compare exampleMem exampleList (some 20) = some (some x)) :=
  ⟨exampleList_wellFormed, by decide,
    list_find_first_match int_compare exampleMem exampleList [10, 20] 20 3
      exampleList_wellFormed (by decide)⟩

/-! ## `list_pop_front` and `list_pop_back` -/

/-- `list_pop_front` on a ring with first node `p`: the data of `p` is
returned and `p` is unlinked. -/
theorem list_pop_front_ring {α : Type} {m : Mem α} {l : ListT} {p : Nat} {ps : List Nat}
    {x : α} {xs : List α} (hr : Ring m l.head (p :: ps) (x :: xs)) (hs : l.size ≠ 0) :
    ∃ m', list_pop_front m l = (some x, m', { l with size := size_dec l.size }) ∧
      Ring m' l.head ps xs ∧ Frame m m' (l.head :: p :: ps) := by
  have hr' : Ring m l.head ([] ++ p :: ps) ([] ++ x :: xs) := by simpa using hr
  obtain ⟨hd, hpv, -⟩ := ring_neighbours hr' rfl
  have hun := ring_unlink hr' rfl
  have hfr := frame_unlink hr (s := p) (by simp)
  have hfirst : m.next l.head = p := by simpa using nextPath_first hr.next
  have hne : p ≠ l.head := fun e => by
    have := (List.nodup_cons.1 hr.nodup).1
    exact this (e ▸ List.mem_cons_self _ _)
  simp only [lastD_nil] at hpv
  rw [hpv] at hun hfr
  refine ⟨_, ?_, by simpa using hun, hfr⟩
  simp [list_pop_front, hs, __list_get_first, hfirst, Mem.setNext, Mem.setPrev, hd,
    upd_apply, hne]

/-- `list_pop_back` on a ring with last node `p`: the data of `p` is returned
and `p` is unlinked. -/
theorem list_pop_back_ring {α : Type} {m : Mem α} {l : ListT} {p : Nat} {ps : List Nat}
    {x : α} {xs : List α} (hr : Ring m l.head (ps ++ [p]) (xs ++ [x])) (hs : l.size ≠ 0) :
    ∃ m', list_pop_back m l = (some x, m', { l with size := size_dec l.size }) ∧
      Ring m' l.head ps xs ∧ Frame m m' (l.head :: (ps ++ [p])) := by
  have hlen : ps.length = xs.length := by
    have := fwdRing_length_eq hr.toFwdRing
    simpa using this
  obtain ⟨hd, -, hnx⟩ := ring_neighbours hr hlen
  have hun := ring_unlink hr hlen
  have hfr := frame_unlink hr (s := p) (by simp)
  have hlast : m.prev l.head = p := by
    have := nextPath_first hr.prev
    simpa using this
  have hne : p ≠ l.head := fun e => by
    have := (List.nodup_cons.1 hr.nodup).1
    exact this (e ▸ (by simp))
  simp only [firstD_nil] at hnx
  rw [hnx] at hun hfr
  refine ⟨_, ?_, by simpa using hun, hfr⟩
  simp only [list_pop_back, hs, if_false, __list_get_last, hlast, Mem.setNext, Mem.setPrev, hd,
    upd_apply, hne]

/-- C23. On a well-formed list with forward contents `xs`:
* if `xs` is not empty, `list_pop_front` returns the first value of `xs` and
  leaves a well-formed list with contents `xs.tail`, and `list_pop_back`
  returns the last value of `xs` and leaves a well-formed list with contents
  `xs.dropLast`; in both cases the size is one less, the ring is closed (for
  every node `next` and `prev` are inverse to each other) and the backward
  traversal is the reverse of the forward one;
* if `xs` is empty, both return NULL and the heap and the list struct are as
  before. -/
theorem list_pop_contents {α : Type} (m : Mem α) (l : ListT) (xs : List α)
    (hwf : WellFormed m l xs) :
    (xs ≠ [] →
      (∃ m' l', list_pop_front m l = (xs.head?, m', l') ∧ xs.head?.isSome = true ∧
        WellFormed m' l' xs.tail ∧ list_get_size l' + 1 = list_get_size l ∧
        (∃ ps, Ring m' l'.head ps xs.tail ∧ RingClosed m' (l'.head :: ps)) ∧
        (∀ fuel, list_get_size l' < fuel →
          forward fuel m' l' = some xs.tail ∧ backward fuel m' l' = some xs.tail.reverse)) ∧
      (∃ m' l', list_pop_back m l = (xs.getLast?, m', l') ∧ xs.getLast?.isSome = true ∧
        WellFormed m' l' xs.dropLast ∧ list_get_size l' + 1 = list_get_size l ∧
        (∃ ps, Ring m' l'.head ps xs.dropLast ∧ RingClosed m' (l'.head :: ps)) ∧
        (∀ fuel, list_get_size l' < fuel →
          forward fuel m' l' = some xs.dropLast ∧
          backward fuel m' l' = some xs.dropLast.reverse))) ∧
    (xs = [] → list_pop_front m l = (none, m, l) ∧ list_pop_back m l = (none, m, l)) := by
  obtain ⟨hs, ps, hr⟩ := hwf
  have hlen := fwdRing_length_eq hr.toFwdRing
  constructor
  · intro hne
    have hs0 : l.size ≠ 0 := by
      have := List.length_pos.2 hne; omega
    constructor
    · obtain ⟨x, xs', rfl⟩ := List.exists_cons_of_ne_nil hne
      obtain ⟨p, ps', rfl⟩ : ∃ p ps', ps = p :: ps' := by
        cases ps with
        | nil => simp at hlen
        | cons p ps' => exact ⟨p, ps', rfl⟩
      obtain ⟨m', he, hr', -⟩ := list_pop_front_ring hr hs0
      have hsz : size_dec l.size = xs'.length := by
        rw [hs]; simp [size_dec]
      have hwf' : WellFormed m' { l with size := size_dec l.size } xs' := ⟨hsz, ps', hr'⟩
      refine ⟨m', _, he, rfl, hwf', ?_, ⟨ps', hr', ring_closed hr'⟩, fun fuel hfu =>
        ⟨forward_of_wellFormed hwf' hfu, backward_of_wellFormed hwf' hfu⟩⟩
      show size_dec l.size + 1 = l.size
      rw [hsz, hs, List.length_cons]
    · obtain ⟨xs', x, rfl⟩ : ∃ xs' x, xs = xs' ++ [x] :=
        ⟨xs.dropLast, xs.getLast hne, (List.dropLast_append_getLast hne).symm⟩
      obtain ⟨ps', p, rfl⟩ : ∃ ps' p, ps = ps' ++ [p] := by
        have hps : ps ≠ [] := by
          intro e; subst e; simp at hlen
        exact ⟨ps.dropLast, ps.getLast hps, (List.dropLast_append_getLast hps).symm⟩
      obtain ⟨m', he, hr', -⟩ := list_pop_back_ring hr hs0
      have hsz : size_dec l.size = xs'.length := by
        rw [hs]; simp [size_dec]
      have hwf' : WellFormed m' { l with size := size_dec l.size } xs' := ⟨hsz, ps', hr'⟩
      rw [List.getLast?_concat, List.dropLast_concat]
      refine ⟨m', _, he, rfl, hwf', ?_, ⟨ps', hr', ring_closed hr'⟩, fun fuel hfu =>
        ⟨forward_of_wellFormed hwf' hfu, backward_of_wellFormed hwf' hfu⟩⟩
      show size_dec l.size + 1 = l.size
      rw [hsz, hs, List.length_append, List.length_singleton]
  · rintro rfl
    have hs0 : l.size = 0 := by simpa using hs
    simp [list_pop_front, list_pop_back, hs0]

/-- Instance of C23 on the list `[10, 20]`. -/
theorem list_pop_contents_witness :
    WellFormed exampleMem exampleList [10, 20] ∧ ([10, 20] : List Int) ≠ [] ∧
    (∃ m' l', list_pop_front exampleMem exampleList = (([10, 20] : List Int).head?, m', l') ∧
      ([10, 20] : List Int).head?.isSome = true ∧
      WellFormed m' l' ([10, 20] : List Int).tail ∧
      list_get_size l' + 1 = list_get_size exampleList ∧
      (∃ ps, Ring m' l'.head ps ([10, 20] : List Int).tail ∧ RingClosed m' (l'.head :: ps)) ∧
      (∀ fuel, list_get_size l' < fuel →
        forward fuel m' l' = some ([10, 20] : List Int).tail ∧
        backward fuel m' l' = some ([10, 20] : List Int).tail.reverse)) ∧
    (∃ m' l', list_pop_back exampleMem exampleList
        = (([10, 20] : List Int).getLast?, m', l') ∧
      ([10, 20] : List Int).getLast?.isSome = true ∧
      WellFormed m' l' ([10, 20] : List Int).dropLast ∧
      list_get_size l' + 1 = list_get_size exampleList ∧
      (∃ ps, Ring m' l'.head ps ([10, 20] : List Int).dropLast ∧
        RingClosed m' (l'.head :: ps)) ∧
      (∀ fuel, list_get_size l' < fuel →
        forward fuel m' l' = some ([10, 20] : List Int).dropLast ∧
        backward fuel m' l' = some ([10, 20] : List Int).dropLast.reverse)) :=
  ⟨exampleList_wellFormed, by decide,
    (list_pop_contents exampleMem exampleList [10, 20] exampleList_wellFormed).1 (by decide)⟩

/-! ## The positional getters with a cursor -/

/-- C24 (divergence). On the list `[10, 20]` as `list_create` and two
`list_push_back` leave it (internal scan cursor on the sentinel):
* with the cursor `list_iterator_create` returns (on the first element),
  `list_get_next` moves the cursor to the element `20` but returns `10`, the
  data at the internal scan cursor;
* with that cursor moved to the last element by `list_iterator_last`,
  `list_get_prev` moves the cursor to the element `10` but returns `20`.
In both cases the value returned is not the one `list_iterator_get` reads at
the cursor's new position. -/
theorem list_get_next_prev_value_not_at_cursor :
    forward 3 (build_list [10, 20]).1 (build_list [10, 20]).2 = some [10, 20] ∧
    list_iterator_get (build_list [10, 20]).1
      (some (list_iterator_create (build_list [10, 20]).1 (build_list [10, 20]).2)) = some 10 ∧
    (list_get_next (build_list [10, 20]).1 (build_list [10, 20]).2
      (some (list_iterator_create (build_list [10, 20]).1 (build_list [10, 20]).2))).1
      = some 10 ∧
    list_iterator_get (build_list [10, 20]).1
      (list_get_next (build_list [10, 20]).1 (build_list [10, 20]).2
        (some (list_iterator_create (build_list [10, 20]).1 (build_list [10, 20]).2))).2.2
      = some 20 ∧
    list_iterator_get (build_list [10, 20]).1
      (list_iterator_last (build_list [10, 20]).1 (build_list [10, 20]).2
        (some (list_iterator_create (build_list [10, 20]).1 (build_list [10, 20]).2))).2
      = some 20 ∧
    (list_get_prev (build_list [10, 20]).1 (build_list [10, 20]).2
      (list_iterator_last (build_list [10, 20]).1 (build_list [10, 20]).2
        (some (list_iterator_create (build_list [10, 20]).1 (build_list [10, 20]).2))).2).1
      = some 20 ∧
    list_iterator_get (build_list [10, 20]).1
      (list_get_prev (build_list [10, 20]).1 (build_list [10, 20]).2
        (list_iterator_last (build_list [10, 20]).1 (build_list [10, 20]).2
          (some (list_iterator_create (build_list [10, 20]).1 (build_list [10, 20]).2))).2).2.2
      = some 10 := by
  refine ⟨?_, ?_, ?_, ?_, ?_, ?_, ?_⟩ <;> decide

/-- The positional getters agree with the cursor when the cursor given is bound
to the list and, for `list_get_next` and `list_get_prev`, the internal scan
cursor is on the cursor's node and the cursor is not on the edge in the
direction of the move: the value returned is what `list_iterator_get` reads
at the cursor afterwards. -/
theorem list_get_value_at_cursor {α : Type} (m : Mem α) (l : ListT) (it : Iter)
    (hl : it.list = l.id) :
    (list_get_first m l (some it)).1 = list_iterator_get m (list_get_first m l (some it)).2.2 ∧
    (list_get_last m l (some it)).1 = list_iterator_get m (list_get_last m l (some it)).2.2 ∧
    (l.iterator = it.node → it.end_edge = false →
      (list_get_next m l (some it)).1
        = list_iterator_get m (list_get_next m l (some it)).2.2) ∧
    (l.iterator = it.node → it.start_edge = false →
      (list_get_prev m l (some it)).1
        = list_iterator_get m (list_get_prev m l (some it)).2.2) := by
  refine ⟨?_, ?_, fun h he => ?_, fun h he => ?_⟩
  · simp only [list_get_first, hl, ne_eq, not_true_eq_false, if_false]
    split <;> rfl
  · simp only [list_get_last, hl, ne_eq, not_true_eq_false, if_false]
    split <;> rfl
  · simp only [list_get_next, hl, he, ne_eq, not_true_eq_false, false_or, Bool.false_eq_true,
      if_false, h]
    split <;> rfl
  · simp only [list_get_prev, hl, he, ne_eq, not_true_eq_false, false_or, Bool.false_eq_true,
      if_false, h]
    split <;> rfl

/-! ## `LIST_FOREACH_FORWARD` and `LIST_FOREACH_BACKWARD` -/

/-- The cursor-less loop along a link field `f`, started with the internal
scan cursor on the first node of a chain of data-carrying nodes that ends on a
node `b` without data: the variable takes the data of the chain in order, and
the loop ends with the internal scan cursor on `b`. -/
theorem foreach_loop_chain {α : Type} (m : Mem α) (f : Nat → Nat) (b : Nat) :
    ∀ (ps : List Nat) (xs : List α) (a fuel : Nat) (l : ListT),
      nextPath f a ps b → ps.map m.data = xs.map some → m.data b = none →
      ps.length < fuel →
      LIST_FOREACH_loop (fun l => (m.data (f l.iterator), { l with iterator := f l.iterator }))
        fuel (m.data (f a)) { l with iterator := f a }
        = some (xs, { l with iterator := b })
  | [], [], a, fuel, l, hp, _, hb, hf => by
    obtain ⟨n, rfl⟩ : ∃ n, fuel = n + 1 := ⟨fuel - 1, by simp at hf; omega⟩
    simp only [nextPath] at hp
    simp [LIST_FOREACH_loop, hp, hb]
  | [], _ :: _, _, _, _, _, hd, _, _ => by simp at hd
  | _ :: _, [], _, _, _, _, hd, _, _ => by simp at hd
  | q :: ps, y :: xs, a, fuel, l, hp, hd, hb, hf => by
    obtain ⟨n, rfl⟩ : ∃ n, fuel = n + 1 := ⟨fuel - 1, by simp at hf; omega⟩
    simp only [nextPath, List.map_cons, List.cons.injEq] at hp hd
    have ih := foreach_loop_chain m f b ps xs q n l hp.2 hd.2 hb (by simpa using hf)
    rw [hp.1, hd.1]
    simp only [LIST_FOREACH_loop]
    rw [ih]

/-- `LIST_FOREACH_FORWARD` and `LIST_FOREACH_BACKWARD` on a ring. -/
theorem foreach_of_ring {α : Type} {m : Mem α} {l : ListT} {ps : List Nat} {xs : List α}
    (hr : Ring m l.head ps xs) {fuel : Nat} (hf : xs.length < fuel) :
    LIST_FOREACH_FORWARD fuel m l = some (xs, { l with iterator := l.head }) ∧
    LIST_FOREACH_BACKWARD fuel m l = some (xs.reverse, { l with iterator := l.head }) := by
  have hlen := fwdRing_length_eq hr.toFwdRing
  constructor
  · exact foreach_loop_chain m m.next l.head ps xs l.head fuel l hr.next hr.data hr.sentinel
      (by omega)
  · exact foreach_loop_chain m m.prev l.head ps.reverse xs.reverse l.head fuel l hr.prev
      (by rw [List.map_reverse, List.map_reverse, hr.data]) hr.sentinel (by simp; omega)

/-- C25. On a well-formed list with forward contents `xs`, the loop
`LIST_FOREACH_FORWARD` (with fuel above the size) ends, and the values its
variable takes are exactly the elements of `xs` in order, each once; the loop
ends with the internal scan cursor on the sentinel. On an empty list it yields
nothing. -/
theorem list_foreach_forward_contents {α : Type} (m : Mem α) (l : ListT) (xs : List α)
    (fuel : Nat) (hwf : WellFormed m l xs) (hf : list_get_size l < fuel) :
    LIST_FOREACH_FORWARD fuel m l = some (xs, { l with iterator := l.head }) ∧
    (list_empty l = true →
      LIST_FOREACH_FORWARD fuel m l = some ([], { l with iterator := l.head })) := by
  obtain ⟨hs, ps, hr⟩ := hwf
  simp only [list_get_size] at hf
  have h1 := (foreach_of_ring hr (show xs.length < fuel by omega)).1
  refine ⟨h1, fun he => ?_⟩
  have : xs = [] := by
    simp only [list_empty, list_get_size, beq_iff_eq] at he
    exact List.length_eq_zero.1 (by omega)
  rw [h1, this]

/-- Instance of C25 on the list `[10, 20]`. -/
theorem list_foreach_forward_contents_witness :
    WellFormed exampleMem exampleList [10, 20] ∧ list_get_size exampleList < 3 ∧
    LIST_FOREACH_FORWARD 3 exampleMem exampleList
      = some ([10, 20], { exampleList with iterator := exampleList.head }) ∧
    (list_empty exampleList = true →
      LIST_FOREACH_FORWARD 3 exampleMem exampleList
        = some ([], { exampleList with iterator := exampleList.head })) :=
  ⟨exampleList_wellFormed, by decide,
    list_foreach_forward_contents exampleMem exampleList [10, 20] 3 exampleList_wellFormed
      (by decide)⟩

/-- `list_push_after` when the copy fails: `LIST_NO_MEM`, the list struct as
it was, and no cell allocated before the call is written. -/
theorem list_push_after_fail {α : Type} (copy : α → Option α) (m : Mem α) (l : ListT)
    (it : Iter) (v : α) (hl : it.list = l.id) (he : it.end_edge = false) (hb : m.brk ≠ 0)
    (hc : copy v = none) :
    ∃ m', list_push_after copy m l (some it) (some v) = (LIST_NO_MEM, m', l) ∧
      Frame m m' [] ∧ m'.brk = m.brk + 1 := by
  refine ⟨{ data := upd m.data m.brk none, next := upd m.next m.brk 0,
            prev := upd m.prev m.brk 0, brk := m.brk + 1 }, ?_, ⟨Nat.le_succ _, ?_⟩, rfl⟩
  · simp [list_push_after, hl, he, node_create, node_set, hb, hc, Mem.setData,
      NodeStatus_to_ListStatus]
  · intro x hx _
    have : x ≠ m.brk := by omega
    simp [upd_apply, this]

/-- `list_push_before` when the copy fails: `LIST_NO_MEM`, the list struct as
it was, and no cell allocated before the call is written. -/
theorem list_push_before_fail {α : Type} (copy : α → Option α) (m : Mem α) (l : ListT)
    (it : Iter) (v : α) (hl : it.list = l.id) (he : it.start_edge = false) (hb : m.brk ≠ 0)
    (hc : copy v = none) :
    ∃ m', list_push_before copy m l (some it) (some v) = (LIST_NO_MEM, m', l) ∧
      Frame m m' [] ∧ m'.brk = m.brk + 1 := by
  refine ⟨{ data := upd m.data m.brk none, next := upd m.next m.brk 0,
            prev := upd m.prev m.brk 0, brk := m.brk + 1 }, ?_, ⟨Nat.le_succ _, ?_⟩, rfl⟩
  · simp [list_push_before, hl, he, node_create, node_set, hb, hc, Mem.setData,
      NodeStatus_to_ListStatus]
  · intro x hx _
    have : x ≠ m.brk := by omega
    simp [upd_apply, this]

/-- `list_push_front` when the copy fails. -/
theorem list_push_front_fail {α : Type} (copy : α → Option α) (m : Mem α) (l : ListT)
    (v : α) (hb : m.brk ≠ 0) (hc : copy v = none) :
    ∃ m', list_push_front copy m l (some v) = (LIST_NO_MEM, m', l) ∧ Frame m m' [] ∧
      m'.brk = m.brk + 1 := by
  have := list_push_after_fail copy m l
    { list := l.id, node := l.head, end_edge := false,
      start_edge := if l.size = 0 then true else false } v rfl rfl hb hc
  simpa [list_push_front, list_iterator_create] using this

/-- Whatever its data argument and whether the copy succeeds or not, a
`list_push_front` or `list_push_back` leaves a well-formed list well-formed. -/
theorem push_wellFormed {α : Type} (copy : α → Option α) {m : Mem α} {l : ListT}
    {xs : List α} (hwf : WellFormed m l xs) (data : Option α) :
    (∃ xs', WellFormed (list_push_front copy m l data).2.1
      (list_push_front copy m l data).2.2 xs') ∧
    (∃ xs', WellFormed (list_push_back copy m l data).2.1
      (list_push_back copy m l data).2.2 xs') := by
  obtain ⟨hs, ps, hr⟩ := hwf
  have hb0 : m.brk ≠ 0 := by
    have := hr.alloc l.head (List.mem_cons_self _ _); omega
  cases data with
  | none => exact ⟨⟨xs, hs, ps, hr⟩, ⟨xs, hs, ps, hr⟩⟩
  | some v =>
    cases hc : copy v with
    | none =>
      obtain ⟨m1, h1, hf1, -⟩ := list_push_front_fail copy m l v hb0 hc
      obtain ⟨m2, h2, hf2, -⟩ := list_push_back_fail copy m l v hb0 hc
      rw [h1, h2]
      exact ⟨⟨xs, hs, ps, ring_of_frame hr hf1 (fun _ _ => by simp)⟩,
        ⟨xs, hs, ps, ring_of_frame hr hf2 (fun _ _ => by simp)⟩⟩
    | some v' =>
      obtain ⟨m1, h1, hr1, -⟩ := list_push_front_ring copy v v' hr hc
      obtain ⟨m2, h2, hr2, -⟩ := list_push_back_ring copy v v' hr hc
      rw [h1, h2]
      exact ⟨⟨v' :: xs, by simp [hs], _, hr1⟩, ⟨xs ++ [v'], by simp [hs], _, hr2⟩⟩

/-- A list built from `list_create` by `list_push_front` and `list_push_back`
is well-formed. -/
theorem build_wellFormed {α : Type} (copy : α → Option α) (m : Mem α)
    (pushes : List (Push α)) :
    ∃ xs, WellFormed (build copy m pushes).1 (build copy m pushes).2 xs := by
  have hgen : ∀ (pushes : List (Push α)) (s : Mem α × ListT),
      (∃ xs, WellFormed s.1 s.2 xs) →
      ∃ xs, WellFormed
        (pushes.foldl
          (fun s p =>
            if p.front then
              ((list_push_front copy s.1 s.2 p.data).2.1,
                (list_push_front copy s.1 s.2 p.data).2.2)
            else
              ((list_push_back copy s.1 s.2 p.data).2.1,
                (list_push_back copy s.1 s.2 p.data).2.2)) s).1
        (pushes.foldl
          (fun s p =>
            if p.front then
              ((list_push_front copy s.1 s.2 p.data).2.1,
                (list_push_front copy s.1 s.2 p.data).2.2)
            else
              ((list_push_back copy s.1 s.2 p.data).2.1,
                (list_push_back copy s.1 s.2 p.data).2.2)) s).2 xs := by
    intro pushes
    induction pushes with
    | nil => intro s h; simpa using h
    | cons p rest ih =>
      intro s ⟨xs, hwf⟩
      rw [List.foldl_cons]
      apply ih
      obtain ⟨h1, h2⟩ := push_wellFormed copy hwf p.data
      cases hp : p.front
      · simpa [hp] using h2
      · simpa [hp] using h1
  apply hgen
  obtain ⟨he, hr, -, -⟩ := list_create_ring m
  refine ⟨[], ?_, [], ?_⟩
  · rw [he]; rfl
  · rw [he]; exact hr

/-- C26. For every list built from `list_create` by any sequence of
`list_push_front` and `list_push_back` calls (whatever their data argument and
whether the copy succeeds or not), both traversal loops end (with fuel above
the size), and `LIST_FOREACH_BACKWARD` yields exactly the reverse of the
sequence `LIST_FOREACH_FORWARD` yields. -/
theorem list_foreach_backward_reverse {α : Type} (copy : α → Option α) (m : Mem α)
    (pushes : List (Push α)) (fuel : Nat)
    (hf : list_get_size (build copy m pushes).2 < fuel) :
    ∃ xs l1 l2,
      LIST_FOREACH_FORWARD fuel (build copy m pushes).1 (build copy m pushes).2
        = some (xs, l1) ∧
      LIST_FOREACH_BACKWARD fuel (build copy m pushes).1 (build copy m pushes).2
        = some (xs.reverse, l2) ∧
      xs.length = list_get_size (build copy m pushes).2 := by
  obtain ⟨xs, hs, ps, hr⟩ := build_wellFormed copy m pushes
  simp only [list_get_size] at hf ⊢
  obtain ⟨h1, h2⟩ := foreach_of_ring hr (show xs.length < fuel by omega)
  exact ⟨xs, _, _, h1, h2, hs.symm⟩

/-- Instance of C26: `list_push_back 10`, `list_push_front 5`, a push of NULL,
`list_push_back 20` on a new list. -/
theorem list_foreach_backward_reverse_witness :
    list_get_size (build int_copy (Mem.empty Int)
      [⟨false, some 10⟩, ⟨true, some 5⟩, ⟨true, none⟩, ⟨false, some 20⟩]).2 < 4 ∧
    ∃ xs l1 l2,
      LIST_FOREACH_FORWARD 4
          (build int_copy (Mem.empty Int)
            [⟨false, some 10⟩, ⟨true, some 5⟩, ⟨true, none⟩, ⟨false, some 20⟩]).1
          (build int_copy (Mem.empty Int)
            [⟨false, some 10⟩, ⟨true, some 5⟩, ⟨true, none⟩, ⟨false, some 20⟩]).2
        = some (xs, l1) ∧
      LIST_FOREACH_BACKWARD 4
          (build int_copy (Mem.empty Int)
            [⟨false, some 10⟩, ⟨true, some 5⟩, ⟨true, none⟩, ⟨false, some 20⟩]).1
          (build int_copy (Mem.empty Int)
            [⟨false, some 10⟩, ⟨true, some 5⟩, ⟨true, none⟩, ⟨false, some 20⟩]).2
        = some (xs.reverse, l2) ∧
      xs.length = list_get_size (build int_copy (Mem.empty Int)
        [⟨false, some 10⟩, ⟨true, some 5⟩, ⟨true, none⟩, ⟨false, some 20⟩]).2 :=
  ⟨by decide,
    list_foreach_backward_reverse int_copy (Mem.empty Int)
      [⟨false, some 10⟩, ⟨true, some 5⟩, ⟨true, none⟩, ⟨false, some 20⟩] 4 (by decide)⟩

/-- The list of the instance above reads `[5, 10, 20]` forward and
`[20, 10, 5]` backward. -/
theorem list_foreach_example :
    (LIST_FOREACH_FORWARD 4
        (build int_copy (Mem.empty Int)
          [⟨false, some 10⟩, ⟨true, some 5⟩, ⟨true, none⟩, ⟨false, some 20⟩]).1
        (build int_copy (Mem.empty Int)
          [⟨false, some 10⟩, ⟨true, some 5⟩, ⟨true, none⟩, ⟨false, some 20⟩]).2).map
      (fun r => r.1) = some [5, 10, 20] ∧
    (LIST_FOREACH_BACKWARD 4
        (build int_copy (Mem.empty Int)
          [⟨false, some 10⟩, ⟨true, some 5⟩, ⟨true, none⟩, ⟨false, some 20⟩]).1
        (build int_copy (Mem.empty Int)
          [⟨false, some 10⟩, ⟨true, some 5⟩, ⟨true, none⟩, ⟨false, some 20⟩]).2).map
      (fun r => r.1) = some [20, 10, 5] := by
  constructor <;> decide

/-! ## Loops over a cursor -/

/-- The loop `read; list_iterator_next` entered with the cursor on the node `p`
(after-end flag clear) that starts a chain of data-carrying nodes ending on
the sentinel: the values read are the data of the chain, and the loop ends
with the cursor on the sentinel, after-end flag set, before-start flag clear. -/
theorem iterator_loop_next_chain {α : Type} (m : Mem α) (l : ListT) :
    ∀ (ps : List Nat) (xs : List α) (p : Nat) (x : α) (fuel : Nat) (it : Iter),
      nextPath m.next p ps l.head → m.data p = some x → ps.map m.data = xs.map some →
      (∀ q ∈ ps, q ≠ l.head) → it.node = p → it.end_edge = false → ps.length + 1 < fuel →
      iterator_loop m (list_iterator_next m l) fuel LIST_ITERATOR_SUCCESS (some it)
        = some ((x :: xs).map some,
            some { list := it.list, node := l.head, end_edge := true, start_edge := false })
  | [], [], p, x, fuel, it, hp, hx, _, _, hn, he, hf => by
    obtain ⟨n, rfl⟩ : ∃ n, fuel = n + 2 := ⟨fuel - 2, by simp at hf; omega⟩
    simp only [nextPath] at hp
    simp [iterator_loop, list_iterator_next, list_iterator_get, he, hn, hp, hx]
  | [], _ :: _, _, _, _, _, _, _, hd, _, _, _, _ => by simp at hd
  | _ :: _, [], _, _, _, _, _, _, hd, _, _, _, _ => by simp at hd
  | q :: ps, y :: xs, p, x, fuel, it, hp, hx, hd, hne, hn, he, hf => by
    obtain ⟨n, rfl⟩ : ∃ n, fuel = n + 1 := ⟨fuel - 1, by omega⟩
    simp only [nextPath, List.map_cons, List.cons.injEq] at hp hd
    have hq : q ≠ l.head := hne q (List.mem_cons_self _ _)
    have ih := iterator_loop_next_chain m l ps xs q y n
      { list := it.list, node := q, end_edge := false, start_edge := false } hp.2 hd.1 hd.2
      (fun z hz => hne z (List.mem_cons_of_mem _ hz)) rfl rfl (by simpa using hf)
    have hstep : list_iterator_next m l (some it)
        = (LIST_ITERATOR_SUCCESS,
            some { list := it.list, node := q, end_edge := false, start_edge := false }) := by
      simp [list_iterator_next, he, hn, hp.1, hq]
    rw [iterator_loop]
    simp only [reduceCtorEq, if_false, hstep, ih]
    simp [list_iterator_get, hn, hx]

/-- The loop `read; list_iterator_prev` entered with the cursor on the node `p`
(before-start flag clear) that starts a chain of data-carrying nodes along
`prev` ending on the sentinel: the values read are the data of the chain, and
the loop ends with the cursor on the sentinel, before-start flag set,
after-end flag clear. -/
theorem iterator_loop_prev_chain {α : Type} (m : Mem α) (l : ListT) :
    ∀ (ps : List Nat) (xs : List α) (p : Nat) (x : α) (fuel : Nat) (it : Iter),
      nextPath m.prev p ps l.head → m.data p = some x → ps.map m.data = xs.map some →
      (∀ q ∈ ps, q ≠ l.head) → it.node = p → it.start_edge = false → ps.length + 1 < fuel →
      iterator_loop m (list_iterator_prev m l) fuel LIST_ITERATOR_SUCCESS (some it)
        = some ((x :: xs).map some,
            some { list := it.list, node := l.head, end_edge := false, start_edge := true })
  | [], [], p, x, fuel, it, hp, hx, _, _, hn, he, hf => by
    obtain ⟨n, rfl⟩ : ∃ n, fuel = n + 2 := ⟨fuel - 2, by simp at hf; omega⟩
    simp only [nextPath] at hp
    simp [iterator_loop, list_iterator_prev, list_iterator_get, he, hn, hp, hx]
  | [], _ :: _, _, _, _, _, _, _, hd, _, _, _, _ => by simp at hd
  | _ :: _, [], _, _, _, _, _, _, hd, _, _, _, _ => by simp at hd
  | q :: ps, y :: xs, p, x, fuel, it, hp, hx, hd, hne, hn, he, hf => by
    obtain ⟨n, rfl⟩ : ∃ n, fuel = n + 1 := ⟨fuel - 1, by omega⟩
    simp only [nextPath, List.map_cons, List.cons.injEq] at hp hd
    have hq : q ≠ l.head := hne q (List.mem_cons_self _ _)
    have ih := iterator_loop_prev_chain m l ps xs q y n
      { list := it.list, node := q, end_edge := false, start_edge := false } hp.2 hd.1 hd.2
      (fun z hz => hne z (List.mem_cons_of_mem _ hz)) rfl rfl (by simpa using hf)
    have hstep : list_iterator_prev m l (some it)
        = (LIST_ITERATOR_SUCCESS,
            some { list := it.list, node := q, end_edge := false, start_edge := false }) := by
      simp [list_iterator_prev, he, hn, hp.1, hq]
    rw [iterator_loop]
    simp only [reduceCtorEq, if_false, hstep, ih]
    simp [list_iterator_get, hn, hx]

/-- The forward and the backward loop over a cursor on a non-empty ring. -/
theorem iterate_of_ring {α : Type} {m : Mem α} {l : ListT} {ps : List Nat} {xs : List α}
    (hr : Ring m l.head ps xs) (hne : xs ≠ []) (it : Iter) {fuel : Nat}
    (hf : xs.length < fuel) :
    iterate_forward fuel m l (some it)
      = some (xs.map some,
          some { list := it.list, node := l.head, end_edge := true, start_edge := false }) ∧
    iterate_backward fuel m l (some it)
      = some (xs.reverse.map some,
          some { list := it.list, node := l.head, end_edge := false, start_edge := true }) := by
  have hlen := fwdRing_length_eq hr.toFwdRing
  have hnd := (List.nodup_cons.1 hr.nodup).1
  have hnh : ∀ q ∈ ps, q ≠ l.head := fun q hq e => hnd (e ▸ hq)
  constructor
  · obtain ⟨x, xs', rfl⟩ := List.exists_cons_of_ne_nil hne
    obtain ⟨p, ps', rfl⟩ : ∃ p ps', ps = p :: ps' := by
      cases ps with
      | nil => simp at hlen
      | cons p ps' => exact ⟨p, ps', rfl⟩
    have hn := hr.next
    have hd := hr.data
    simp only [nextPath, List.map_cons, List.cons.injEq] at hn hd
    have hp : p ≠ l.head := hnh p (List.mem_cons_self _ _)
    have hfirst : list_iterator_first m l (some it)
        = (LIST_ITERATOR_SUCCESS,
            some { list := it.list, node := p, end_edge := false, start_edge := false }) := by
      simp [list_iterator_first, __list_get_first, hn.1, hp]
    simp only [iterate_forward, hfirst]
    exact iterator_loop_next_chain m l ps' xs' p x fuel _ hn.2 hd.1 hd.2
      (fun q hq => hnh q (List.mem_cons_of_mem _ hq)) rfl rfl
      (by simp at hlen hf; omega)
  · obtain ⟨xs', x, rfl⟩ : ∃ xs' x, xs = xs' ++ [x] :=
      ⟨xs.dropLast, xs.getLast hne, (List.dropLast_append_getLast hne).symm⟩
    obtain ⟨ps', p, rfl⟩ : ∃ ps' p, ps = ps' ++ [p] := by
      have hps : ps ≠ [] := by
        intro e; subst e; simp at hlen
      exact ⟨ps.dropLast, ps.getLast hps, (List.dropLast_append_getLast hps).symm⟩
    have hn := hr.prev
    have hd : (ps' ++ [p]).reverse.map m.data = (xs' ++ [x]).reverse.map some := by
      rw [List.map_reverse, List.map_reverse, hr.data]
    simp only [List.reverse_append, List.reverse_singleton, List.singleton_append, nextPath,
      List.map_cons, List.cons.injEq] at hn hd
    have hp : p ≠ l.head := hnh p (by simp)
    have hlast : list_iterator_last m l (some it)
        = (LIST_ITERATOR_SUCCESS,
            some { list := it.list, node := p, end_edge := false, start_edge := false }) := by
      simp [list_iterator_last, __list_get_last, hn.1, hp]
    simp only [iterate_backward, hlast, List.reverse_append, List.reverse_singleton,
      List.singleton_append]
    exact iterator_loop_prev_chain m l ps'.reverse xs'.reverse p x fuel _ hn.2 hd.1 hd.2
      (fun q hq => hnh q (by simp at hq; simp [hq])) rfl rfl
      (by simp at hlen hf ⊢; omega)

/-- C27 (counterexample). On the empty list the loop that starts with
`list_iterator_first` reads nothing and ends at once with the cursor in the
state `list_iterator_first` left: before-start flag set, after-end flag clear,
not AFTER_END; the loop that starts with `list_iterator_last` ends with the
after-end flag set and the before-start flag clear, not BEFORE_START. -/
theorem iterate_empty_counterexample :
    WellFormed emptyMem emptyList ([] : List Int) ∧
    (¬ ∃ it', iterate_forward 1 emptyMem emptyList (some (cursorOn 2))
          = some (([] : List Int).map some, some it') ∧
        it'.end_edge = true ∧ it'.start_edge = false) ∧
    (¬ ∃ it', iterate_backward 1 emptyMem emptyList (some (cursorOn 2))
          = some (([] : List Int).reverse.map some, some it') ∧
        it'.start_edge = true ∧ it'.end_edge = false) := by
  have hf : iterate_forward 1 emptyMem emptyList (some (cursorOn 2))
      = some ([], some { list := 1, node := 2, end_edge := false, start_edge := true }) := by
    decide
  have hl : iterate_backward 1 emptyMem emptyList (some (cursorOn 2))
      = some ([], some { list := 1, node := 2, end_edge := true, start_edge := false }) := by
    decide
  refine ⟨emptyList_wellFormed, ?_, ?_⟩
  · rintro ⟨it', h, h1, -⟩
    rw [hf] at h
    simp only [List.map_nil, Option.some.injEq, Prod.mk.injEq, true_and] at h
    rw [← h] at h1
    exact absurd h1 (by decide)
  · rintro ⟨it', h, h1, -⟩
    rw [hl] at h
    simp only [List.reverse_nil, List.map_nil, Option.some.injEq, Prod.mk.injEq, true_and] at h
    rw [← h] at h1
    exact absurd h1 (by decide)

/-- C27 (amended). On a well-formed list with forward contents `xs`, for every
cursor and fuel above the size:
* if `xs` is not empty, the loop `status = list_iterator_first(it); while status
  != LIST_ITERATOR_END: read list_iterator_get(it); status =
  list_iterator_next(it)` reads exactly `xs` in order and ends with the cursor
  on the sentinel at AFTER_END (after-end flag set, before-start flag clear);
  the loop with `list_iterator_last` / `list_iterator_prev` reads `xs` in
  reverse order and ends at BEFORE_START; and `list_iterator_start` followed by
  `list_iterator_next` returns `LIST_ITERATOR_SUCCESS` with the cursor on the
  first element, both flags clear;
* if `xs` is empty, both loops read nothing, the first ends with the cursor at
  BEFORE_START and the second at AFTER_END, and `list_iterator_start` followed
  by `list_iterator_next` returns `LIST_ITERATOR_END` with the cursor at
  AFTER_END. -/
theorem iterate_loops_contents {α : Type} (m : Mem α) (l : ListT) (xs : List α) (it : Iter)
    (fuel : Nat) (hwf : WellFormed m l xs) (hf : list_get_size l < fuel) :
    (xs ≠ [] →
      iterate_forward fuel m l (some it)
        = some (xs.map some,
            some { list := it.list, node := l.head, end_edge := true, start_edge := false }) ∧
      iterate_backward fuel m l (some it)
        = some (xs.reverse.map some,
            some { list := it.list, node := l.head, end_edge := false, start_edge := true }) ∧
      (list_iterator_start l (some it)).1 = LIST_ITERATOR_SUCCESS ∧
      list_iterator_next m l (list_iterator_start l (some it)).2
        = (LIST_ITERATOR_SUCCESS,
            some { list := it.list, node := node_at m l 0, end_edge := false,
                   start_edge := false }) ∧
      m.data (node_at m l 0) = xs.head? ∧ xs.head?.isSome = true) ∧
    (xs = [] →
      iterate_forward fuel m l (some it)
        = some ([],
            some { list := it.list, node := l.head, end_edge := false, start_edge := true }) ∧
      iterate_backward fuel m l (some it)
        = some ([],
            some { list := it.list, node := l.head, end_edge := true, start_edge := false }) ∧
      (list_iterator_start l (some it)).1 = LIST_ITERATOR_SUCCESS ∧
      list_iterator_next m l (list_iterator_start l (some it)).2
        = (LIST_ITERATOR_END,
            some { list := it.list, node := l.head, end_edge := true,
                   start_edge := false })) := by
  obtain ⟨hs, ps, hr⟩ := hwf
  simp only [list_get_size] at hf
  constructor
  · intro hne
    obtain ⟨h1, h2⟩ := iterate_of_ring hr hne it (show xs.length < fuel by omega)
    obtain ⟨-, -, -, h4, h5, -⟩ := ring_ends hr hne
    have h0 : m.next l.head = node_at m l 0 := rfl
    refine ⟨h1, h2, rfl, ?_, h5, ?_⟩
    · simp [list_iterator_start, list_iterator_next, h0, h4]
    · cases xs with
      | nil => exact absurd rfl hne
      | cons x xs' => rfl
  · rintro rfl
    have hps : ps = [] := by simpa using fwdRing_length_eq hr.toFwdRing
    subst hps
    have h1 : m.next l.head = l.head := by simpa [nextPath] using hr.next
    have h2 : m.prev l.head = l.head := by simpa [nextPath] using hr.prev
    obtain ⟨n, rfl⟩ : ∃ n, fuel = n + 1 := ⟨fuel - 1, by omega⟩
    refine ⟨?_, ?_, rfl, ?_⟩
    · simp [iterate_forward, list_iterator_first, __list_get_first, h1, iterator_loop]
    · simp [iterate_backward, list_iterator_last, __list_get_last, h2, iterator_loop]
    · simp [list_iterator_start, list_iterator_next, h1]

/-- Instance of C27 (amended) on the list `[10, 20]`, with a cursor on its
last node. -/
theorem iterate_loops_contents_witness :
    WellFormed exampleMem exampleList [10, 20] ∧ list_get_size exampleList < 3 ∧
    ([10, 20] : List Int) ≠ [] ∧
    iterate_forward 3 exampleMem exampleList (some (cursorOn 4))
      = some (([10, 20] : List Int).map some,
          some { list := (cursorOn 4).list, node := exampleList.head, end_edge := true,
                 start_edge := false }) ∧
    iterate_backward 3 exampleMem exampleList (some (cursorOn 4))
      = some (([10, 20] : List Int).reverse.map some,
          some { list := (cursorOn 4).list, node := exampleList.head, end_edge := false,
                 start_edge := true }) ∧
    (list_iterator_start exampleList (some (cursorOn 4))).1 = LIST_ITERATOR_SUCCESS ∧
    list_iterator_next exampleMem exampleList
        (list_iterator_start exampleList (some (cursorOn 4))).2
      = (LIST_ITERATOR_SUCCESS,
          some { list := (cursorOn 4).list, node := node_at exampleMem exampleList 0,
                 end_edge := false, start_edge := false }) ∧
    exampleMem.data (node_at exampleMem exampleList 0) = ([10, 20] : List Int).head? ∧
    ([10, 20] : List Int).head?.isSome = true :=
  ⟨exampleList_wellFormed, by decide, by decide,
    (iterate_loops_contents exampleMem exampleList [10, 20] (cursorOn 4) 3
      exampleList_wellFormed (by decide)).1 (by decide)⟩

/-! ## Failed copies and rejected indices -/

/-- `list_push_at` when the copy fails, for `n ≤ size`: `LIST_NO_MEM`, the list
struct as it was, and no cell allocated before the call is written. -/
theorem list_push_at_fail {α : Type} (copy : α → Option α) (m : Mem α) (l : ListT)
    (fuel n : Nat) (v : α) (hn : n ≤ l.size) (hb : m.brk ≠ 0) (hc : copy v = none) :
    ∃ m', list_push_at fuel copy m l n (some v) = some (LIST_NO_MEM, m', l) ∧
      Frame m m' [] := by
  by_cases hn0 : n = 0
  · obtain ⟨m', he, hfr, -⟩ := list_push_front_fail copy m l v hb hc
    exact ⟨m', by simp [list_push_at, hn0, he], hfr⟩
  · refine ⟨{ data := upd m.data m.brk none, next := upd m.next m.brk 0,
              prev := upd m.prev m.brk 0, brk := m.brk + 1 }, ?_, Nat.le_succ _, ?_⟩
    · simp [list_push_at, hn0, not_lt.2 hn, node_create, node_set, hb, hc, Mem.setData,
        NodeStatus_to_ListStatus]
    · intro x hx _
      have : x ≠ m.brk := by omega
      simp [upd_apply, this]

/-- C28. On a well-formed list with forward contents `xs`, for a value `v` on
which the copy callback fails (`copy v = none`), each of `list_push_front`,
`list_push_back`, `list_push_after` (cursor bound to the list, not after-end),
`list_push_before` (cursor bound to the list, not before-start) and
`list_push_at` (index `n ≤ size`, any fuel) returns `LIST_NO_MEM`; the list
struct is the same, every cell allocated before the call has its old data,
`next` and `prev`, and the list is well-formed with forward contents `xs` and
backward contents `xs.reverse` as before. -/
theorem list_push_copy_failure {α : Type} (copy : α → Option α) (m : Mem α) (l : ListT)
    (xs : List α) (v : α) (itA itB : Iter) (n fuel : Nat) (hwf : WellFormed m l xs)
    (hc : copy v = none) (hlA : itA.list = l.id) (heA : itA.end_edge = false)
    (hlB : itB.list = l.id) (heB : itB.start_edge = false) (hn : n ≤ list_get_size l) :
    (∀ r ∈ [list_push_front copy m l (some v), list_push_back copy m l (some v),
        list_push_after copy m l (some itA) (some v),
        list_push_before copy m l (some itB) (some v)],
      r.1 = LIST_NO_MEM ∧ r.2.2 = l ∧ Frame m r.2.1 [] ∧ WellFormed r.2.1 l xs ∧
      ∀ fuel', list_get_size l < fuel' →
        forward fuel' r.2.1 l = some xs ∧ backward fuel' r.2.1 l = some xs.reverse) ∧
    ∃ r, list_push_at fuel copy m l n (some v) = some r ∧
      r.1 = LIST_NO_MEM ∧ r.2.2 = l ∧ Frame m r.2.1 [] ∧ WellFormed r.2.1 l xs ∧
      ∀ fuel', list_get_size l < fuel' →
        forward fuel' r.2.1 l = some xs ∧ backward fuel' r.2.1 l = some xs.reverse := by
  obtain ⟨hs, ps, hr⟩ := hwf
  have hb0 : m.brk ≠ 0 := by
    have := hr.alloc l.head (List.mem_cons_self _ _); omega
  have key : ∀ (r : ListStatus × Mem α × ListT) (m' : Mem α),
      r = (LIST_NO_MEM, m', l) → Frame m m' [] →
      r.1 = LIST_NO_MEM ∧ r.2.2 = l ∧ Frame m r.2.1 [] ∧ WellFormed r.2.1 l xs ∧
      ∀ fuel', list_get_size l < fuel' →
        forward fuel' r.2.1 l = some xs ∧ backward fuel' r.2.1 l = some xs.reverse := by
    rintro r m' rfl hfr
    have hwf' : WellFormed m' l xs := ⟨hs, ps, ring_of_frame hr hfr (fun _ _ => by simp)⟩
    exact ⟨rfl, rfl, hfr, hwf', fun fuel' h =>
      ⟨forward_of_wellFormed hwf' h, backward_of_wellFormed hwf' h⟩⟩
  obtain ⟨m1, h1, f1, -⟩ := list_push_front_fail copy m l v hb0 hc
  obtain ⟨m2, h2, f2, -⟩ := list_push_back_fail copy m l v hb0 hc
  obtain ⟨m3, h3, f3, -⟩ := list_push_after_fail copy m l itA v hlA heA hb0 hc
  obtain ⟨m4, h4, f4, -⟩ := list_push_before_fail copy m l itB v hlB heB hb0 hc
  obtain ⟨m5, h5, f5⟩ := list_push_at_fail copy m l fuel n v hn hb0 hc
  refine ⟨fun r hr' => ?_, _, h5, key _ m5 rfl f5⟩
  simp only [List.mem_cons, List.mem_singleton, List.not_mem_nil, or_false] at hr'
  rcases hr' with rfl | rfl | rfl | rfl
  · exact key _ m1 h1 f1
  · exact key _ m2 h2 f2
  · exact key _ m3 h3 f3
  · exact key _ m4 h4 f4

/-- Instance of C28: pushing `20`, on which `failing_copy` fails, on the list
`[10, 20]`, with a cursor on its first node and index 1. -/
theorem list_push_copy_failure_witness :
    WellFormed exampleMem exampleList [10, 20] ∧ failing_copy 20 = none ∧
    (cursorOn 3).list = exampleList.id ∧ (cursorOn 3).end_edge = false ∧
    (cursorOn 3).start_edge = false ∧ 1 ≤ list_get_size exampleList ∧
    (∀ r ∈ [list_push_front failing_copy exampleMem exampleList (some 20),
        list_push_back failing_copy exampleMem exampleList (some 20),
        list_push_after failing_copy exampleMem exampleList (some (cursorOn 3)) (some 20),
        list_push_before failing_copy exampleMem exampleList (some (cursorOn 3)) (some 20)],
      r.1 = LIST_NO_MEM ∧ r.2.2 = exampleList ∧ Frame exampleMem r.2.1 [] ∧
      WellFormed r.2.1 exampleList [10, 20] ∧
      ∀ fuel', list_get_size exampleList < fuel' →
        forward fuel' r.2.1 exampleList = some [10, 20] ∧
        backward fuel' r.2.1 exampleList = some ([10, 20] : List Int).reverse) ∧
    ∃ r, list_push_at 3 failing_copy exampleMem exampleList 1 (some 20) = some r ∧
      r.1 = LIST_NO_MEM ∧ r.2.2 = exampleList ∧ Frame exampleMem r.2.1 [] ∧
      WellFormed r.2.1 exampleList [10, 20] ∧
      ∀ fuel', list_get_size exampleList < fuel' →
        forward fuel' r.2.1 exampleList = some [10, 20] ∧
        backward fuel' r.2.1 exampleList = some ([10, 20] : List Int).reverse :=
  ⟨exampleList_wellFormed, by decide, by decide, rfl, rfl, by decide,
    list_push_copy_failure failing_copy exampleMem exampleList [10, 20] 20 (cursorOn 3)
      (cursorOn 3) 1 3 exampleList_wellFormed (by decide) (by decide) rfl (by decide) rfl
      (by decide)⟩

/-- C29. For every heap, list struct, fuel, copy callback and data argument,
`list_push_at` with `n > size` and `list_remove_at` with `n ≥ size` return
`LIST_EINVAL` and leave the heap (contents and links) and the list struct
(size included) as they were. -/
theorem list_index_out_of_range {α : Type} (copy : α → Option α) (m : Mem α) (l : ListT)
    (fuel : Nat) (data : Option α) :
    (∀ n, list_get_size l < n →
      list_push_at fuel copy m l n data = some (LIST_EINVAL, m, l)) ∧
    (∀ n, list_get_size l ≤ n → list_remove_at fuel m l n = some (LIST_EINVAL, m, l)) := by
  constructor
  · intro n hn
    simp only [list_get_size] at hn
    have hn0 : n ≠ 0 := by omega
    cases data with
    | none => simp [list_push_at, hn0]
    | some v => simp [list_push_at, hn0, hn]
  · intro n hn
    simp only [list_get_size] at hn
    simp [list_remove_at, hn]

/-- Instance of C29 on the list `[10, 20]`: `list_push_at` with index 3 and
`list_remove_at` with index 2. -/
theorem list_index_out_of_range_witness :
    list_get_size exampleList < 3 ∧
    list_push_at 3 int_copy exampleMem exampleList 3 (some 7)
      = some (LIST_EINVAL, exampleMem, exampleList) ∧
    list_get_size exampleList ≤ 2 ∧
    list_remove_at 3 exampleMem exampleList 2 = some (LIST_EINVAL, exampleMem, exampleList) :=
  ⟨by decide,
    (list_index_out_of_range int_copy exampleMem exampleList 3 (some 7)).1 3 (by decide),
    by decide,
    (list_index_out_of_range int_copy exampleMem exampleList 3 (some 7)).2 2 (by decide)⟩

/-! ## `list_clear` -/

/-- C30. On a well-formed list, `list_clear` (with fuel above the size) returns
and leaves the empty-ring state: size 0, `list_empty` true, the sentinel's
`next` and `prev` pointing to the sentinel, the internal scan cursor on the
sentinel, the list well-formed with no contents, forward and backward
traversal empty. It is idempotent: `list_clear` on the state it leaves (any
fuel but zero) returns the same heap and the same list struct. -/
theorem list_clear_empty_ring {α : Type} (m : Mem α) (l : ListT) (xs : List α) (fuel : Nat)
    (hwf : WellFormed m l xs) (hf : list_get_size l < fuel) :
    ∃ m' l', list_clear fuel m l = some (m', l') ∧
      list_get_size l' = 0 ∧ list_empty l' = true ∧ l'.head = l.head ∧ l'.id = l.id ∧
      m'.next l'.head = l'.head ∧ m'.prev l'.head = l'.head ∧ l'.iterator = l'.head ∧
      WellFormed m' l' [] ∧
      (∀ fuel', 0 < fuel' → forward fuel' m' l' = some [] ∧ backward fuel' m' l' = some []) ∧
      (∀ fuel', 0 < fuel' → list_clear fuel' m' l' = some (m', l')) := by
  obtain ⟨hs, ps, hr⟩ := hwf
  simp only [list_get_size] at hf
  obtain ⟨he, hr', -⟩ := list_clear_ring fuel hr.toFwdRing (show xs.length < fuel by omega)
  have hwf' : WellFormed
      { m with next := upd m.next l.head l.head, prev := upd m.prev l.head l.head }
      { l with size := 0, iterator := l.head } ([] : List α) := ⟨rfl, [], hr'⟩
  refine ⟨_, _, he, rfl, rfl, rfl, rfl, by simp, by simp, rfl, hwf', fun fuel' h =>
    ⟨forward_of_wellFormed hwf' h, backward_of_wellFormed hwf' h⟩, fun fuel' h => ?_⟩
  obtain ⟨he2, -, -⟩ := list_clear_ring (l := { l with size := 0, iterator := l.head }) fuel'
    hr'.toFwdRing (show ([] : List α).length < fuel' from h)
  rw [he2]
  simp only [upd_upd_same]

/-- Instance of C30: clearing the list `[10, 20]`. -/
theorem list_clear_empty_ring_witness :
    WellFormed exampleMem exampleList [10, 20] ∧ list_get_size exampleList < 3 ∧
    ∃ m' l', list_clear 3 exampleMem exampleList = some (m', l') ∧
      list_get_size l' = 0 ∧ list_empty l' = true ∧ l'.head = exampleList.head ∧
      l'.id = exampleList.id ∧
      m'.next l'.head = l'.head ∧ m'.prev l'.head = l'.head ∧ l'.iterator = l'.head ∧
      WellFormed m' l' [] ∧
      (∀ fuel', 0 < fuel' → forward fuel' m' l' = some [] ∧ backward fuel' m' l' = some []) ∧
      (∀ fuel', 0 < fuel' → list_clear fuel' m' l' = some (m', l')) :=
  ⟨exampleList_wellFormed, by decide,
    list_clear_empty_ring exampleMem exampleList [10, 20] 3 exampleList_wellFormed
      (by decide)⟩

/-! ## `list_iterator_equal` and `list_iterator_copy` -/

/-- C31. For all cursor structs `ia`, `ib`, every list `l` and every cursor
`a` allocated in the cursor store `cs` with fields `ia`:
* `list_iterator_equal` on `ia`, `ib` is true exactly when they reference the
  same node and agree on the before-start flag and on the after-end flag;
* the cursor `list_iterator_start` parks and the cursor `list_iterator_end`
  parks on the same list are not equal;
* `list_iterator_copy(a)` returns a cursor `b` that is not NULL and is another
  struct than `a`, with the fields of `a`, so `b` is equal to `a`, and `a` has
  the fields it had;
* whatever cursor function is then called on `b` (the six `list_iterator_*`
  movers, the positional getters, or any other), `a` keeps its fields, while
  `b` gets the fields the function assigns. -/
theorem list_iterator_equal_copy (l : ListT) (cs : Cursors) (a : Nat) (ia ib : Iter)
    (ha : a ≠ 0) (hlt : a < cs.brk) (hia : cs.deref a = some ia) :
    (list_iterator_equal ia ib = true ↔
      ia.node = ib.node ∧ ia.start_edge = ib.start_edge ∧ ia.end_edge = ib.end_edge) ∧
    ((list_iterator_start l (some ia)).2.bind (fun c =>
      (list_iterator_end l (some ib)).2.map (fun d => list_iterator_equal c d)))
      = some false ∧
    ∃ b cs1, list_iterator_copy cs a = (b, cs1) ∧ b ≠ 0 ∧ b ≠ a ∧
      cs1.deref a = some ia ∧ cs1.deref b = some ia ∧ list_iterator_equal ia ia = true ∧
      ∀ (β : Type) (f : Option Iter → β × Option Iter),
        (cs1.call b f).2.deref a = some ia ∧
        (∀ ib', (f (some ia)).2 = some ib' → (cs1.call b f).2.deref b = some ib') := by
  have hb0 : cs.brk ≠ 0 := by omega
  have hba : cs.brk ≠ a := by omega
  have hcell : cs.cell a = some ia := by simpa [Cursors.deref, ha] using hia
  refine ⟨?_, ?_, cs.brk, { cell := upd cs.cell cs.brk (some ia), brk := cs.brk + 1 }, ?_, hb0,
    hba, ?_, ?_, ?_, ?_⟩
  · unfold list_iterator_equal
    by_cases h : ia.node = ib.node
    · simp [h]
    · simp [h]
  · simp [list_iterator_start, list_iterator_end, list_iterator_equal]
  · simp [list_iterator_copy, hia, Cursors.alloc]
  · simp [Cursors.deref, ha, upd_apply, hba.symm, hcell]
  · simp [Cursors.deref, hb0]
  · simp [list_iterator_equal]
  · intro β f
    have hd : Cursors.deref { cell := upd cs.cell cs.brk (some ia), brk := cs.brk + 1 } cs.brk
        = some ia := by simp [Cursors.deref, hb0]
    constructor
    · simp only [Cursors.call, hd]
      cases h : (f (some ia)).2 with
      | none => simp [Cursors.deref, ha, upd_apply, hba.symm, hcell]
      | some it => simp [Cursors.deref, ha, upd_apply, hba.symm, hcell]
    · intro ib' h
      simp [Cursors.call, hd, h, Cursors.deref, hb0]

/-- Instance of C31: the cursor at address 1, on the first element of the list
`[10, 20]`, in a store with no other cursor. -/
theorem list_iterator_equal_copy_witness :
    (1 : Nat) ≠ 0 ∧ 1 < (Cursors.empty.alloc (cursorOn 3)).2.brk ∧
    (Cursors.empty.alloc (cursorOn 3)).2.deref 1 = some (cursorOn 3) ∧
    (list_iterator_equal (cursorOn 3) (cursorOn 4) = true ↔
      (cursorOn 3).node = (cursorOn 4).node ∧
      (cursorOn 3).start_edge = (cursorOn 4).start_edge ∧
      (cursorOn 3).end_edge = (cursorOn 4).end_edge) ∧
    ((list_iterator_start exampleList (some (cursorOn 3))).2.bind (fun c =>
      (list_iterator_end exampleList (some (cursorOn 4))).2.map (fun d =>
        list_iterator_equal c d))) = some false ∧
    ∃ b cs1, list_iterator_copy (Cursors.empty.alloc (cursorOn 3)).2 1 = (b, cs1) ∧
      b ≠ 0 ∧ b ≠ 1 ∧
      cs1.deref 1 = some (cursorOn 3) ∧ cs1.deref b = some (cursorOn 3) ∧
      list_iterator_equal (cursorOn 3) (cursorOn 3) = true ∧
      ∀ (β : Type) (f : Option Iter → β × Option Iter),
        (cs1.call b f).2.deref 1 = some (cursorOn 3) ∧
        (∀ ib', (f (some (cursorOn 3))).2 = some ib' →
          (cs1.call b f).2.deref b = some ib') :=
  ⟨by decide, by decide, by decide,
    list_iterator_equal_copy exampleList (Cursors.empty.alloc (cursorOn 3)).2 1 (cursorOn 3)
      (cursorOn 4) (by decide) (by decide) (by decide)⟩

/-- The range loop of the test on the list `[10, 20]`: `begin` is the cursor
`list_iterator_create` returns, moved by `list_iterator_next` (onto `20`),
`it` is `list_iterator_copy(begin)`. The two are different structs and equal;
after `list_iterator_next(it)` the copy is at AFTER_END, `begin` is still on
`20`, and the two are no longer equal. -/
theorem list_iterator_copy_example :
    ((Cursors.empty.alloc (list_iterator_create exampleMem exampleList)).2.call 1
      (list_iterator_next exampleMem exampleList)).2.deref 1 = some (cursorOn 4) ∧
    (list_iterator_copy ((Cursors.empty.alloc (list_iterator_create exampleMem exampleList)).2.call
      1 (list_iterator_next exampleMem exampleList)).2 1).1 = 2 ∧
    (list_iterator_copy ((Cursors.empty.alloc (list_iterator_create exampleMem exampleList)).2.call
      1 (list_iterator_next exampleMem exampleList)).2 1).2.deref 2 = some (cursorOn 4) ∧
    list_iterator_equal (cursorOn 4) (cursorOn 4) = true ∧
    (((list_iterator_copy
        ((Cursors.empty.alloc (list_iterator_create exampleMem exampleList)).2.call
          1 (list_iterator_next exampleMem exampleList)).2 1).2.call 2
      (list_iterator_next exampleMem exampleList)).2.deref 2) = some cursorAfterEnd ∧
    (((list_iterator_copy
        ((Cursors.empty.alloc (list_iterator_create exampleMem exampleList)).2.call
          1 (list_iterator_next exampleMem exampleList)).2 1).2.call 2
      (list_iterator_next exampleMem exampleList)).2.deref 1) = some (cursorOn 4) ∧
    list_iterator_equal cursorAfterEnd (cursorOn 4) = false ∧
    list_iterator_get exampleMem (some (cursorOn 4)) = some 20 := by
  refine ⟨?_, ?_, ?_, ?_, ?_, ?_, ?_, ?_⟩ <;> decide

/-! ## The cursor-less scan at the end of the list -/

/-- C32 (divergence). On the list `[10, 20]`, the cursor-less scan
`list_get_first(list, 0)`, then `list_get_next(list, 0)` four times returns
`10`, `20`, NULL and then `10` and `20` again: after the call that returned
NULL the scan position is on the sentinel, and a further `list_get_next`
moves on to the first element and returns it. Backward, `list_get_last` and
four `list_get_prev` return `20`, `10`, NULL, `20`, `10`. -/
theorem list_get_next_wraps_after_end :
    (scan_forward exampleMem exampleList 2).1 = [some 10, some 20, none] ∧
    (scan_forward exampleMem exampleList 2).2.iterator = exampleList.head ∧
    (list_get_next exampleMem (scan_forward exampleMem exampleList 2).2 none).1 = some 10 ∧
    (scan_forward exampleMem exampleList 4).1 = [some 10, some 20, none, some 10, some 20] ∧
    (scan_backward exampleMem exampleList 2).1 = [some 20, some 10, none] ∧
    (list_get_prev exampleMem (scan_backward exampleMem exampleList 2).2 none).1 = some 20 ∧
    (scan_backward exampleMem exampleList 4).1
      = [some 20, some 10, none, some 20, some 10] := by
  refine ⟨?_, ?_, ?_, ?_, ?_, ?_, ?_⟩ <;> decide

/-- On every non-empty well-formed list, with the internal scan cursor on the
sentinel (where the call of `list_get_next(list, 0)` or `list_get_prev(list, 0)`
that returned NULL left it), a further `list_get_next(list, 0)` returns the
first element and a further `list_get_prev(list, 0)` the last one. -/
theorem list_get_next_from_sentinel {α : Type} (m : Mem α) (l : ListT) (xs : List α)
    (hwf : WellFormed m l xs) (hne : xs ≠ []) (hi : l.iterator = l.head) :
    (list_get_next m l none).1 = xs.head? ∧ xs.head?.isSome = true ∧
    (list_get_prev m l none).1 = xs.getLast? ∧ xs.getLast?.isSome = true := by
  obtain ⟨hs, ps, hr⟩ := hwf
  obtain ⟨-, -, -, -, h5, h6⟩ := ring_ends hr hne
  have hlen := fwdRing_length_eq hr.toFwdRing
  have hpos : 0 < xs.length := List.length_pos.2 hne
  have h0 : m.next l.head = node_at m l 0 := rfl
  have hlast : m.prev l.head = node_at m l (xs.length - 1) := by
    have hp := nextPath_first hr.prev
    rw [firstD_reverse] at hp
    rw [hp, node_at_ring hr.toFwdRing _ (by omega)]
    have hk : xs.length - 1 < ps.length := by omega
    rw [← lastD_take_succ ps (xs.length - 1) l.head l.head hk]
    have : xs.length - 1 + 1 = ps.length := by omega
    rw [this, List.take_length]
  refine ⟨?_, ?_, ?_, ?_⟩
  · simp [list_get_next, hi, h0, h5]
  · cases xs with
    | nil => exact absurd rfl hne
    | cons x xs' => rfl
  · simp [list_get_prev, hi, hlast, h6]
  · rw [List.getLast?_eq_getLast _ hne]; rfl

/-! ## The logical state of a cursor -/

/-- C33 (divergence). On the list `[10, 20]`, from the cursor
`list_iterator_create` returns:
* `list_get_last`, `list_get_next`, `list_get_prev` with the cursor (the
  sequence of the test) leave it on the element `20` with the after-end flag
  still set;
* two more `list_get_prev` leave it on the sentinel with both flags set;
* `list_iterator_start`, then `list_get_next` leave it on the element `10`
  with the before-start flag still set.
On the empty list, `list_get_last` with the cursor `list_iterator_create`
returns leaves it with both flags set. None of these is one of the three
logical states. -/
theorem cursor_state_broken_by_getters :
    WellFormed exampleMem exampleList [10, 20] ∧
    (moves exampleMem exampleList [CursorMove.get_last, CursorMove.get_next,
        CursorMove.get_prev]).2
      = some { list := 1, node := 4, end_edge := true, start_edge := false } ∧
    exampleMem.data 4 = some 20 ∧
    ¬ CursorState exampleList { list := 1, node := 4, end_edge := true, start_edge := false } ∧
    (moves exampleMem exampleList [CursorMove.get_last, CursorMove.get_next,
        CursorMove.get_prev, CursorMove.get_prev, CursorMove.get_prev]).2
      = some { list := 1, node := 2, end_edge := true, start_edge := true } ∧
    ¬ CursorState exampleList { list := 1, node := 2, end_edge := true, start_edge := true } ∧
    (moves exampleMem exampleList [CursorMove.iterator_start, CursorMove.get_next]).2
      = some { list := 1, node := 3, end_edge := false, start_edge := true } ∧
    ¬ CursorState exampleList { list := 1, node := 3, end_edge := false, start_edge := true } ∧
    WellFormed emptyMem emptyList ([] : List Int) ∧
    (moves emptyMem emptyList [CursorMove.get_last]).2
      = some { list := 1, node := 2, end_edge := true, start_edge := true } ∧
    ¬ CursorState emptyList { list := 1, node := 2, end_edge := true, start_edge := true } := by
  refine ⟨exampleList_wellFormed, ?_, ?_, ?_, ?_, ?_, ?_, ?_, emptyList_wellFormed, ?_, ?_⟩ <;>
    decide

/-- One call of a `list_iterator_*` mover keeps a cursor in one of the three
logical states. -/
theorem move_iterator_state {α : Type} (m : Mem α) (l : ListT) (it : Iter) (c : CursorMove)
    (hc : c ∈ [CursorMove.iterator_first, CursorMove.iterator_last, CursorMove.iterator_next,
      CursorMove.iterator_prev, CursorMove.iterator_start, CursorMove.iterator_end])
    (h : CursorState l it) :
    ∃ it', move m (l, some it) c = (l, some it') ∧ CursorState l it' := by
  obtain ⟨h1, h2, h3⟩ := h
  simp only [List.mem_cons, List.mem_singleton, List.not_mem_nil, or_false] at hc
  rcases hc with rfl | rfl | rfl | rfl | rfl | rfl
  · by_cases hn : __list_get_first m l = l.head
    · exact ⟨{ list := it.list, node := l.head, end_edge := false, start_edge := true },
        by simp [move, list_iterator_first, hn], by simp [CursorState]⟩
    · exact ⟨{ list := it.list, node := __list_get_first m l, end_edge := false,
               start_edge := false },
        by simp [move, list_iterator_first, hn], by simp [CursorState]⟩
  · by_cases hn : __list_get_last m l = l.head
    · exact ⟨{ list := it.list, node := l.head, end_edge := true, start_edge := false },
        by simp [move, list_iterator_last, hn], by simp [CursorState]⟩
    · exact ⟨{ list := it.list, node := __list_get_last m l, end_edge := false,
               start_edge := false },
        by simp [move, list_iterator_last, hn], by simp [CursorState]⟩
  · by_cases he : it.end_edge = true
    · exact ⟨it, by simp [move, list_iterator_next, he], h1, h2, h3⟩
    · by_cases hn : m.next it.node = l.head
      · exact ⟨{ list := it.list, node := l.head, end_edge := true, start_edge := false },
          by simp [move, list_iterator_next, he, hn], by simp [CursorState]⟩
      · exact ⟨{ list := it.list, node := m.next it.node, end_edge := false,
                 start_edge := false },
          by simp [move, list_iterator_next, he, hn], by simp [CursorState]⟩
  · by_cases he : it.start_edge = true
    · exact ⟨it, by simp [move, list_iterator_prev, he], h1, h2, h3⟩
    · by_cases hn : m.prev it.node = l.head
      · exact ⟨{ list := it.list, node := l.head, end_edge := false, start_edge := true },
          by simp [move, list_iterator_prev, he, hn], by simp [CursorState]⟩
      · exact ⟨{ list := it.list, node := m.prev it.node, end_edge := false,
                 start_edge := false },
          by simp [move, list_iterator_prev, he, hn], by simp [CursorState]⟩
  · exact ⟨{ list := it.list, node := l.head, end_edge := false, start_edge := true },
      by simp [move, list_iterator_start], by simp [CursorState]⟩
  · exact ⟨{ list := it.list, node := l.head, end_edge := true, start_edge := false },
      by simp [move, list_iterator_end], by simp [CursorState]⟩

/-- On a well-formed list, the cursor `list_iterator_create` returns is in one
of the three logical states, and stays so through any sequence of
`list_iterator_first`, `list_iterator_last`, `list_iterator_next`,
`list_iterator_prev`, `list_iterator_start` and `list_iterator_end` calls. -/
theorem cursor_state_iterator_moves {α : Type} (m : Mem α) (l : ListT) (xs : List α)
    (hwf : WellFormed m l xs) (calls : List CursorMove)
    (hc : ∀ c ∈ calls, c ∈ [CursorMove.iterator_first, CursorMove.iterator_last,
      CursorMove.iterator_next, CursorMove.iterator_prev, CursorMove.iterator_start,
      CursorMove.iterator_end]) :
    ∃ it, moves m l calls = (l, some it) ∧ CursorState l it := by
  have hgen : ∀ (calls : List CursorMove) (it : Iter),
      (∀ c ∈ calls, c ∈ [CursorMove.iterator_first, CursorMove.iterator_last,
        CursorMove.iterator_next, CursorMove.iterator_prev, CursorMove.iterator_start,
        CursorMove.iterator_end]) →
      CursorState l it →
      ∃ it', calls.foldl (move m) (l, some it) = (l, some it') ∧ CursorState l it' := by
    intro calls
    induction calls with
    | nil => intro it _ h; exact ⟨it, rfl, h⟩
    | cons c rest ih =>
      intro it hc h
      obtain ⟨it1, he, h1⟩ := move_iterator_state m l it c (hc c (List.mem_cons_self _ _)) h
      rw [List.foldl_cons, he]
      exact ih it1 (fun d hd => hc d (List.mem_cons_of_mem _ hd)) h1
  apply hgen calls _ hc
  obtain ⟨hs, ps, hr⟩ := hwf
  refine ⟨?_, ?_, ?_⟩
  · intro hst
    have h0 : l.size = 0 := by
      by_contra hne
      simp [list_iterator_create, hne] at hst
    have hps : ps = [] := by
      have := fwdRing_length_eq hr.toFwdRing
      exact List.length_eq_zero.1 (by omega)
    subst hps
    simpa [list_iterator_create, __list_get_first, nextPath] using hr.next
  · intro he
    simp [list_iterator_create] at he
  · simp [list_iterator_create]

/-! ## Insertion and removal by index, removal on a boundary -/

/-- C34 (divergence). On the list `[10, 20]`, `list_push_at(list, 1, 15)`
followed by `list_remove_at(list, 1)` both return `LIST_SUCCESS` and the size
is 2 again, but the forward contents are `[10, 15, 20]`: the node pushed has
`prev` pointing to itself, so unlinking it through `prev` leaves it in the
forward chain. With index 2 (the size) the forward contents end as
`[10, 20, 15]`. With index 0, where `list_push_at` is `list_push_front`, the
contents `[10, 20]` are restored. -/
theorem list_push_at_remove_at_not_inverse :
    WellFormed exampleMem exampleList [10, 20] ∧
    (list_push_at 4 int_copy exampleMem exampleList 1 (some 15)).bind (fun r =>
      (list_remove_at 4 r.2.1 r.2.2 1).map (fun r2 =>
        (r.1, r2.1, list_get_size r2.2.2, forward 5 r2.2.1 r2.2.2)))
      = some (LIST_SUCCESS, LIST_SUCCESS, 2, some [10, 15, 20]) ∧
    (list_push_at 4 int_copy exampleMem exampleList 2 (some 15)).bind (fun r =>
      (list_remove_at 4 r.2.1 r.2.2 2).map (fun r2 =>
        (r.1, r2.1, list_get_size r2.2.2, forward 5 r2.2.1 r2.2.2)))
      = some (LIST_SUCCESS, LIST_SUCCESS, 2, some [10, 20, 15]) ∧
    (list_push_at 4 int_copy exampleMem exampleList 0 (some 15)).bind (fun r =>
      (list_remove_at 4 r.2.1 r.2.2 0).map (fun r2 =>
        (r.1, r2.1, list_get_size r2.2.2, forward 5 r2.2.1 r2.2.2)))
      = some (LIST_SUCCESS, LIST_SUCCESS, 2, some [10, 20]) := by
  refine ⟨exampleList_wellFormed, ?_, ?_, ?_⟩ <;> decide

/-- With index 0 the round trip holds on every well-formed list: a successful
`list_push_at(list, 0, v)` followed by `list_remove_at(list, 0)` returns
`LIST_SUCCESS` and leaves a well-formed list with the contents and the size it
had. -/
theorem list_push_at_zero_remove_at {α : Type} (copy : α → Option α) (m : Mem α) (l : ListT)
    (xs : List α) (v v' : α) (fuel : Nat) (hwf : WellFormed m l xs) (hc : copy v = some v')
    (hf : list_get_size l + 1 < fuel) :
    ∃ m1 l1 m2 l2, list_push_at fuel copy m l 0 (some v) = some (LIST_SUCCESS, m1, l1) ∧
      list_remove_at fuel m1 l1 0 = some (LIST_SUCCESS, m2, l2) ∧
      WellFormed m2 l2 xs ∧ list_get_size l2 = list_get_size l ∧
      (∀ fuel', list_get_size l2 < fuel' → forward fuel' m2 l2 = some xs) := by
  obtain ⟨hs, ps, hr⟩ := hwf
  simp only [list_get_size] at hf ⊢
  obtain ⟨m1, he1, hr1, -, -⟩ := list_push_front_ring copy v v' hr hc
  obtain ⟨pre, p, post, m2, hsplit, hpre, he2, hr2, -⟩ :=
    list_remove_at_ring (l := { l with size := l.size + 1 }) 0 fuel hr1
      (by simp [hs]) (by simp) (by simpa using hf)
  have hpre' : pre = [] := List.length_eq_zero.1 hpre
  subst hpre'
  simp only [List.nil_append, List.cons.injEq] at hsplit
  obtain ⟨-, rfl⟩ := hsplit
  have hwf2 : WellFormed m2
      { id := l.id, size := size_dec (l.size + 1),
        iterator := if l.iterator = p then m1.next p else l.iterator, head := l.head } xs :=
    ⟨by simp [size_dec, hs], ps, by simpa using hr2⟩
  refine ⟨m1, _, m2, _, by simp [list_push_at, he1], he2, hwf2, by simp [size_dec],
    fun fuel' h => forward_of_wellFormed hwf2 h⟩

/-- C35 (divergence). On the list `[10, 20]`, `list_remove_iterator` with a
cursor parked on the sentinel at AFTER_END, or at BEFORE_START, returns
`LIST_SUCCESS`, unlinks the sentinel (the last node's `next` is now the first
node and the first node's `prev` the last node, so the forward traversal never
meets the sentinel again) and decrements the size to 1. On the empty list,
with the cursor `list_iterator_create` returns (at BEFORE_START), the size
wraps to `SIZE_MAX`. -/
theorem list_remove_iterator_on_boundary_unlinks_sentinel :
    WellFormed exampleMem exampleList [10, 20] ∧
    cursorAfterEnd.node = exampleList.head ∧ cursorAfterEnd.end_edge = true ∧
    (list_remove_iterator exampleMem exampleList (some cursorAfterEnd)).1 = LIST_SUCCESS ∧
    list_get_size (list_remove_iterator exampleMem exampleList (some cursorAfterEnd)).2.2.1
      = 1 ∧
    (list_remove_iterator exampleMem exampleList (some cursorAfterEnd)).2.1.next 4 = 3 ∧
    (list_remove_iterator exampleMem exampleList (some cursorAfterEnd)).2.1.prev 3 = 4 ∧
    forward 100 (list_remove_iterator exampleMem exampleList (some cursorAfterEnd)).2.1
      (list_remove_iterator exampleMem exampleList (some cursorAfterEnd)).2.2.1 = none ∧
    cursorBeforeStart.node = exampleList.head ∧ cursorBeforeStart.start_edge = true ∧
    (list_remove_iterator exampleMem exampleList (some cursorBeforeStart)).1 = LIST_SUCCESS ∧
    list_get_size
      (list_remove_iterator exampleMem exampleList (some cursorBeforeStart)).2.2.1 = 1 ∧
    (list_remove_iterator exampleMem exampleList (some cursorBeforeStart)).2.1.next 4 = 3 ∧
    WellFormed emptyMem emptyList ([] : List Int) ∧
    (list_remove_iterator emptyMem emptyList
      (some (list_iterator_create emptyMem emptyList))).1 = LIST_SUCCESS ∧
    list_get_size (list_remove_iterator emptyMem emptyList
      (some (list_iterator_create emptyMem emptyList))).2.2.1 = SIZE_MAX := by
  refine ⟨exampleList_wellFormed, ?_, ?_, ?_, ?_, ?_, ?_, ?_, ?_, ?_, ?_, ?_, ?_,
    emptyList_wellFormed, ?_, ?_⟩ <;> decide

/-! ## The tests' compare callback on 32-bit integers -/

/-- On every pair of integers whose difference fits a 32-bit `int`, the
callback computed with wrapping is `int_compare`. -/
theorem int_compare_wrapped_eq (a b : Int) (hlo : -2147483648 ≤ a - b)
    (hhi : a - b ≤ 2147483647) : int_compare_wrapped a b = int_compare a b := by
  simp only [int_compare_wrapped, wrap_int32, int_compare]
  omega

/-- Computed with wrapping, the callback is not transitive on the whole range
of `int`: `INT_MAX` is put before `-1` and `-1` before `0`, but `INT_MAX` is
not put before `0`. So it is no total preorder there, and the theorems on
`list_sort`, which assume one, say nothing about lists that hold such
values. -/
theorem int_compare_wrapped_not_totalPreorder : ¬ TotalPreorder int_compare_wrapped := by
  intro h
  have := h.trans 2147483647 (-1) 0 (by decide) (by decide)
  exact absurd this (by decide)

/-- `list_sort` with the wrapping callback on the list `[INT_MAX, -1]`
returns `LIST_SUCCESS` and leaves the order `[INT_MAX, -1]`. -/
theorem list_sort_wrapped_example :
    (list_sort 3 int_copy int_compare_wrapped (build_list [2147483647, -1]).1
        (build_list [2147483647, -1]).2).map
      (fun r => (r.1, forward 3 r.2.1 r.2.2))
      = some (LIST_SUCCESS, some [2147483647, -1]) := by
  decide

end CLinkedList
